import Mathlib

/-!
# Verification of the stew tree-indexing and query package

This file gives a shallow embedding of the Go package `stew` (file
`stew.go`) into Lean 4 and proves properties of that embedding.

The embedding covers:

* the raw parse-tree data (`html.Node` from `golang.org/x/net/html`) as an
  inductive tree `HNode` with a node-kind discriminator, tag/text data,
  attribute list and ordered children;
* the indexed tree built by `NewFromNode`, represented as a flat state
  `BState` keyed by the breadth-first position (`Pos`) of each `Stew`
  node.  Go pointer identity of `*Stew` values is exactly their `Pos`
  field (positions are assigned uniquely at allocation), so positions
  are used as node identities.  The mutable `map[*Stew]struct{}` sets
  stored in `Descs` are shared between nodes after the upward merge
  aliases them (`curr.Descs[key] = value`); the embedding keeps this
  sharing observable by storing set identifiers in each node's
  descendant association list (`descsf`) and the set contents in a
  separate store (`storef`).
* the queries `Stew.FindAll`, `Stew.Find`, and the package-level
  breadth-first closures `FindAll` / `Find` built on `generateLookup`.

Where Go iterates a hash map in unspecified order, the embedding fixes
insertion order; statements proved about such data treat the results
as sets/permutations, which is order-independent.
-/

namespace StewVerify

/-! ## Raw parse tree (the external parser's node type)

`html.Node` exposes a node-kind discriminator, a `Data` string (tag
name for elements, text content for text nodes), an attribute list and
child links.  Only `ElementNode` and `TextNode` are treated specially
by `stew.go`; every other kind (document, comment, doctype, ...) is
lumped into `other`, except that the *root* node handed to
`NewFromNode` still contributes its `Data` and `Attr` fields, which the
embedding keeps. -/

inductive NKind where
  | element : NKind
  | text : NKind
  | other : NKind
deriving DecidableEq, Repr

structure HAttr where
  key : String
  val : String
deriving DecidableEq, Repr

inductive HNode where
  | mk : NKind → String → List HAttr → List HNode → HNode

instance : Inhabited HNode := ⟨HNode.mk NKind.other "" [] []⟩

mutual
def beqH : HNode → HNode → Bool
  | HNode.mk k d a ks, HNode.mk k2 d2 a2 ks2 =>
    decide (k = k2) && decide (d = d2) && decide (a = a2) && beqL ks ks2
def beqL : List HNode → List HNode → Bool
  | [], [] => true
  | c :: cs, c2 :: cs2 => beqH c c2 && beqL cs cs2
  | [], _ :: _ => false
  | _ :: _, [] => false
end

mutual
theorem beqH_iff : ∀ a b : HNode, beqH a b = true ↔ a = b
  | HNode.mk k d a ks, HNode.mk k2 d2 a2 ks2 => by
    simp only [beqH, Bool.and_eq_true, decide_eq_true_eq, HNode.mk.injEq]
    constructor
    · rintro ⟨⟨⟨h1, h2⟩, h3⟩, h4⟩
      exact ⟨h1, h2, h3, (beqL_iff ks ks2).mp h4⟩
    · rintro ⟨h1, h2, h3, h4⟩
      exact ⟨⟨⟨h1, h2⟩, h3⟩, (beqL_iff ks ks2).mpr h4⟩
theorem beqL_iff : ∀ l1 l2 : List HNode, beqL l1 l2 = true ↔ l1 = l2
  | [], [] => by simp [beqL]
  | c :: cs, c2 :: cs2 => by
    simp only [beqL, Bool.and_eq_true, List.cons.injEq]
    constructor
    · rintro ⟨h1, h2⟩
      exact ⟨(beqH_iff c c2).mp h1, (beqL_iff cs cs2).mp h2⟩
    · rintro ⟨h1, h2⟩
      exact ⟨(beqH_iff c c2).mpr h1, (beqL_iff cs cs2).mpr h2⟩
  | [], _ :: _ => by simp [beqL]
  | _ :: _, [] => by simp [beqL]
end

instance : DecidableEq HNode := fun a b => decidable_of_iff _ (beqH_iff a b)

def HNode.kind : HNode → NKind
  | HNode.mk k _ _ _ => k

def HNode.data : HNode → String
  | HNode.mk _ d _ _ => d

def HNode.attr : HNode → List HAttr
  | HNode.mk _ _ a _ => a

def HNode.kids : HNode → List HNode
  | HNode.mk _ _ _ ks => ks

/-- `strings.TrimSpace`: strip leading and trailing whitespace.  Modelled
on the character list so that the kernel can evaluate it (the built-in
`String.trim` does not reduce definitionally). -/
def trimF (s : String) : String :=
  String.mk (((s.data.dropWhile Char.isWhitespace).reverse.dropWhile
    Char.isWhitespace).reverse)


mutual
/-- Size of a raw tree (number of nodes), a breadth-first termination
measure. -/
def hsize : HNode → Nat
  | HNode.mk _ _ _ ks => 1 + hsizeL ks
/-- Total size of a forest. -/
def hsizeL : List HNode → Nat
  | [] => 0
  | c :: cs => hsize c + hsizeL cs
end

mutual
/-- All node occurrences of a raw tree, root first. -/
def allNodes : HNode → List HNode
  | HNode.mk k d a ks => HNode.mk k d a ks :: allNodesL ks
/-- All node occurrences of a forest. -/
def allNodesL : List HNode → List HNode
  | [] => []
  | c :: cs => allNodes c ++ allNodesL cs
end

theorem hsize_pos (t : HNode) : 0 < hsize t := by
  cases t with
  | mk k d a ks => simp [hsize]

theorem hsizeL_append (l1 l2 : List HNode) :
    hsizeL (l1 ++ l2) = hsizeL l1 + hsizeL l2 := by
  induction l1 with
  | nil => simp [hsizeL]
  | cons c cs ih => simp [hsizeL, ih]; omega

theorem hsizeL_kids_lt (t : HNode) : hsizeL t.kids < hsize t := by
  cases t with
  | mk k d a ks => simp [hsize, HNode.kids]

theorem allNodesL_eq_bind (l : List HNode) :
    allNodesL l = l.bind allNodes := by
  induction l with
  | nil => simp [allNodesL]
  | cons c cs ih => simp [allNodesL, ih]

theorem allNodes_eq_cons (t : HNode) :
    allNodes t = t :: t.kids.bind allNodes := by
  cases t with
  | mk k d a ks => simp [allNodes, allNodesL_eq_bind, HNode.kids]

theorem self_mem_allNodes (t : HNode) : t ∈ allNodes t := by
  rw [allNodes_eq_cons]; exact List.mem_cons_self _ _

theorem queue_measure_lt (t : HNode) (q : List HNode) :
    hsizeL (q ++ t.kids) < hsizeL (t :: q) := by
  have h := hsizeL_kids_lt t
  simp only [hsizeL_append, hsizeL]
  omega

/-- Strong induction over breadth-first queues by total size. -/
theorem queue_strong_ind (P : List HNode → Prop)
    (h : ∀ q, (∀ r, hsizeL r < hsizeL q → P r) → P q) : ∀ q, P q := by
  have key : ∀ w q, hsizeL q ≤ w → P q := by
    intro w
    induction w with
    | zero =>
      intro q hq
      apply h
      intro r hr
      omega
    | succ w ih =>
      intro q hq
      apply h
      intro r hr
      apply ih
      omega
  intro q
  exact key (hsizeL q) q le_rfl

/-! ## Breadth-first closure search (`generateLookup`, package-level
`FindAll`/`Find`)

`generateLookup(query)` returns a function that seeds a FIFO queue with
the root, repeatedly pops a node, records it if the predicate holds,
and enqueues all of its children; results are collected in discovery
order.  `genRun` is that loop, parameterised by the whole queue. -/

def genRun (pred : HNode → Bool) : List HNode → List HNode
  | [] => []
  | t :: q => (if pred t then [t] else []) ++ genRun pred (q ++ t.kids)
termination_by q => hsizeL q
decreasing_by
  exact queue_measure_lt _ _

/-- The breadth-first visit order itself (every popped node, matched or
not). -/
def visitList : List HNode → List HNode
  | [] => []
  | t :: q => t :: visitList (q ++ t.kids)
termination_by q => hsizeL q
decreasing_by
  exact queue_measure_lt _ _

/-- Predicate used by package-level `FindAll`: fold of
`isTarget || node.Data == tag` over the requested tags. -/
def elemPred (tags : List String) (nd : HNode) : Bool :=
  tags.any (fun tg => nd.data = tg)

/-- Predicate used by package-level `Find`: the first attribute whose
key matches decides the outcome (`return attr.Val == attrVal`). -/
def attrPred (attrKey attrVal : String) (nd : HNode) : Bool :=
  match nd.attr.find? (fun a => a.key = attrKey) with
  | some a => a.val = attrVal
  | none => false

/-- Package-level `FindAll(tags...)` applied to a raw root. -/
def findAllQ (tags : List String) (root : HNode) : List HNode :=
  genRun (elemPred tags) [root]

/-- Package-level `Find(attrKey, attrVal)` applied to a raw root. -/
def findQ (attrKey attrVal : String) (root : HNode) : List HNode :=
  genRun (attrPred attrKey attrVal) [root]

theorem genRun_eq_filter_visitList (pred : HNode → Bool) :
    ∀ q : List HNode, genRun pred q = (visitList q).filter pred := by
  apply queue_strong_ind (fun q => genRun pred q = (visitList q).filter pred)
  intro q ih
  cases q with
  | nil => simp [genRun, visitList]
  | cons t rest =>
    rw [genRun, visitList]
    rw [ih _ (queue_measure_lt t rest)]
    by_cases hp : pred t <;> simp [hp, List.filter]

theorem visitList_perm_bind :
    ∀ q : List HNode, (visitList q).Perm (q.bind allNodes) := by
  apply queue_strong_ind (fun q => (visitList q).Perm (q.bind allNodes))
  intro q ih
  cases q with
  | nil => simp [visitList]
  | cons t rest =>
    rw [visitList]
    have hrec := ih _ (queue_measure_lt t rest)
    have h1 : (t :: visitList (rest ++ t.kids)).Perm
        (t :: (rest.bind allNodes ++ t.kids.bind allNodes)) := by
      refine List.Perm.cons t ?_
      simpa [List.append_bind] using hrec
    refine h1.trans ?_
    have h2 : (t :: (rest.bind allNodes ++ t.kids.bind allNodes)).Perm
        ((t :: t.kids.bind allNodes) ++ rest.bind allNodes) := by
      refine (List.Perm.cons t List.perm_append_comm).trans ?_
      simp
    refine h2.trans ?_
    have h3 : (t :: rest).bind allNodes = allNodes t ++ rest.bind allNodes := by
      simp
    rw [h3, allNodes_eq_cons]

theorem visitList_root_perm (root : HNode) :
    (visitList [root]).Perm (allNodes root) := by
  have h := visitList_perm_bind [root]
  simpa using h

/-! ## The indexed tree (`Stew`) as a flat state

A `Stew` node is identified by its `Pos` field (a `Nat`): positions are
handed out by a single incrementing counter, so they are in bijection
with the allocated Go pointers.  The state holds, for every position,
the `Tag`, `Parent`, `Children` and `Attrs` fields.  `Descs` is split
in two: `descsf p` is the association list from tag name to a *set
identifier* (insertion-ordered, mirroring the Go map's key set), and
`storef s` is the content of set `s` (insertion-ordered, read as a
set).  This models the Go `map[*Stew]struct{}` values as shared mutable
objects: the upward pass's `curr.Descs[key] = value` aliases the
child's set into the parent, and mutations through either alias are
visible to both — exactly as in the Go code.

`srcf` and `processed` are ghost instrumentation (write-only in the
algorithm): `srcf p` records which raw node position `p` was built
from, and `processed` records the order in which the upward pass pops
nodes.  `upVisits` counters are `Int`-valued: Go's `uint` map values
only ever reach zero after exactly as many decrements as previous
increments (`upVisits[curr.Parent]--` on a fresh key wraps to the
maximum `uint`, which compares unequal to zero just as a negative
`Int` does, for any document with fewer than 2^64 nodes). -/

def updF {α β : Type} [DecidableEq α] (f : α → β) (k : α) (v : β) : α → β :=
  fun x => if x = k then v else f x

theorem updF_same {α β : Type} [DecidableEq α] (f : α → β) (k : α) (v : β) :
    updF f k v k = v := by simp [updF]

theorem updF_other {α β : Type} [DecidableEq α] (f : α → β) (k : α) (v : β)
    (x : α) (h : x ≠ k) : updF f k v x = f x := by simp [updF, h]

structure BState where
  nextPos : Nat
  tagf : Nat → String
  parentf : Nat → Option Nat
  childrenf : Nat → List Nat
  attrsf : Nat → String → List String
  descsf : Nat → List (String × Nat)
  storef : Nat → List Nat
  nextSet : Nat
  upVisits : Nat → Int
  upQueue : List Nat
  processed : List Nat
  srcf : Nat → HNode

/-- First-match association-list lookup (the Go map read
`sNode.Descs[key]`). -/
def alookup : List (String × Nat) → String → Option Nat
  | [], _ => none
  | (a, b) :: t, k => if a = k then some b else alookup t k

/-- Set insertion on the list representation of a Go set
(`descs[v] = struct{}{}`). -/
def insertOnce (l : List Nat) (x : Nat) : List Nat :=
  if x ∈ l then l else l ++ [x]

/-- Set union into a target set (`for v := range value { descs[v] = struct{}{} }`). -/
def unionInto (dst src : List Nat) : List Nat :=
  src.foldl insertOnce dst

/-- The set reachable as `p.Descs[tg]` (empty when the key is absent). -/
def descsSet (st : BState) (p : Nat) (tg : String) : List Nat :=
  match alookup (st.descsf p) tg with
  | some s => st.storef s
  | none => []

/-! ### Downward pass of `NewFromNode` -/

/-- Copy one raw node's attribute list into the indexed node
(`sNode.Attrs[attr.Key] = append(sNode.Attrs[attr.Key], attr.Val)`). -/
def stepAttrs (sp : Nat) (l : List HAttr) (st : BState) : BState :=
  l.foldl
    (fun acc a =>
      { acc with
        attrsf := updF acc.attrsf sp
          (updF (acc.attrsf sp) a.key (acc.attrsf sp a.key ++ [a.val])) })
    st

/-- Record a freshly allocated element child under its tag in the
parent's descendant index (seed set containing just the child). -/
def seedDesc (sp : Nat) (tg : String) (cp : Nat) (st : BState) : BState :=
  match alookup (st.descsf sp) tg with
  | some s => { st with storef := updF st.storef s (insertOnce (st.storef s) cp) }
  | none =>
      { st with
        descsf := updF st.descsf sp (st.descsf sp ++ [(tg, st.nextSet)]),
        storef := updF st.storef st.nextSet [cp],
        nextSet := st.nextSet + 1 }

/-- Process the children of the raw node being expanded: allocate
element children (position, tag, parent link, children slot, seed,
pending-children counter), fold trimmed non-empty text into the
reserved empty attribute key, ignore every other kind.  Returns the
new state and the (raw child, new position) pairs to enqueue. -/
def stepKids (sp : Nat) : List HNode → BState → BState × List (HNode × Nat)
  | [], st => (st, [])
  | c :: cs, st =>
    match c.kind with
    | NKind.element =>
      let cp := st.nextPos
      let st1 : BState :=
        { st with
          nextPos := cp + 1,
          tagf := updF st.tagf cp c.data,
          parentf := updF st.parentf cp (some sp),
          srcf := updF st.srcf cp c,
          childrenf := updF st.childrenf sp (st.childrenf sp ++ [cp]),
          upVisits := updF st.upVisits sp (st.upVisits sp + 1) }
      let st2 := seedDesc sp c.data cp st1
      let pr := stepKids sp cs st2
      (pr.1, (c, cp) :: pr.2)
    | NKind.text =>
      let tx := trimF c.data
      let st1 := if tx.length > 0
        then { st with
          attrsf := updF st.attrsf sp
            (updF (st.attrsf sp) "" (st.attrsf sp "" ++ [tx])) }
        else st
      stepKids sp cs st1
    | NKind.other => stepKids sp cs st

/-- After expanding a node, enqueue it into the upward queue when its
descendant index is empty (`if len(sNode.Descs) == 0`). -/
def leafCheck (sp : Nat) (st : BState) : BState :=
  if st.descsf sp = [] then { st with upQueue := st.upQueue ++ [sp] } else st

/-- One iteration of the downward loop for the pair `(h, sp)`. -/
def downStep (h : HNode) (sp : Nat) (st : BState) : BState × List (HNode × Nat) :=
  let pr := stepKids sp h.kids (stepAttrs sp h.attr st)
  (leafCheck sp pr.1, pr.2)

theorem stepKids_pairs_sub (sp : Nat) :
    ∀ (kids : List HNode) (st : BState),
      ∀ pr ∈ (stepKids sp kids st).2, pr.1 ∈ kids := by
  intro kids
  induction kids with
  | nil => intro st pr hpr; simp [stepKids] at hpr
  | cons c cs ih =>
    intro st pr hpr
    rcases hc : c.kind with _ | _ | _ <;> simp only [stepKids, hc] at hpr
    · rcases List.mem_cons.mp hpr with h1 | h2
      · subst h1; exact List.mem_cons_self _ _
      · exact List.mem_cons_of_mem _ (ih _ _ h2)
    · exact List.mem_cons_of_mem _ (ih _ _ hpr)
    · exact List.mem_cons_of_mem _ (ih _ _ hpr)

theorem weight_le_of_sub (sp : Nat) :
    ∀ (kids : List HNode) (st : BState),
      hsizeL ((stepKids sp kids st).2.map Prod.fst) ≤ hsizeL kids := by
  intro kids
  induction kids with
  | nil => intro st; simp [stepKids, hsizeL]
  | cons c cs ih =>
    intro st
    rcases hc : c.kind with _ | _ | _ <;>
      simp only [stepKids, hc, List.map_cons, hsizeL]
    · exact Nat.add_le_add_left (ih _) _
    · exact le_trans (ih _) (Nat.le_add_left _ _)
    · exact le_trans (ih _) (Nat.le_add_left _ _)

theorem downStep_weight (h : HNode) (sp : Nat) (st : BState) :
    hsizeL ((downStep h sp st).2.map Prod.fst) < hsize h := by
  have h1 := weight_le_of_sub sp h.kids (stepAttrs sp h.attr st)
  have h2 := hsizeL_kids_lt h
  simp only [downStep]
  omega

/-- The downward breadth-first loop of `NewFromNode`. -/
def down : List (HNode × Nat) → BState → BState
  | [], st => st
  | (h, sp) :: rest, st => down (rest ++ (downStep h sp st).2) (downStep h sp st).1
termination_by q => hsizeL (q.map Prod.fst)
decreasing_by
  have h1 := downStep_weight h sp st
  simp only [List.map_append, hsizeL_append, List.map_cons, hsizeL]
  omega

/-! ### Upward pass of `NewFromNode` -/

/-- Merge one key of a child's descendant index into the current node:
if the key exists, union the child's set into the current set
(mutating it in place); otherwise *alias* the child's set into the
current node's index (`curr.Descs[key] = value` — the Go map value is
a reference, so parent and child now share one set object). -/
def mergeKey (curr : Nat) (tg : String) (sid : Nat) (st : BState) : BState :=
  match alookup (st.descsf curr) tg with
  | some s => { st with storef := updF st.storef s (unionInto (st.storef s) (st.storef sid)) }
  | none => { st with descsf := updF st.descsf curr (st.descsf curr ++ [(tg, sid)]) }

/-- Merge a whole child's descendant index into `curr`
(`for key, value := range child.Descs`). -/
def mergeChild (curr c : Nat) (st : BState) : BState :=
  (st.descsf c).foldl (fun acc kv => mergeKey curr kv.1 kv.2 acc) st

/-- Merge every child of `curr` (`for _, child := range curr.Children`). -/
def mergeChildren (curr : Nat) (st : BState) : BState :=
  (st.childrenf curr).foldl (fun acc c => mergeChild curr c acc) st

/-- One iteration of the upward loop: pop the queue head, merge its
children's descendant maps, decrement the parent's pending-children
counter, and enqueue the parent when the counter reaches zero.  (The
Go code also decrements a counter keyed by the nil parent pointer when
`curr` is the root; that counter is never read, so the embedding skips
it.)  `processed` is ghost instrumentation recording the pop order. -/
def upStep (st : BState) : BState :=
  match st.upQueue with
  | [] => st
  | curr :: rest =>
    let st1 := mergeChildren curr
      { st with upQueue := rest, processed := st.processed ++ [curr] }
    match st1.parentf curr with
    | none => st1
    | some pa =>
      let v := st1.upVisits pa - 1
      let st2 := { st1 with upVisits := updF st1.upVisits pa v }
      if v = 0 then { st2 with upQueue := st2.upQueue ++ [pa] } else st2

/-- The upward loop, fuelled.  `NewFromNode` runs it with fuel equal to
the number of indexed nodes, which is proved sufficient to drain the
queue (theorem for claim C9), so the fuelled form is extensionally the
Go `for upQueue.Length() > 0` loop. -/
def upRun : Nat → BState → BState
  | 0, st => st
  | fuel + 1, st =>
    match st.upQueue with
    | [] => st
    | _ :: _ => upRun fuel (upStep st)

/-- Initial state: the root `Stew` node has position 0 and carries the
raw root's `Data` as its tag. -/
def initState (root : HNode) : BState where
  nextPos := 1
  tagf := updF (fun _ => "") 0 root.data
  parentf := fun _ => none
  childrenf := fun _ => []
  attrsf := fun _ _ => []
  descsf := fun _ => []
  storef := fun _ => []
  nextSet := 0
  upVisits := fun _ => 0
  upQueue := []
  processed := []
  srcf := updF (fun _ => default) 0 root

/-- `NewFromNode`: the downward structural pass followed by the upward
descendant-merge pass. -/
def newFromNode (root : HNode) : BState :=
  let stD := down [(root, 0)] (initState root)
  upRun stD.nextPos stD

/-! ### Queries on the indexed tree -/

/-- `Stew.FindAll(tags...)`: the node itself when its tag is among the
requested tags, plus `Descs[tag]` for every requested tag, collected
as a set.  Go materialises the set in unspecified map order; the
embedding uses first-insertion order (self first, then the requested
tags in order), which is the same list up to permutation. -/
def findAllM (st : BState) (p : Nat) (tags : List String) : List Nat :=
  let start : List Nat := if tags.contains (st.tagf p) then [p] else []
  tags.foldl
    (fun acc tg =>
      match alookup (st.descsf p) tg with
      | some s => unionInto acc (st.storef s)
      | none => acc)
    start

/-- `Stew.Find(attrKey, attrVal)`.  The Go self-test loop is
`for _, attrVal := range this.Attrs[attrKey] { if attrVal == attrVal`:
the loop variable shadows the parameter and is compared against
itself, so the node matches itself whenever `Attrs[attrKey]` is
non-empty, regardless of the requested value.  The embedding
reproduces that bug faithfully.  Descendants are tested correctly
(`val == attrVal` against the outer parameter). -/
def findM (st : BState) (p : Nat) (attrKey attrVal : String) : List Nat :=
  let start : List Nat :=
    match st.attrsf p attrKey with
    | [] => []
    | _ :: _ => [p]
  (st.descsf p).foldl
    (fun acc kv =>
      (st.storef kv.2).foldl
        (fun acc2 s =>
          if (st.attrsf s attrKey).contains attrVal then acc2 ++ [s] else acc2)
        acc)
    start

/-! ### Derived structural notions used in the statements -/

/-- The list of positions of the indexed subtree rooted at `p`
(fuelled; fuel `st.nextPos` is always enough because children have
strictly larger positions). -/
def treeListF (st : BState) : Nat → Nat → List Nat
  | 0, _ => []
  | fuel + 1, p => p :: (st.childrenf p).bind (treeListF st fuel)

/-- `Under par x a` : `a` is an ancestor-or-self of `x` along the
parent links `par`. -/
inductive Under (par : Nat → Option Nat) : Nat → Nat → Prop where
  | refl (p : Nat) : Under par p p
  | up {p q r : Nat} : Under par p q → par q = some r → Under par p r

/-- Positions of the whole indexed tree whose tag is among `tags`. -/
def matchPos (st : BState) (tags : List String) : List Nat :=
  (List.range st.nextPos).filter (fun p => tags.contains (st.tagf p))

mutual
/-- Well-formedness of a parser-produced tree: only element nodes have
children.  (`html.Parse` never attaches children to text, comment or
doctype nodes.) -/
def hwf : HNode → Bool
  | HNode.mk k _ _ ks => (decide (k = NKind.element) || ks.isEmpty) && hwfL ks
/-- Well-formedness of a forest. -/
def hwfL : List HNode → Bool
  | [] => true
  | c :: cs => hwf c && hwfL cs
end

/-- The trimmed, non-empty text contents of the direct text-node
children of an element, in document order. -/
def trimmedTexts : List HNode → List String
  | [] => []
  | c :: cs =>
    match c.kind with
    | NKind.text =>
      (if (trimF c.data).length > 0 then [trimF c.data] else []) ++ trimmedTexts cs
    | _ => trimmedTexts cs

/-- Number of element-kind occurrences in a raw tree. -/
def elemCount (t : HNode) : Nat :=
  ((allNodes t).filter (fun o => decide (o.kind = NKind.element))).length

/-! ## Basic lemmas about the set and association-list operations -/

theorem mem_insertOnce {l : List Nat} {x y : Nat} :
    x ∈ insertOnce l y ↔ x ∈ l ∨ x = y := by
  by_cases h : y ∈ l
  · simp only [insertOnce, if_pos h]
    constructor
    · exact Or.inl
    · rintro (hx | rfl)
      · exact hx
      · exact h
  · simp [insertOnce, if_neg h]

theorem insertOnce_nodup {l : List Nat} {y : Nat} (h : l.Nodup) :
    (insertOnce l y).Nodup := by
  by_cases hy : y ∈ l
  · simpa [insertOnce, if_pos hy]
  · simp only [insertOnce, if_neg hy]
    simpa [List.nodup_append, h]

theorem insertOnce_sub {l : List Nat} {y : Nat} : l ⊆ insertOnce l y := by
  intro a ha
  exact mem_insertOnce.mpr (Or.inl ha)

theorem mem_unionInto {dst src : List Nat} {x : Nat} :
    x ∈ unionInto dst src ↔ x ∈ dst ∨ x ∈ src := by
  induction src generalizing dst with
  | nil => simp [unionInto]
  | cons a t ih =>
    show x ∈ unionInto (insertOnce dst a) t ↔ _
    rw [ih]
    simp [mem_insertOnce]
    tauto

theorem unionInto_nodup {dst src : List Nat} (h : dst.Nodup) :
    (unionInto dst src).Nodup := by
  induction src generalizing dst with
  | nil => simpa [unionInto]
  | cons a t ih =>
    exact ih (insertOnce_nodup h)

theorem unionInto_sub_left {dst src : List Nat} : dst ⊆ unionInto dst src := by
  intro a ha
  exact mem_unionInto.mpr (Or.inl ha)

theorem alookup_mem {l : List (String × Nat)} {k : String} {s : Nat}
    (h : alookup l k = some s) : (k, s) ∈ l := by
  induction l with
  | nil => simp [alookup] at h
  | cons a t ih =>
    obtain ⟨a1, a2⟩ := a
    by_cases hk : a1 = k
    · subst hk
      simp only [alookup, if_true, Option.some.injEq, eq_self_iff_true] at h
      simp only [h] at *
      exact List.mem_cons_self _ _
    · simp only [alookup, if_neg hk] at h
      exact List.mem_cons_of_mem _ (ih h)

theorem alookup_isSome_iff {l : List (String × Nat)} {k : String} :
    (alookup l k).isSome = true ↔ k ∈ l.map Prod.fst := by
  induction l with
  | nil => simp [alookup]
  | cons a t ih =>
    obtain ⟨a1, a2⟩ := a
    by_cases hk : a1 = k
    · subst hk
      simp [alookup]
    · simp [alookup, if_neg hk, ih, Ne.symm hk]

theorem alookup_eq_none_iff {l : List (String × Nat)} {k : String} :
    alookup l k = none ↔ k ∉ l.map Prod.fst := by
  rw [← alookup_isSome_iff]
  cases h : alookup l k <;> simp [h]

theorem alookup_append {l l2 : List (String × Nat)} {k : String} :
    alookup (l ++ l2) k =
      match alookup l k with
      | some s => some s
      | none => alookup l2 k := by
  induction l with
  | nil => simp [alookup]
  | cons a t ih =>
    obtain ⟨a1, a2⟩ := a
    by_cases hk : a1 = k
    · subst hk
      simp [alookup]
    · simp only [List.cons_append, alookup, if_neg hk]
      exact ih

theorem alookup_append_of_some {l l2 : List (String × Nat)} {k : String} {s : Nat}
    (h : alookup l k = some s) : alookup (l ++ l2) k = some s := by
  rw [alookup_append, h]

theorem alookup_append_of_none {l l2 : List (String × Nat)} {k : String}
    (h : alookup l k = none) : alookup (l ++ l2) k = alookup l2 k := by
  rw [alookup_append, h]

theorem alookup_of_mem_nodupkeys {l : List (String × Nat)} {k : String} {s : Nat}
    (hmem : (k, s) ∈ l) (hnd : (l.map Prod.fst).Nodup) : alookup l k = some s := by
  induction l with
  | nil => cases hmem
  | cons a t ih =>
    obtain ⟨a1, a2⟩ := a
    simp only [List.map_cons, List.nodup_cons] at hnd
    rcases List.mem_cons.mp hmem with h1 | h2
    · have h1a : k = a1 ∧ s = a2 := by
        constructor <;> [exact congrArg Prod.fst h1; exact congrArg Prod.snd h1]
      obtain ⟨rfl, rfl⟩ := h1a
      simp [alookup]
    · have hk : a1 ≠ k := by
        intro he
        subst he
        exact hnd.1 (by simpa using List.mem_map_of_mem Prod.fst h2)
      simp only [alookup, if_neg hk]
      exact ih h2 hnd.2

/-! ## Downward-pass analysis -/

/-- Attribute map an element ends up with after its downward
processing: per key, the attribute values in document order, and under
the reserved empty key additionally the trimmed non-empty direct text
children, in document order. -/
def attrSpecF (h : HNode) (k : String) : List String :=
  ((h.attr.filter (fun a => decide (a.key = k))).map HAttr.val) ++
    (if k = "" then trimmedTexts h.kids else [])

/-- The element-kind children of a kid list. -/
def elemKidsL (kids : List HNode) : List HNode :=
  kids.filter (fun c => decide (c.kind = NKind.element))

theorem stepAttrs_post (sp : Nat) :
    ∀ (l : List HAttr) (st : BState),
      ((stepAttrs sp l st).attrsf sp = fun k =>
        st.attrsf sp k ++ (l.filter (fun a => decide (a.key = k))).map HAttr.val) ∧
      (∀ x, x ≠ sp → (stepAttrs sp l st).attrsf x = st.attrsf x) ∧
      (stepAttrs sp l st).nextPos = st.nextPos ∧
      (stepAttrs sp l st).tagf = st.tagf ∧
      (stepAttrs sp l st).parentf = st.parentf ∧
      (stepAttrs sp l st).childrenf = st.childrenf ∧
      (stepAttrs sp l st).descsf = st.descsf ∧
      (stepAttrs sp l st).storef = st.storef ∧
      (stepAttrs sp l st).nextSet = st.nextSet ∧
      (stepAttrs sp l st).upVisits = st.upVisits ∧
      (stepAttrs sp l st).upQueue = st.upQueue ∧
      (stepAttrs sp l st).processed = st.processed ∧
      (stepAttrs sp l st).srcf = st.srcf := by
  intro l
  induction l with
  | nil =>
    intro st
    refine ⟨?_, ?_, rfl, rfl, rfl, rfl, rfl, rfl, rfl, rfl, rfl, rfl, rfl⟩
    · funext k
      simp [stepAttrs]
    · intro x hx
      simp [stepAttrs]
  | cons a t ih =>
    intro st
    have hstep : stepAttrs sp (a :: t) st =
        stepAttrs sp t
          { st with
            attrsf := updF st.attrsf sp
              (updF (st.attrsf sp) a.key (st.attrsf sp a.key ++ [a.val])) } := by
      simp [stepAttrs]
    rw [hstep]
    obtain ⟨h1, h2, h3, h4, h5, h6, h7, h8, h9, h10, h11, h12, h13⟩ := ih _
    refine ⟨?_, ?_, h3, h4, h5, h6, h7, h8, h9, h10, h11, h12, h13⟩
    · funext k
      rw [congrFun h1 k]
      simp only [updF_same]
      by_cases hk : a.key = k
      · subst hk
        simp [updF_same, List.filter]
      · rw [updF_other _ _ _ _ (Ne.symm hk)]
        simp [List.filter, hk]
    · intro x hx
      rw [h2 x hx]
      simp [updF, hx]

/-- Invariant on the node `sp` currently being expanded downward (and
global set-identifier facts), preserved by every child step. -/
structure SeedInv (sp : Nat) (st : BState) : Prop where
  dset : ∀ tg, descsSet st sp tg =
    (st.childrenf sp).filter (fun c => decide (st.tagf c = tg))
  dkeys : ∀ tg, (alookup (st.descsf sp) tg).isSome = true ↔
    ∃ c ∈ st.childrenf sp, st.tagf c = tg
  ids_glob : ∀ p tg s, alookup (st.descsf p) tg = some s → s < st.nextSet
  sole : ∀ tg s, alookup (st.descsf sp) tg = some s →
    ∀ p2 tg2, alookup (st.descsf p2) tg2 = some s → p2 = sp ∧ tg2 = tg
  keys_nodup : ((st.descsf sp).map Prod.fst).Nodup
  child_lt : ∀ c ∈ st.childrenf sp, c < st.nextPos
  sfresh : ∀ s, st.nextSet ≤ s → st.storef s = []

theorem insertOnce_of_not_mem {l : List Nat} {x : Nat} (h : x ∉ l) :
    insertOnce l x = l ++ [x] := by
  simp [insertOnce, h]

/-- Effect of seeding one freshly allocated child into the descendant
index of the node being expanded. -/
structure SeedPost (sp : Nat) (tg : String) (cp : Nat) (st st2 : BState) : Prop where
  npos : st2.nextPos = st.nextPos
  tagE : st2.tagf = st.tagf
  parE : st2.parentf = st.parentf
  chE : st2.childrenf = st.childrenf
  atE : st2.attrsf = st.attrsf
  visE : st2.upVisits = st.upVisits
  upqE : st2.upQueue = st.upQueue
  procE : st2.processed = st.processed
  srcE : st2.srcf = st.srcf
  d_other : ∀ x, x ≠ sp → st2.descsf x = st.descsf x
  ids_mono : st.nextSet ≤ st2.nextSet
  dset_tg : descsSet st2 sp tg = descsSet st sp tg ++ [cp]
  dset_ne : ∀ k, k ≠ tg → descsSet st2 sp k = descsSet st sp k
  keys_iff : ∀ k, (alookup (st2.descsf sp) k).isSome = true ↔
    ((alookup (st.descsf sp) k).isSome = true ∨ k = tg)
  ids_glob : ∀ p k s, alookup (st2.descsf p) k = some s → s < st2.nextSet
  sole : ∀ k s, alookup (st2.descsf sp) k = some s →
    ∀ p2 k2, alookup (st2.descsf p2) k2 = some s → p2 = sp ∧ k2 = k
  keys_nodup : ((st2.descsf sp).map Prod.fst).Nodup
  sfresh : ∀ s, st2.nextSet ≤ s → st2.storef s = []
  store_keep : ∀ s, s < st.nextSet → (∀ k, alookup (st.descsf sp) k ≠ some s) →
    st2.storef s = st.storef s
  ids_from : ∀ k s, alookup (st2.descsf sp) k = some s →
    alookup (st.descsf sp) k = some s ∨ st.nextSet ≤ s

theorem seedDesc_post (sp : Nat) (tg : String) (cp : Nat) (st : BState)
    (hids : ∀ p k s, alookup (st.descsf p) k = some s → s < st.nextSet)
    (hsole : ∀ k s, alookup (st.descsf sp) k = some s →
      ∀ p2 k2, alookup (st.descsf p2) k2 = some s → p2 = sp ∧ k2 = k)
    (hnd : ((st.descsf sp).map Prod.fst).Nodup)
    (helem : ∀ k s, alookup (st.descsf sp) k = some s → cp ∉ st.storef s)
    (hsfresh : ∀ s, st.nextSet ≤ s → st.storef s = []) :
    SeedPost sp tg cp st (seedDesc sp tg cp st) := by
  rcases hlk : alookup (st.descsf sp) tg with _ | s0
  · -- key absent: append a fresh set identifier
    have hfreshset : st.storef st.nextSet = [] := hsfresh _ le_rfl
    have hout : seedDesc sp tg cp st =
        { st with
          descsf := updF st.descsf sp (st.descsf sp ++ [(tg, st.nextSet)]),
          storef := updF st.storef st.nextSet [cp],
          nextSet := st.nextSet + 1 } := by
      simp [seedDesc, hlk]
    rw [hout]
    have hDsp : (updF st.descsf sp (st.descsf sp ++ [(tg, st.nextSet)])) sp =
        st.descsf sp ++ [(tg, st.nextSet)] := updF_same _ _ _
    have hlook : ∀ k, alookup (st.descsf sp ++ [(tg, st.nextSet)]) k =
        match alookup (st.descsf sp) k with
        | some s => some s
        | none => if tg = k then some st.nextSet else none := by
      intro k
      rw [alookup_append]
      cases alookup (st.descsf sp) k <;> simp [alookup]
    refine
      { npos := rfl, tagE := rfl, parE := rfl, chE := rfl, atE := rfl,
        visE := rfl, upqE := rfl, procE := rfl, srcE := rfl,
        d_other := ?_, ids_mono := ?_, dset_tg := ?_, dset_ne := ?_,
        keys_iff := ?_, ids_glob := ?_, sole := ?_, keys_nodup := ?_,
        sfresh := ?_, store_keep := ?_, ids_from := ?_ }
    · intro x hx
      simp [updF_other _ _ _ _ hx]
    · simp
    · show descsSet _ sp tg = descsSet st sp tg ++ [cp]
      have h0 : descsSet st sp tg = [] := by simp [descsSet, hlk]
      simp only [descsSet, hDsp, hlook tg, hlk, if_pos rfl, h0]
      simp [updF_same]
    · intro k hk
      show descsSet _ sp k = descsSet st sp k
      simp only [descsSet, hDsp, hlook k]
      rcases h2 : alookup (st.descsf sp) k with _ | s2
      · simp [Ne.symm hk]
      · have hs2 : s2 < st.nextSet := hids _ _ _ h2
        dsimp only
        rw [updF_other _ _ _ _ (by omega)]
    · intro k
      dsimp only
      rw [hDsp, hlook k]
      rcases h2 : alookup (st.descsf sp) k with _ | s2
      · by_cases hkt : tg = k
        · rw [if_pos hkt]
          constructor
          · intro _
            exact Or.inr hkt.symm
          · intro _
            rfl
        · rw [if_neg hkt]
          constructor
          · intro hfalse
            simp at hfalse
          · rintro (hfalse | hkeq)
            · simp at hfalse
            · exact absurd hkeq.symm hkt
      · simp
    · intro p k s
      dsimp only
      by_cases hp : p = sp
      · rw [hp, hDsp, hlook k]
        rcases h2 : alookup (st.descsf sp) k with _ | s2
        · by_cases hkt : tg = k
          · rw [if_pos hkt]
            intro h3
            have he := Option.some.inj h3
            omega
          · rw [if_neg hkt]
            intro h3
            cases h3
        · intro h3
          have he := Option.some.inj h3
          have := hids _ _ _ h2
          omega
      · rw [updF_other _ _ _ _ hp]
        intro h2
        have := hids _ _ _ h2
        omega
    · intro k s h1 p2 k2 h2
      dsimp only at h1 h2
      rw [hDsp, hlook k] at h1
      by_cases hp : p2 = sp
      · rw [hp] at h2 ⊢
        rw [hDsp, hlook k2] at h2
        refine ⟨rfl, ?_⟩
        rcases ha : alookup (st.descsf sp) k with _ | sa
        · rw [ha] at h1
          by_cases hkt : tg = k
          · rw [if_pos hkt] at h1
            rcases hb : alookup (st.descsf sp) k2 with _ | sb
            · rw [hb] at h2
              by_cases hkt2 : tg = k2
              · rw [if_pos hkt2] at h2
                rw [← hkt2, hkt]
              · rw [if_neg hkt2] at h2
                cases h2
            · rw [hb] at h2
              have hsb := hids _ _ _ hb
              have he1 : st.nextSet = s := Option.some.inj h1
              have he2 : sb = s := Option.some.inj h2
              omega
          · rw [if_neg hkt] at h1
            cases h1
        · rw [ha] at h1
          have hsa := hids _ _ _ ha
          have hes : sa = s := Option.some.inj h1
          subst hes
          rcases hb : alookup (st.descsf sp) k2 with _ | sb
          · rw [hb] at h2
            by_cases hkt2 : tg = k2
            · rw [if_pos hkt2] at h2
              have he2 : st.nextSet = sa := Option.some.inj h2
              omega
            · rw [if_neg hkt2] at h2
              cases h2
          · rw [hb] at h2
            have hes2 : sb = sa := Option.some.inj h2
            subst hes2
            exact (hsole _ _ ha _ _ hb).2
      · rw [updF_other _ _ _ _ hp] at h2
        have hs2 := hids _ _ _ h2
        rcases ha : alookup (st.descsf sp) k with _ | sa
        · rw [ha] at h1
          by_cases hkt : tg = k
          · rw [if_pos hkt] at h1
            have he1 : st.nextSet = s := Option.some.inj h1
            omega
          · rw [if_neg hkt] at h1; cases h1
        · rw [ha] at h1
          have hes : sa = s := Option.some.inj h1
          subst hes
          exact (hsole _ _ ha _ _ h2)
    · dsimp only
      rw [hDsp]
      have htgnot : tg ∉ (st.descsf sp).map Prod.fst := by
        rw [← alookup_eq_none_iff]
        exact hlk
      simp only [List.map_append, List.map_cons, List.map_nil]
      rw [List.nodup_append]
      refine ⟨hnd, List.nodup_singleton _, ?_⟩
      intro a ha
      simp only [List.mem_singleton]
      intro he
      subst he
      exact htgnot ha
    · intro s hs
      dsimp only at hs ⊢
      rw [updF_other _ _ _ _ (by omega)]
      exact hsfresh _ (by omega)
    · intro s hs hnot
      dsimp only
      rw [updF_other _ _ _ _ (by omega)]
    · intro k s hl
      dsimp only at hl
      rw [hDsp, hlook k] at hl
      rcases h2 : alookup (st.descsf sp) k with _ | s2
      · rw [h2] at hl
        by_cases hkt : tg = k
        · rw [if_pos hkt] at hl
          have he := Option.some.inj hl
          right
          omega
        · rw [if_neg hkt] at hl
          cases hl
      · rw [h2] at hl
        have he := Option.some.inj hl
        left
        rw [he]
  · -- key present: union the child into the existing set
    have hout : seedDesc sp tg cp st =
        { st with storef := updF st.storef s0 (insertOnce (st.storef s0) cp) } := by
      simp [seedDesc, hlk]
    rw [hout]
    have hins : insertOnce (st.storef s0) cp = st.storef s0 ++ [cp] :=
      insertOnce_of_not_mem (helem _ _ hlk)
    have hs0 : s0 < st.nextSet := hids _ _ _ hlk
    refine
      { npos := rfl, tagE := rfl, parE := rfl, chE := rfl, atE := rfl,
        visE := rfl, upqE := rfl, procE := rfl, srcE := rfl,
        d_other := fun x hx => rfl, ids_mono := le_rfl,
        dset_tg := ?_, dset_ne := ?_, keys_iff := ?_, ids_glob := ?_,
        sole := ?_, keys_nodup := hnd, sfresh := ?_, store_keep := ?_,
        ids_from := ?_ }
    · simp only [descsSet, hlk]
      simp [updF_same, hins]
    · intro k hk
      simp only [descsSet]
      rcases h2 : alookup (st.descsf sp) k with _ | s2
      · rfl
      · have hne : s2 ≠ s0 := by
          intro he
          rw [he] at h2
          exact hk (hsole _ _ h2 _ _ hlk).2.symm
        dsimp only
        rw [updF_other _ _ _ _ hne]
    · intro k
      constructor
      · intro h
        exact Or.inl h
      · rintro (h | rfl)
        · exact h
        · simp [hlk]
    · intro p k s h2
      dsimp only at h2 ⊢
      have := hids _ _ _ h2
      omega
    · intro k s h1 p2 k2 h2
      dsimp only at h1 h2
      exact hsole _ _ h1 _ _ h2
    · intro s hs
      dsimp only at hs ⊢
      have hlt : s0 < st.nextSet := hids _ _ _ hlk
      rw [updF_other _ _ _ _ (by omega)]
      exact hsfresh _ hs
    · intro s hs hnot
      dsimp only
      have hne : s ≠ s0 := by
        intro he
        subst he
        exact hnot tg hlk
      rw [updF_other _ _ _ _ hne]
    · intro k s hl
      dsimp only at hl
      exact Or.inl hl

theorem elemKidsL_cons_elem {c : HNode} {cs : List HNode}
    (h : c.kind = NKind.element) : elemKidsL (c :: cs) = c :: elemKidsL cs := by
  simp [elemKidsL, h]

theorem elemKidsL_cons_ne {c : HNode} {cs : List HNode}
    (h : c.kind ≠ NKind.element) : elemKidsL (c :: cs) = elemKidsL cs := by
  simp [elemKidsL, h]

theorem trimmedTexts_cons_text {c : HNode} {cs : List HNode}
    (h : c.kind = NKind.text) : trimmedTexts (c :: cs) =
      (if (trimF c.data).length > 0 then [trimF c.data] else []) ++ trimmedTexts cs := by
  cases c with
  | mk k d a ks =>
    simp only [HNode.kind] at h
    subst h
    simp [trimmedTexts, HNode.kind, HNode.data]

theorem trimmedTexts_cons_skip {c : HNode} {cs : List HNode}
    (h : c.kind ≠ NKind.text) : trimmedTexts (c :: cs) = trimmedTexts cs := by
  cases c with
  | mk k d a ks =>
    simp only [HNode.kind] at h
    cases k with
    | element => simp [trimmedTexts, HNode.kind]
    | text => exact absurd rfl h
    | other => simp [trimmedTexts, HNode.kind]

/-- Cumulative effect of `stepKids` on the state. -/
structure KidsPost (sp : Nat) (kids : List HNode) (st st2 : BState)
    (prs : List (HNode × Nat)) : Prop where
  npos : st2.nextPos = st.nextPos + (elemKidsL kids).length
  prs_fst : prs.map Prod.fst = elemKidsL kids
  prs_bounds : ∀ pr ∈ prs, st.nextPos ≤ pr.2 ∧ pr.2 < st2.nextPos
  prs_onto : ∀ x, st.nextPos ≤ x → x < st2.nextPos → ∃ pr ∈ prs, pr.2 = x
  prs_sorted : List.Pairwise (fun a b => a < b) (prs.map Prod.snd)
  children_sp : st2.childrenf sp = st.childrenf sp ++ prs.map Prod.snd
  children_other : ∀ x, x ≠ sp → st2.childrenf x = st.childrenf x
  tag_new : ∀ pr ∈ prs, st2.tagf pr.2 = pr.1.data
  src_new : ∀ pr ∈ prs, st2.srcf pr.2 = pr.1
  par_new : ∀ pr ∈ prs, st2.parentf pr.2 = some sp
  tag_old : ∀ x, x < st.nextPos → st2.tagf x = st.tagf x
  src_old : ∀ x, x < st.nextPos → st2.srcf x = st.srcf x
  par_old : ∀ x, x < st.nextPos → st2.parentf x = st.parentf x
  par_big : ∀ x, st2.nextPos ≤ x → st2.parentf x = st.parentf x
  attrs_sp : ∀ k, st2.attrsf sp k =
    st.attrsf sp k ++ (if k = "" then trimmedTexts kids else [])
  attrs_other : ∀ x, x ≠ sp → st2.attrsf x = st.attrsf x
  visits_sp : st2.upVisits sp = st.upVisits sp + ((elemKidsL kids).length : Int)
  visits_other : ∀ x, x ≠ sp → st2.upVisits x = st.upVisits x
  descs_other : ∀ x, x ≠ sp → st2.descsf x = st.descsf x
  store_keep : ∀ s, s < st.nextSet → (∀ k, alookup (st.descsf sp) k ≠ some s) →
    st2.storef s = st.storef s
  ids_from : ∀ k s, alookup (st2.descsf sp) k = some s →
    alookup (st.descsf sp) k = some s ∨ st.nextSet ≤ s
  ids_mono : st.nextSet ≤ st2.nextSet
  upq : st2.upQueue = st.upQueue
  procq : st2.processed = st.processed
  inv : SeedInv sp st2

/-- Summary of absorbing one element child during `stepKids`. -/
structure ElemAlloc (sp : Nat) (c : HNode) (st stB : BState) : Prop where
  npos : stB.nextPos = st.nextPos + 1
  tag_n : stB.tagf st.nextPos = c.data
  tag_o : ∀ x, x ≠ st.nextPos → stB.tagf x = st.tagf x
  par_n : stB.parentf st.nextPos = some sp
  par_o : ∀ x, x ≠ st.nextPos → stB.parentf x = st.parentf x
  src_n : stB.srcf st.nextPos = c
  src_o : ∀ x, x ≠ st.nextPos → stB.srcf x = st.srcf x
  ch_sp : stB.childrenf sp = st.childrenf sp ++ [st.nextPos]
  ch_o : ∀ x, x ≠ sp → stB.childrenf x = st.childrenf x
  at_e : stB.attrsf = st.attrsf
  vis_sp : stB.upVisits sp = st.upVisits sp + 1
  vis_o : ∀ x, x ≠ sp → stB.upVisits x = st.upVisits x
  d_o : ∀ x, x ≠ sp → stB.descsf x = st.descsf x
  store_keep : ∀ s, s < st.nextSet → (∀ k, alookup (st.descsf sp) k ≠ some s) →
    stB.storef s = st.storef s
  ids_from : ∀ k s, alookup (stB.descsf sp) k = some s →
    alookup (st.descsf sp) k = some s ∨ st.nextSet ≤ s
  ids_mono : st.nextSet ≤ stB.nextSet
  upq : stB.upQueue = st.upQueue
  procq : stB.processed = st.processed
  inv : SeedInv sp stB

theorem stepKids_elem_step (sp : Nat) (c : HNode) (st : BState)
    (hc : c.kind = NKind.element) (hsp : sp < st.nextPos) (hinv : SeedInv sp st) :
    ∀ cs, stepKids sp (c :: cs) st =
      ((stepKids sp cs (seedDesc sp c.data st.nextPos
        { st with
          nextPos := st.nextPos + 1,
          tagf := updF st.tagf st.nextPos c.data,
          parentf := updF st.parentf st.nextPos (some sp),
          srcf := updF st.srcf st.nextPos c,
          childrenf := updF st.childrenf sp (st.childrenf sp ++ [st.nextPos]),
          upVisits := updF st.upVisits sp (st.upVisits sp + 1) })).1,
       (c, st.nextPos) ::
        (stepKids sp cs (seedDesc sp c.data st.nextPos
          { st with
            nextPos := st.nextPos + 1,
            tagf := updF st.tagf st.nextPos c.data,
            parentf := updF st.parentf st.nextPos (some sp),
            srcf := updF st.srcf st.nextPos c,
            childrenf := updF st.childrenf sp (st.childrenf sp ++ [st.nextPos]),
            upVisits := updF st.upVisits sp (st.upVisits sp + 1) })).2) ∧
    ElemAlloc sp c st (seedDesc sp c.data st.nextPos
      { st with
        nextPos := st.nextPos + 1,
        tagf := updF st.tagf st.nextPos c.data,
        parentf := updF st.parentf st.nextPos (some sp),
        srcf := updF st.srcf st.nextPos c,
        childrenf := updF st.childrenf sp (st.childrenf sp ++ [st.nextPos]),
        upVisits := updF st.upVisits sp (st.upVisits sp + 1) }) := by
  have hunf : ∀ cs, stepKids sp (c :: cs) st =
      ((stepKids sp cs (seedDesc sp c.data st.nextPos
        { st with
          nextPos := st.nextPos + 1,
          tagf := updF st.tagf st.nextPos c.data,
          parentf := updF st.parentf st.nextPos (some sp),
          srcf := updF st.srcf st.nextPos c,
          childrenf := updF st.childrenf sp (st.childrenf sp ++ [st.nextPos]),
          upVisits := updF st.upVisits sp (st.upVisits sp + 1) })).1,
       (c, st.nextPos) ::
        (stepKids sp cs (seedDesc sp c.data st.nextPos
          { st with
            nextPos := st.nextPos + 1,
            tagf := updF st.tagf st.nextPos c.data,
            parentf := updF st.parentf st.nextPos (some sp),
            srcf := updF st.srcf st.nextPos c,
            childrenf := updF st.childrenf sp (st.childrenf sp ++ [st.nextPos]),
            upVisits := updF st.upVisits sp (st.upVisits sp + 1) })).2) := by
    intro cs
    simp only [stepKids, hc]
  refine fun cs => ⟨hunf cs, ?_⟩
  clear hunf
  -- the intermediate allocated state
  have hSP : SeedPost sp c.data st.nextPos
      { st with
        nextPos := st.nextPos + 1,
        tagf := updF st.tagf st.nextPos c.data,
        parentf := updF st.parentf st.nextPos (some sp),
        srcf := updF st.srcf st.nextPos c,
        childrenf := updF st.childrenf sp (st.childrenf sp ++ [st.nextPos]),
        upVisits := updF st.upVisits sp (st.upVisits sp + 1) }
      (seedDesc sp c.data st.nextPos
        { st with
          nextPos := st.nextPos + 1,
          tagf := updF st.tagf st.nextPos c.data,
          parentf := updF st.parentf st.nextPos (some sp),
          srcf := updF st.srcf st.nextPos c,
          childrenf := updF st.childrenf sp (st.childrenf sp ++ [st.nextPos]),
          upVisits := updF st.upVisits sp (st.upVisits sp + 1) }) := by
    apply seedDesc_post
    · exact hinv.ids_glob
    · exact hinv.sole
    · exact hinv.keys_nodup
    · intro k s hl hmem
      have hd : st.storef s = descsSet st sp k := by
        simp [descsSet, hl]
      rw [hd, hinv.dset k] at hmem
      have hcl := hinv.child_lt _ (List.mem_of_mem_filter hmem)
      omega
    · exact hinv.sfresh
  -- name the two states for readability of the remaining goals
  generalize hBe :
    (seedDesc sp c.data st.nextPos
      { st with
        nextPos := st.nextPos + 1,
        tagf := updF st.tagf st.nextPos c.data,
        parentf := updF st.parentf st.nextPos (some sp),
        srcf := updF st.srcf st.nextPos c,
        childrenf := updF st.childrenf sp (st.childrenf sp ++ [st.nextPos]),
        upVisits := updF st.upVisits sp (st.upVisits sp + 1) }) = stB at hSP ⊢
  have npos : stB.nextPos = st.nextPos + 1 := by rw [hSP.npos]
  have tag_n : stB.tagf st.nextPos = c.data := by
    rw [hSP.tagE]
    exact updF_same _ _ _
  have tag_o : ∀ x, x ≠ st.nextPos → stB.tagf x = st.tagf x := by
    intro x hx
    rw [hSP.tagE]
    exact updF_other _ _ _ _ hx
  have par_n : stB.parentf st.nextPos = some sp := by
    rw [hSP.parE]
    exact updF_same _ _ _
  have par_o : ∀ x, x ≠ st.nextPos → stB.parentf x = st.parentf x := by
    intro x hx
    rw [hSP.parE]
    exact updF_other _ _ _ _ hx
  have src_n : stB.srcf st.nextPos = c := by
    rw [hSP.srcE]
    exact updF_same _ _ _
  have src_o : ∀ x, x ≠ st.nextPos → stB.srcf x = st.srcf x := by
    intro x hx
    rw [hSP.srcE]
    exact updF_other _ _ _ _ hx
  have ch_sp : stB.childrenf sp = st.childrenf sp ++ [st.nextPos] := by
    rw [hSP.chE]
    exact updF_same _ _ _
  have ch_o : ∀ x, x ≠ sp → stB.childrenf x = st.childrenf x := by
    intro x hx
    rw [hSP.chE]
    exact updF_other _ _ _ _ hx
  have vis_sp : stB.upVisits sp = st.upVisits sp + 1 := by
    rw [hSP.visE]
    exact updF_same _ _ _
  have vis_o : ∀ x, x ≠ sp → stB.upVisits x = st.upVisits x := by
    intro x hx
    rw [hSP.visE]
    exact updF_other _ _ _ _ hx
  have hinvB : SeedInv sp stB := by
    refine
      { dset := ?_, dkeys := ?_, ids_glob := hSP.ids_glob, sole := hSP.sole,
        keys_nodup := hSP.keys_nodup, child_lt := ?_, sfresh := hSP.sfresh }
    · intro tg
      rw [ch_sp, List.filter_append]
      have hfold : (st.childrenf sp).filter (fun x => decide (stB.tagf x = tg)) =
          (st.childrenf sp).filter (fun x => decide (st.tagf x = tg)) := by
        apply List.filter_congr
        intro x hxmem
        have hlt := hinv.child_lt _ hxmem
        rw [tag_o x (by omega)]
      rw [hfold]
      by_cases htg : tg = c.data
      · rw [htg, hSP.dset_tg]
        have h2 : descsSet st sp c.data ++ [st.nextPos] =
            (st.childrenf sp).filter (fun x => decide (st.tagf x = c.data)) ++
              List.filter (fun x => decide (stB.tagf x = c.data)) [st.nextPos] := by
          rw [hinv.dset c.data]
          have hdec : decide (stB.tagf st.nextPos = c.data) = true := by
            simp [tag_n]
          simp [List.filter, hdec]
        exact h2
      · rw [hSP.dset_ne tg htg]
        have h2 : descsSet st sp tg =
            (st.childrenf sp).filter (fun x => decide (st.tagf x = tg)) ++
              List.filter (fun x => decide (stB.tagf x = tg)) [st.nextPos] := by
          rw [hinv.dset tg]
          have hdec : decide (stB.tagf st.nextPos = tg) = false := by
            rw [tag_n]
            simp only [decide_eq_false_iff_not]
            intro he
            exact htg he.symm
          simp [List.filter, hdec]
        exact h2
    · intro tg
      rw [hSP.keys_iff tg, ch_sp]
      have hL : (alookup (st.descsf sp) tg).isSome = true ↔
          ∃ x ∈ st.childrenf sp, st.tagf x = tg := hinv.dkeys tg
      constructor
      · rintro (h1 | rfl)
        · obtain ⟨x, hx, hxt⟩ := hL.mp h1
          refine ⟨x, List.mem_append_left _ hx, ?_⟩
          rw [tag_o x (by have := hinv.child_lt _ hx; omega), hxt]
        · exact ⟨st.nextPos, List.mem_append_right _ (List.mem_singleton_self _), tag_n⟩
      · rintro ⟨x, hx, hxt⟩
        rcases List.mem_append.mp hx with hx1 | hx2
        · left
          apply hL.mpr
          refine ⟨x, hx1, ?_⟩
          rw [← tag_o x (by have := hinv.child_lt _ hx1; omega)]
          exact hxt
        · right
          rw [List.mem_singleton] at hx2
          subst hx2
          rw [← hxt, tag_n]
    · intro x hx
      rw [ch_sp] at hx
      rw [npos]
      rcases List.mem_append.mp hx with h1 | h2
      · have := hinv.child_lt _ h1
        omega
      · rw [List.mem_singleton] at h2
        omega
  exact
    { npos := npos, tag_n := tag_n, tag_o := tag_o, par_n := par_n,
      par_o := par_o, src_n := src_n, src_o := src_o, ch_sp := ch_sp,
      ch_o := ch_o, at_e := hSP.atE, vis_sp := vis_sp, vis_o := vis_o,
      d_o := hSP.d_other, store_keep := hSP.store_keep,
      ids_from := hSP.ids_from, ids_mono := hSP.ids_mono, upq := hSP.upqE,
      procq := hSP.procE, inv := hinvB }

theorem stepKids_post (sp : Nat) :
    ∀ (kids : List HNode) (st : BState), sp < st.nextPos → SeedInv sp st →
      KidsPost sp kids st (stepKids sp kids st).1 (stepKids sp kids st).2 := by
  intro kids
  induction kids with
  | nil =>
    intro st hsp hinv
    have hk : stepKids sp [] st = (st, []) := rfl
    rw [hk]
    exact
      { npos := by simp [elemKidsL],
        prs_fst := by simp [elemKidsL],
        prs_bounds := by simp,
        prs_onto := by
          intro x h1 h2
          simp [elemKidsL] at h2
          omega,
        prs_sorted := by simp,
        children_sp := by simp,
        children_other := fun x _ => rfl,
        tag_new := by simp,
        src_new := by simp,
        par_new := by simp,
        tag_old := fun x _ => rfl,
        src_old := fun x _ => rfl,
        par_old := fun x _ => rfl,
        par_big := fun x _ => rfl,
        attrs_sp := by simp [trimmedTexts],
        attrs_other := fun x _ => rfl,
        visits_sp := by simp [elemKidsL],
        visits_other := fun x _ => rfl,
        descs_other := fun x _ => rfl,
        store_keep := fun s _ _ => rfl,
        ids_from := fun k s h => Or.inl h,
        ids_mono := le_rfl,
        upq := rfl,
        procq := rfl,
        inv := hinv }
  | cons c cs ih =>
    intro st hsp hinv
    rcases hc : c.kind with _ | _ | _
    · -- element child
      obtain ⟨hunf, hEA⟩ := stepKids_elem_step sp c st hc hsp hinv cs
      rw [hunf]
      dsimp only
      generalize hBe :
        (seedDesc sp c.data st.nextPos
          { st with
            nextPos := st.nextPos + 1,
            tagf := updF st.tagf st.nextPos c.data,
            parentf := updF st.parentf st.nextPos (some sp),
            srcf := updF st.srcf st.nextPos c,
            childrenf := updF st.childrenf sp (st.childrenf sp ++ [st.nextPos]),
            upVisits := updF st.upVisits sp (st.upVisits sp + 1) }) = stB at hunf hEA ⊢
      have hspB : sp < stB.nextPos := by
        rw [hEA.npos]
        omega
      have KP := ih stB hspB hEA.inv
      have hek : elemKidsL (c :: cs) = c :: elemKidsL cs := elemKidsL_cons_elem hc
      have htt : trimmedTexts (c :: cs) = trimmedTexts cs :=
        trimmedTexts_cons_skip (by rw [hc]; intro hcc; cases hcc)
      refine
        { npos := ?_, prs_fst := ?_, prs_bounds := ?_, prs_onto := ?_,
          prs_sorted := ?_,
          children_sp := ?_, children_other := ?_, tag_new := ?_, src_new := ?_,
          par_new := ?_, tag_old := ?_, src_old := ?_, par_old := ?_,
          par_big := ?_, attrs_sp := ?_, attrs_other := ?_, visits_sp := ?_,
          visits_other := ?_, descs_other := ?_, store_keep := ?_,
          ids_from := ?_, ids_mono := ?_, upq := ?_, procq := ?_, inv := KP.inv }
      · rw [KP.npos, hEA.npos, hek]
        simp
        omega
      · rw [List.map_cons, KP.prs_fst, hek]
      · intro pr hpr
        rcases List.mem_cons.mp hpr with h1 | h2
        · subst h1
          have h2 := KP.npos
          rw [hEA.npos] at h2
          simp only []
          constructor
          · exact le_rfl
          · omega
        · have hb := KP.prs_bounds pr h2
          have h3 := hEA.npos
          omega
      · intro x h1 h2
        by_cases hx : x = st.nextPos
        · exact ⟨(c, st.nextPos), List.mem_cons_self _ _, hx.symm⟩
        · have h3 := hEA.npos
          obtain ⟨pr, hpr, hpre⟩ := KP.prs_onto x (by omega) h2
          exact ⟨pr, List.mem_cons_of_mem _ hpr, hpre⟩
      · rw [List.map_cons]
        rw [List.pairwise_cons]
        constructor
        · intro a ha
          obtain ⟨pr, hpr, hpr2⟩ := List.mem_map.mp ha
          have hb := (KP.prs_bounds pr hpr).1
          rw [hEA.npos] at hb
          omega
        · exact KP.prs_sorted
      · rw [KP.children_sp, hEA.ch_sp, List.map_cons, List.append_assoc]
        rfl
      · intro x hx
        rw [KP.children_other x hx, hEA.ch_o x hx]
      · intro pr hpr
        rcases List.mem_cons.mp hpr with h1 | h2
        · subst h1
          rw [KP.tag_old _ (by rw [hEA.npos]; omega)]
          exact hEA.tag_n
        · exact KP.tag_new pr h2
      · intro pr hpr
        rcases List.mem_cons.mp hpr with h1 | h2
        · subst h1
          rw [KP.src_old _ (by rw [hEA.npos]; omega)]
          exact hEA.src_n
        · exact KP.src_new pr h2
      · intro pr hpr
        rcases List.mem_cons.mp hpr with h1 | h2
        · subst h1
          rw [KP.par_old _ (by rw [hEA.npos]; omega)]
          exact hEA.par_n
        · exact KP.par_new pr h2
      · intro x hx
        rw [KP.tag_old x (by rw [hEA.npos]; omega)]
        exact hEA.tag_o x (by omega)
      · intro x hx
        rw [KP.src_old x (by rw [hEA.npos]; omega)]
        exact hEA.src_o x (by omega)
      · intro x hx
        rw [KP.par_old x (by rw [hEA.npos]; omega)]
        exact hEA.par_o x (by omega)
      · intro x hx
        rw [KP.par_big x hx]
        apply hEA.par_o
        have h1 := hEA.npos
        have h2 := KP.npos
        omega
      · intro k
        rw [KP.attrs_sp k, congrFun (congrFun hEA.at_e sp) k, htt]
      · intro x hx
        rw [KP.attrs_other x hx, congrFun hEA.at_e x]
      · rw [KP.visits_sp, hEA.vis_sp, hek]
        simp only [List.length_cons]
        push_cast
        ring
      · intro x hx
        rw [KP.visits_other x hx, hEA.vis_o x hx]
      · intro x hx
        rw [KP.descs_other x hx, hEA.d_o x hx]
      · intro s hs hnot
        have h1 : stB.storef s = st.storef s := hEA.store_keep s hs hnot
        have h2 : ∀ k, alookup (stB.descsf sp) k ≠ some s := by
          intro k hk
          rcases hEA.ids_from k s hk with h3 | h3
          · exact hnot k h3
          · omega
        rw [KP.store_keep s (by have := hEA.ids_mono; omega) h2, h1]
      · intro k s hk
        rcases KP.ids_from k s hk with h1 | h1
        · rcases hEA.ids_from k s h1 with h2 | h2
          · exact Or.inl h2
          · exact Or.inr h2
        · right
          have := hEA.ids_mono
          omega
      · have h1 := hEA.ids_mono
        have h2 := KP.ids_mono
        omega
      · rw [KP.upq, hEA.upq]
      · rw [KP.procq, hEA.procq]
    · -- text child
      have hunf : stepKids sp (c :: cs) st =
          stepKids sp cs
            (if (trimF c.data).length > 0
              then { st with
                attrsf := updF st.attrsf sp
                  (updF (st.attrsf sp) "" (st.attrsf sp "" ++ [trimF c.data])) }
              else st) := by
        simp only [stepKids, hc]
      rw [hunf]
      generalize hTe :
        (if (trimF c.data).length > 0
          then { st with
            attrsf := updF st.attrsf sp
              (updF (st.attrsf sp) "" (st.attrsf sp "" ++ [trimF c.data])) }
          else st : BState) = stT at hunf ⊢
      have hTfacts :
          stT.nextPos = st.nextPos ∧ stT.tagf = st.tagf ∧ stT.parentf = st.parentf ∧
          stT.childrenf = st.childrenf ∧ stT.descsf = st.descsf ∧
          stT.storef = st.storef ∧ stT.nextSet = st.nextSet ∧
          stT.upVisits = st.upVisits ∧ stT.upQueue = st.upQueue ∧
          stT.processed = st.processed ∧ stT.srcf = st.srcf ∧
          (∀ k, stT.attrsf sp k = st.attrsf sp k ++
            (if k = "" then (if (trimF c.data).length > 0 then [trimF c.data] else []) else [])) ∧
          (∀ x, x ≠ sp → stT.attrsf x = st.attrsf x) := by
        rw [← hTe]
        by_cases hcond : (trimF c.data).length > 0
        · rw [if_pos hcond]
          refine ⟨rfl, rfl, rfl, rfl, rfl, rfl, rfl, rfl, rfl, rfl, rfl, ?_, ?_⟩
          · intro k
            by_cases hk : k = ""
            · subst hk
              simp [updF_same, if_pos hcond]
            · simp [updF_same, updF, hk]
          · intro x hx
            simp [updF, hx]
        · rw [if_neg hcond]
          refine ⟨rfl, rfl, rfl, rfl, rfl, rfl, rfl, rfl, rfl, rfl, rfl, ?_, fun x _ => rfl⟩
          intro k
          simp [if_neg hcond]
      obtain ⟨hT1, hT2, hT3, hT4, hT5, hT6, hT7, hT8, hT9, hT10, hT11, hT12, hT13⟩ := hTfacts
      have hinvT : SeedInv sp stT :=
        { dset := by
            intro tg
            have h1 : descsSet stT sp tg = descsSet st sp tg := by
              simp [descsSet, hT5, hT6]
            rw [h1, hT4, hT2]
            exact hinv.dset tg,
          dkeys := by
            intro tg
            rw [hT5, hT4, hT2]
            exact hinv.dkeys tg,
          ids_glob := by
            intro p k s
            rw [hT5, hT7]
            exact hinv.ids_glob p k s,
          sole := by
            intro k s h1 p2 k2 h2
            rw [hT5] at h1 h2
            exact hinv.sole k s h1 p2 k2 h2,
          keys_nodup := by
            rw [hT5]
            exact hinv.keys_nodup,
          child_lt := by
            intro x hx
            rw [hT4] at hx
            rw [hT1]
            exact hinv.child_lt x hx,
          sfresh := by
            intro s hs
            rw [hT6]
            rw [hT7] at hs
            exact hinv.sfresh s hs }
      have KP := ih stT (by rw [hT1]; exact hsp) hinvT
      have hek : elemKidsL (c :: cs) = elemKidsL cs :=
        elemKidsL_cons_ne (by rw [hc]; intro hcc; cases hcc)
      have htt : trimmedTexts (c :: cs) =
          (if (trimF c.data).length > 0 then [trimF c.data] else []) ++ trimmedTexts cs :=
        trimmedTexts_cons_text hc
      refine
        { npos := by rw [KP.npos, hT1, hek],
          prs_fst := by rw [KP.prs_fst, hek],
          prs_bounds := by
            intro pr hpr
            have := KP.prs_bounds pr hpr
            rw [hT1] at this
            exact this,
          prs_onto := by
            intro x h1 h2
            exact KP.prs_onto x (by rw [hT1]; exact h1) h2,
          prs_sorted := KP.prs_sorted,
          children_sp := by rw [KP.children_sp, hT4],
          children_other := by
            intro x hx
            rw [KP.children_other x hx, hT4],
          tag_new := by
            intro pr hpr
            exact KP.tag_new pr hpr,
          src_new := fun pr hpr => KP.src_new pr hpr,
          par_new := fun pr hpr => KP.par_new pr hpr,
          tag_old := by
            intro x hx
            rw [KP.tag_old x (by rw [hT1]; exact hx), hT2],
          src_old := by
            intro x hx
            rw [KP.src_old x (by rw [hT1]; exact hx), hT11],
          par_old := by
            intro x hx
            rw [KP.par_old x (by rw [hT1]; exact hx), hT3],
          par_big := by
            intro x hx
            rw [KP.par_big x hx, hT3],
          attrs_sp := by
            intro k
            rw [KP.attrs_sp k, hT12 k, htt]
            by_cases hk : k = ""
            · subst hk
              simp
            · simp [hk],
          attrs_other := by
            intro x hx
            rw [KP.attrs_other x hx, hT13 x hx],
          visits_sp := by
            rw [KP.visits_sp, hT8, hek],
          visits_other := by
            intro x hx
            rw [KP.visits_other x hx, hT8],
          descs_other := by
            intro x hx
            rw [KP.descs_other x hx, hT5],
          store_keep := by
            intro s hs hnot
            have hs2 : s < stT.nextSet := by rw [hT7]; exact hs
            have hnot2 : ∀ k, alookup (stT.descsf sp) k ≠ some s := by
              intro k
              rw [hT5]
              exact hnot k
            rw [KP.store_keep s hs2 hnot2, hT6],
          ids_from := by
            intro k s hk
            rcases KP.ids_from k s hk with h1 | h1
            · left
              rw [hT5] at h1
              exact h1
            · right
              rw [hT7] at h1
              exact h1,
          ids_mono := by
            have := KP.ids_mono
            rw [hT7] at this
            exact this,
          upq := by rw [KP.upq, hT9],
          procq := by rw [KP.procq, hT10],
          inv := KP.inv }
    · -- other kind: skipped entirely
      have hunf : stepKids sp (c :: cs) st = stepKids sp cs st := by
        simp only [stepKids, hc]
      rw [hunf]
      have KP := ih st hsp hinv
      have hek : elemKidsL (c :: cs) = elemKidsL cs :=
        elemKidsL_cons_ne (by rw [hc]; intro hcc; cases hcc)
      have htt : trimmedTexts (c :: cs) = trimmedTexts cs :=
        trimmedTexts_cons_skip (by rw [hc]; intro hcc; cases hcc)
      exact
        { npos := by rw [KP.npos, hek],
          prs_fst := by rw [KP.prs_fst, hek],
          prs_bounds := KP.prs_bounds,
          prs_onto := KP.prs_onto,
          prs_sorted := KP.prs_sorted,
          children_sp := KP.children_sp,
          children_other := KP.children_other,
          tag_new := KP.tag_new,
          src_new := KP.src_new,
          par_new := KP.par_new,
          tag_old := KP.tag_old,
          src_old := KP.src_old,
          par_old := KP.par_old,
          par_big := KP.par_big,
          attrs_sp := by
            intro k
            rw [KP.attrs_sp k, htt],
          attrs_other := KP.attrs_other,
          visits_sp := by rw [KP.visits_sp, hek],
          visits_other := KP.visits_other,
          descs_other := KP.descs_other,
          store_keep := KP.store_keep,
          ids_from := KP.ids_from,
          ids_mono := KP.ids_mono,
          upq := KP.upq,
          procq := KP.procq,
          inv := KP.inv }

/-- Invariant of the downward loop: `q` is the work queue, `st` the
state.  Pending nodes (those in `q`) are allocated but empty; finished
nodes carry their final downward-pass data. -/
structure DInv (root : HNode) (q : List (HNode × Nat)) (st : BState) : Prop where
  pos1 : 1 ≤ st.nextPos
  freshP : ∀ p, st.nextPos ≤ p → st.parentf p = none
  freshC : ∀ p, st.nextPos ≤ p → st.childrenf p = []
  freshA : ∀ p k, st.nextPos ≤ p → st.attrsf p k = []
  freshD : ∀ p, st.nextPos ≤ p → st.descsf p = []
  freshV : ∀ p, st.nextPos ≤ p → st.upVisits p = 0
  qpos : ∀ pr ∈ q, pr.2 < st.nextPos
  qnodup : (q.map Prod.snd).Nodup
  qsrc : ∀ pr ∈ q, st.srcf pr.2 = pr.1
  qempty : ∀ pr ∈ q, st.childrenf pr.2 = [] ∧ st.descsf pr.2 = [] ∧
    (∀ k, st.attrsf pr.2 k = []) ∧ st.upVisits pr.2 = 0 ∧ pr.2 ∉ st.upQueue
  par_lt : ∀ x y, st.parentf x = some y → y < x
  par_dom : ∀ x y, st.parentf x = some y → x < st.nextPos
  par_some : ∀ p, 0 < p → p < st.nextPos → ∃ q, st.parentf p = some q
  child_iff : ∀ x y, st.parentf x = some y ↔ x ∈ st.childrenf y
  child_sorted : ∀ y, List.Pairwise (fun a b => a < b) (st.childrenf y)
  par0 : st.parentf 0 = none
  tagsrc : ∀ p, p < st.nextPos → st.tagf p = (st.srcf p).data
  roott : st.tagf 0 = root.data
  roots : st.srcf 0 = root
  ids_glob : ∀ p tg s, alookup (st.descsf p) tg = some s → s < st.nextSet
  sole_glob : ∀ p tg s, alookup (st.descsf p) tg = some s →
    ∀ p2 tg2, alookup (st.descsf p2) tg2 = some s → p2 = p ∧ tg2 = tg
  keys_nodup : ∀ p, ((st.descsf p).map Prod.fst).Nodup
  dstore : ∀ p tg s, alookup (st.descsf p) tg = some s →
    st.storef s = (st.childrenf p).filter (fun x => decide (st.tagf x = tg))
  dkeys_iff : ∀ p tg, (alookup (st.descsf p) tg).isSome = true ↔
    ∃ x ∈ st.childrenf p, st.tagf x = tg
  sfresh : ∀ s, st.nextSet ≤ s → st.storef s = []
  upq_nodup : st.upQueue.Nodup
  upq_mem : ∀ p ∈ st.upQueue, p < st.nextPos ∧ p ∉ q.map Prod.snd
  upq_iff : ∀ p, p < st.nextPos → p ∉ q.map Prod.snd →
    (p ∈ st.upQueue ↔ st.childrenf p = [])
  visits_done : ∀ p, p < st.nextPos → p ∉ q.map Prod.snd →
    st.upVisits p = ((st.childrenf p).length : Int)
  attrs_done : ∀ p, p < st.nextPos → p ∉ q.map Prod.snd →
    ∀ k, st.attrsf p k = attrSpecF (st.srcf p) k
  src_children : ∀ p, p < st.nextPos → p ∉ q.map Prod.snd →
    (st.childrenf p).map st.srcf = elemKidsL (st.srcf p).kids
  proc : st.processed = []

theorem initState_inv (root : HNode) :
    DInv root [(root, 0)] (initState root) := by
  refine
    { pos1 := le_rfl,
      freshP := fun p _ => rfl,
      freshC := fun p _ => rfl,
      freshA := fun p k _ => rfl,
      freshD := fun p _ => rfl,
      freshV := fun p _ => rfl,
      qpos := ?_,
      qnodup := by simp,
      qsrc := ?_,
      qempty := ?_,
      par_lt := fun x y hxy => Option.noConfusion hxy,
      par_dom := fun x y hxy => Option.noConfusion hxy,
      par_some := ?_,
      child_iff := ?_,
      child_sorted := fun y => List.Pairwise.nil,
      par0 := rfl,
      tagsrc := ?_,
      roott := by simp [initState, updF_same],
      roots := by simp [initState, updF_same],
      ids_glob := fun p tg s hl => by simp [initState, alookup] at hl,
      sole_glob := fun p tg s hl => by simp [initState, alookup] at hl,
      keys_nodup := fun p => by simp [initState],
      dstore := fun p tg s hl => by simp [initState, alookup] at hl,
      dkeys_iff := ?_,
      sfresh := fun s _ => rfl,
      upq_nodup := by simp [initState],
      upq_mem := ?_,
      upq_iff := ?_,
      visits_done := ?_,
      attrs_done := ?_,
      src_children := ?_,
      proc := rfl }
  · intro pr hpr
    simp only [List.mem_singleton] at hpr
    subst hpr
    exact Nat.lt_of_lt_of_le Nat.zero_lt_one le_rfl
  · intro pr hpr
    simp only [List.mem_singleton] at hpr
    subst hpr
    simp [initState, updF_same]
  · intro pr hpr
    simp only [List.mem_singleton] at hpr
    subst hpr
    exact ⟨rfl, rfl, fun k => rfl, rfl, by simp [initState]⟩
  · intro p hp0 hp
    have hp2 : p < 1 := hp
    omega
  · intro x y
    constructor
    · intro hxy
      cases hxy
    · intro hx
      simp [initState] at hx
  · intro p hp
    have hp2 : p < 1 := hp
    have hp0 : p = 0 := by omega
    subst hp0
    simp [initState, updF_same, HNode.data]
  · intro p tg
    constructor
    · intro hl
      simp [initState, alookup] at hl
    · rintro ⟨x, hx, _⟩
      simp [initState] at hx
  · intro p hp
    simp [initState] at hp
  · intro p hp hnp
    have hp2 : p < 1 := hp
    simp only [List.map_cons, List.map_nil, List.mem_singleton] at hnp
    omega
  · intro p hp hnp
    have hp2 : p < 1 := hp
    simp only [List.map_cons, List.map_nil, List.mem_singleton] at hnp
    omega
  · intro p hp hnp
    have hp2 : p < 1 := hp
    simp only [List.map_cons, List.map_nil, List.mem_singleton] at hnp
    omega
  · intro p hp hnp
    have hp2 : p < 1 := hp
    simp only [List.map_cons, List.map_nil, List.mem_singleton] at hnp
    omega

/-- Strong induction over the downward queue by total raw size. -/
theorem pair_strong_ind (P : List (HNode × Nat) → Prop)
    (h : ∀ q, (∀ r, hsizeL (r.map Prod.fst) < hsizeL (q.map Prod.fst) → P r) → P q) :
    ∀ q, P q := by
  have key : ∀ w q, hsizeL (q.map Prod.fst) ≤ w → P q := by
    intro w
    induction w with
    | zero =>
      intro q hq
      apply h
      intro r hr
      omega
    | succ w ih =>
      intro q hq
      apply h
      intro r hr
      apply ih
      omega
  intro q
  exact key (hsizeL (q.map Prod.fst)) q le_rfl

theorem leafCheck_fields (sp : Nat) (st : BState) :
    (leafCheck sp st).nextPos = st.nextPos ∧
    (leafCheck sp st).tagf = st.tagf ∧
    (leafCheck sp st).parentf = st.parentf ∧
    (leafCheck sp st).childrenf = st.childrenf ∧
    (leafCheck sp st).attrsf = st.attrsf ∧
    (leafCheck sp st).descsf = st.descsf ∧
    (leafCheck sp st).storef = st.storef ∧
    (leafCheck sp st).nextSet = st.nextSet ∧
    (leafCheck sp st).upVisits = st.upVisits ∧
    (leafCheck sp st).processed = st.processed ∧
    (leafCheck sp st).srcf = st.srcf ∧
    (leafCheck sp st).upQueue =
      (if st.descsf sp = [] then st.upQueue ++ [sp] else st.upQueue) := by
  by_cases hd : st.descsf sp = [] <;>
    simp [leafCheck, hd]

theorem downStep_inv (root h : HNode) (sp : Nat) (rest : List (HNode × Nat))
    (st : BState) (hD : DInv root ((h, sp) :: rest) st) :
    DInv root (rest ++ (downStep h sp st).2) (downStep h sp st).1 := by
  have hsp : sp < st.nextPos := hD.qpos (h, sp) (List.mem_cons_self _ _)
  have hsrc : st.srcf sp = h := hD.qsrc (h, sp) (List.mem_cons_self _ _)
  obtain ⟨hche0, hdse0, hate0, hvise0, hupqe0⟩ :=
    hD.qempty (h, sp) (List.mem_cons_self _ _)
  have hche : st.childrenf sp = [] := hche0
  have hdse : st.descsf sp = [] := hdse0
  have hate : ∀ k, st.attrsf sp k = [] := hate0
  have hvise : st.upVisits sp = 0 := hvise0
  have hupqe : sp ∉ st.upQueue := hupqe0
  have hspq : sp ∉ rest.map Prod.snd := by
    have hn := hD.qnodup
    simp only [List.map_cons] at hn
    exact (List.nodup_cons.mp hn).1
  obtain ⟨hA1, hA2, hA3, hA4, hA5, hA6, hA7, hA8, hA9, hA10, hA11, hA12, hA13⟩ :=
    stepAttrs_post sp h.attr st
  have hinvA : SeedInv sp (stepAttrs sp h.attr st) := by
    refine
      { dset := ?_, dkeys := ?_, ids_glob := ?_, sole := ?_,
        keys_nodup := ?_, child_lt := ?_, sfresh := ?_ }
    · intro tg
      have h1 : descsSet (stepAttrs sp h.attr st) sp tg = descsSet st sp tg := by
        simp [descsSet, hA7, hA8]
      rw [h1, hA6, hA4]
      simp [descsSet, hdse, alookup, hche]
    · intro tg
      have h1 : alookup ((stepAttrs sp h.attr st).descsf sp) tg =
          alookup (st.descsf sp) tg := by rw [hA7]
      rw [h1, hA6]
      simp [hdse, alookup, hche]
    · intro p tg s
      rw [hA7, hA9]
      exact hD.ids_glob p tg s
    · intro tg s h1 p2 tg2 h2
      rw [hA7] at h1 h2
      exact hD.sole_glob sp tg s h1 p2 tg2 h2
    · rw [hA7]
      exact hD.keys_nodup sp
    · intro x hx
      rw [hA6, hche] at hx
      cases hx
    · intro s hs
      rw [hA8]
      rw [hA9] at hs
      exact hD.sfresh s hs
  have KP0 := stepKids_post sp h.kids (stepAttrs sp h.attr st)
    (by rw [hA3]; exact hsp) hinvA
  obtain ⟨stK, prs, hKe⟩ :
      ∃ a b, stepKids sp h.kids (stepAttrs sp h.attr st) = (a, b) := ⟨_, _, rfl⟩
  rw [hKe] at KP0
  have KP : KidsPost sp h.kids (stepAttrs sp h.attr st) stK prs := KP0
  have hds : downStep h sp st = (leafCheck sp stK, prs) := by
    simp [downStep, hKe]
  rw [hds]
  obtain ⟨hL1, hL2, hL3, hL4, hL5, hL6, hL7, hL8, hL9, hL10, hL11, hL12⟩ :=
    leafCheck_fields sp stK
  -- translated facts about stK relative to st
  have hKn : stK.nextPos = st.nextPos + (elemKidsL h.kids).length := by
    rw [KP.npos, hA3]
  have tag_oldK : ∀ x, x < st.nextPos → stK.tagf x = st.tagf x := by
    intro x hx
    rw [KP.tag_old x (by rw [hA3]; exact hx), hA4]
  have src_oldK : ∀ x, x < st.nextPos → stK.srcf x = st.srcf x := by
    intro x hx
    rw [KP.src_old x (by rw [hA3]; exact hx), hA13]
  have par_oldK : ∀ x, x < st.nextPos → stK.parentf x = st.parentf x := by
    intro x hx
    rw [KP.par_old x (by rw [hA3]; exact hx), hA5]
  have par_bigK : ∀ x, stK.nextPos ≤ x → stK.parentf x = st.parentf x := by
    intro x hx
    rw [KP.par_big x hx, hA5]
  have ch_oK : ∀ x, x ≠ sp → stK.childrenf x = st.childrenf x := by
    intro x hx
    rw [KP.children_other x hx, hA6]
  have at_oK : ∀ x, x ≠ sp → stK.attrsf x = st.attrsf x := by
    intro x hx
    rw [KP.attrs_other x hx, hA2 x hx]
  have vis_oK : ∀ x, x ≠ sp → stK.upVisits x = st.upVisits x := by
    intro x hx
    rw [KP.visits_other x hx, hA10]
  have desc_oK : ∀ x, x ≠ sp → stK.descsf x = st.descsf x := by
    intro x hx
    rw [KP.descs_other x hx, hA7]
  have ch_spK : stK.childrenf sp = prs.map Prod.snd := by
    rw [KP.children_sp, hA6, hche]
    simp
  have at_spK : ∀ k, stK.attrsf sp k = attrSpecF h k := by
    intro k
    rw [KP.attrs_sp k, congrFun hA1 k, hate k]
    simp [attrSpecF]
  have vis_spK : stK.upVisits sp = ((elemKidsL h.kids).length : Int) := by
    rw [KP.visits_sp, hA10, hvise]
    ring
  have prs_fstK : prs.map Prod.fst = elemKidsL h.kids := KP.prs_fst
  have prs_boundsK : ∀ pr ∈ prs, st.nextPos ≤ pr.2 ∧ pr.2 < stK.nextPos := by
    intro pr hpr
    have hb := KP.prs_bounds pr hpr
    rw [hA3] at hb
    exact hb
  have prs_ontoK : ∀ x, st.nextPos ≤ x → x < stK.nextPos → ∃ pr ∈ prs, pr.2 = x := by
    intro x h1 h2
    exact KP.prs_onto x (by rw [hA3]; exact h1) h2
  have store_keepK : ∀ s, s < st.nextSet →
      (∀ k, alookup (st.descsf sp) k ≠ some s) → stK.storef s = st.storef s := by
    intro s hs hnot
    have h1 := KP.store_keep s (by rw [hA9]; exact hs)
      (by intro k; rw [hA7]; exact hnot k)
    rw [h1, hA8]
  have ids_fromK : ∀ k s, alookup (stK.descsf sp) k = some s → st.nextSet ≤ s := by
    intro k s hk
    rcases KP.ids_from k s hk with h1 | h1
    · rw [hA7, hdse] at h1
      cases h1
    · rw [hA9] at h1
      exact h1
  have ids_monoK : st.nextSet ≤ stK.nextSet := by
    have := KP.ids_mono
    rw [hA9] at this
    exact this
  have upqK : stK.upQueue = st.upQueue := by rw [KP.upq, hA11]
  have procK : stK.processed = st.processed := by rw [KP.procq, hA12]
  have hband : ∀ x, x < stK.nextPos → x < st.nextPos ∨ ∃ pr ∈ prs, pr.2 = x := by
    intro x hx
    by_cases h1 : x < st.nextPos
    · exact Or.inl h1
    · exact Or.inr (prs_ontoK x (by omega) hx)
  have hchild_lt : ∀ p x, x ∈ st.childrenf p → x < st.nextPos := by
    intro p x hx
    exact hD.par_dom x p ((hD.child_iff x p).mpr hx)
  have hleafiff : (stK.descsf sp = []) ↔ (stK.childrenf sp = []) := by
    constructor
    · intro hd
      cases hcc : stK.childrenf sp with
      | nil => rfl
      | cons a t =>
        have hx : ∃ x ∈ stK.childrenf sp, stK.tagf x = stK.tagf a :=
          ⟨a, by rw [hcc]; exact List.mem_cons_self _ _, rfl⟩
        have h2 := (KP.inv.dkeys (stK.tagf a)).mpr hx
        rw [hd] at h2
        simp [alookup] at h2
    · intro hc
      cases hdd : stK.descsf sp with
      | nil => rfl
      | cons kv t =>
        have hsome : (alookup (stK.descsf sp) kv.1).isSome = true := by
          rw [hdd]
          cases kv with
          | mk k1 s1 => simp [alookup]
        obtain ⟨x, hx, _⟩ := (KP.inv.dkeys kv.1).mp hsome
        rw [hc] at hx
        cases hx
  have dstore_spK : ∀ tg s, alookup (stK.descsf sp) tg = some s →
      stK.storef s = (stK.childrenf sp).filter (fun x => decide (stK.tagf x = tg)) := by
    intro tg s hl
    have h2 : descsSet stK sp tg = stK.storef s := by
      simp [descsSet, hl]
    rw [← h2]
    exact KP.inv.dset tg
  -- the new queue's positions
  have hq2 : (rest ++ prs).map Prod.snd = rest.map Prod.snd ++ prs.map Prod.snd := by
    simp
  refine
    { pos1 := ?_, freshP := ?_, freshC := ?_, freshA := ?_, freshD := ?_,
      freshV := ?_, qpos := ?_, qnodup := ?_, qsrc := ?_, qempty := ?_,
      par_lt := ?_, par_dom := ?_, par_some := ?_, child_iff := ?_,
      child_sorted := ?_,
      par0 := ?_, tagsrc := ?_, roott := ?_, roots := ?_,
      ids_glob := ?_, sole_glob := ?_, keys_nodup := ?_, dstore := ?_,
      dkeys_iff := ?_, sfresh := ?_, upq_nodup := ?_, upq_mem := ?_,
      upq_iff := ?_, visits_done := ?_, attrs_done := ?_, src_children := ?_,
      proc := ?_ }
  · -- pos1
    rw [hL1, hKn]
    have := hD.pos1
    omega
  · -- freshP
    intro p hp
    rw [hL1] at hp
    rw [hL3, par_bigK p hp]
    exact hD.freshP p (by rw [hKn] at hp; omega)
  · -- freshC
    intro p hp
    rw [hL1] at hp
    rw [hL4, ch_oK p (by rw [hKn] at hp; omega)]
    exact hD.freshC p (by rw [hKn] at hp; omega)
  · -- freshA
    intro p k hp
    rw [hL1] at hp
    rw [hL5, at_oK p (by rw [hKn] at hp; omega)]
    exact hD.freshA p k (by rw [hKn] at hp; omega)
  · -- freshD
    intro p hp
    rw [hL1] at hp
    rw [hL6, desc_oK p (by rw [hKn] at hp; omega)]
    exact hD.freshD p (by rw [hKn] at hp; omega)
  · -- freshV
    intro p hp
    rw [hL1] at hp
    rw [hL9, vis_oK p (by rw [hKn] at hp; omega)]
    exact hD.freshV p (by rw [hKn] at hp; omega)
  · -- qpos
    intro pr hpr
    rw [hL1]
    rcases List.mem_append.mp hpr with h1 | h2
    · have := hD.qpos pr (List.mem_cons_of_mem _ h1)
      rw [hKn]
      omega
    · exact (prs_boundsK pr h2).2
  · -- qnodup
    rw [hq2]
    rw [List.nodup_append]
    refine ⟨?_, ?_, ?_⟩
    · have hn := hD.qnodup
      simp only [List.map_cons] at hn
      exact (List.nodup_cons.mp hn).2
    · exact KP.prs_sorted.nodup
    · intro a ha hb
      obtain ⟨pr, hpr, hpre⟩ := List.mem_map.mp hb
      obtain ⟨pr2, hpr2, hpre2⟩ := List.mem_map.mp ha
      have h1 := (prs_boundsK pr hpr).1
      have h2 := hD.qpos pr2 (List.mem_cons_of_mem _ hpr2)
      omega
  · -- qsrc
    intro pr hpr
    rw [hL11]
    rcases List.mem_append.mp hpr with h1 | h2
    · rw [src_oldK pr.2 (hD.qpos pr (List.mem_cons_of_mem _ h1))]
      exact hD.qsrc pr (List.mem_cons_of_mem _ h1)
    · exact KP.src_new pr h2
  · -- qempty
    intro pr hpr
    rcases List.mem_append.mp hpr with h1 | h2
    · have hlt := hD.qpos pr (List.mem_cons_of_mem _ h1)
      have hne : pr.2 ≠ sp := by
        intro he
        apply hspq
        rw [← he]
        exact List.mem_map_of_mem Prod.snd h1
      obtain ⟨e1, e2, e3, e4, e5⟩ := hD.qempty pr (List.mem_cons_of_mem _ h1)
      refine ⟨?_, ?_, ?_, ?_, ?_⟩
      · rw [hL4, ch_oK pr.2 hne]
        exact e1
      · rw [hL6, desc_oK pr.2 hne]
        exact e2
      · intro k
        rw [hL5, at_oK pr.2 hne]
        exact e3 k
      · rw [hL9, vis_oK pr.2 hne]
        exact e4
      · rw [hL12, upqK]
        by_cases hl : stK.descsf sp = []
        · rw [if_pos hl]
          intro hmem
          rcases List.mem_append.mp hmem with m1 | m2
          · exact e5 m1
          · rw [List.mem_singleton] at m2
            exact hne m2
        · rw [if_neg hl]
          exact e5
    · have hb := prs_boundsK pr h2
      have hne : pr.2 ≠ sp := by omega
      refine ⟨?_, ?_, ?_, ?_, ?_⟩
      · rw [hL4, ch_oK pr.2 hne]
        exact hD.freshC pr.2 hb.1
      · rw [hL6, desc_oK pr.2 hne]
        exact hD.freshD pr.2 hb.1
      · intro k
        rw [hL5, at_oK pr.2 hne]
        exact hD.freshA pr.2 k hb.1
      · rw [hL9, vis_oK pr.2 hne]
        exact hD.freshV pr.2 hb.1
      · rw [hL12, upqK]
        have hnot : pr.2 ∉ st.upQueue := by
          intro hmem
          have := (hD.upq_mem pr.2 hmem).1
          omega
        by_cases hl : stK.descsf sp = []
        · rw [if_pos hl]
          intro hmem
          rcases List.mem_append.mp hmem with m1 | m2
          · exact hnot m1
          · rw [List.mem_singleton] at m2
            exact hne m2
        · rw [if_neg hl]
          exact hnot
  · -- par_lt
    intro x y hxy
    rw [hL3] at hxy
    by_cases hx : x < st.nextPos
    · rw [par_oldK x hx] at hxy
      exact hD.par_lt x y hxy
    · by_cases hx2 : x < stK.nextPos
      · obtain ⟨pr, hpr, hpre⟩ := prs_ontoK x (by omega) hx2
        have := KP.par_new pr hpr
        rw [hpre] at this
        rw [this] at hxy
        have hy := Option.some.inj hxy
        omega
      · rw [par_bigK x (by omega)] at hxy
        rw [hD.freshP x (by omega)] at hxy
        cases hxy
  · -- par_dom
    intro x y hxy
    rw [hL1]
    rw [hL3] at hxy
    by_cases hx2 : x < stK.nextPos
    · exact hx2
    · rw [par_bigK x (by omega)] at hxy
      rw [hD.freshP x (by rw [hKn] at hx2; omega)] at hxy
      cases hxy
  · -- par_some
    intro p hp0 hp
    rw [hL1] at hp
    rw [hL3]
    rcases hband p hp with h1 | ⟨pr, hpr, hpre⟩
    · obtain ⟨q, hq⟩ := hD.par_some p hp0 h1
      exact ⟨q, by rw [par_oldK p h1]; exact hq⟩
    · refine ⟨sp, ?_⟩
      rw [← hpre]
      exact KP.par_new pr hpr
  · -- child_iff
    intro x y
    rw [hL3, hL4]
    by_cases hy : y = sp
    · rw [hy, ch_spK]
      constructor
      · intro hxy
        by_cases hx : x < st.nextPos
        · rw [par_oldK x hx] at hxy
          have := (hD.child_iff x sp).mp hxy
          rw [hche] at this
          cases this
        · by_cases hx2 : x < stK.nextPos
          · obtain ⟨pr, hpr, hpre⟩ := prs_ontoK x (by omega) hx2
            rw [← hpre]
            exact List.mem_map_of_mem Prod.snd hpr
          · rw [par_bigK x (by omega)] at hxy
            rw [hD.freshP x (by rw [hKn] at hx2; omega)] at hxy
            cases hxy
      · intro hx
        obtain ⟨pr, hpr, hpre⟩ := List.mem_map.mp hx
        rw [← hpre]
        exact KP.par_new pr hpr
    · rw [ch_oK y hy]
      constructor
      · intro hxy
        by_cases hx : x < st.nextPos
        · rw [par_oldK x hx] at hxy
          exact (hD.child_iff x y).mp hxy
        · by_cases hx2 : x < stK.nextPos
          · obtain ⟨pr, hpr, hpre⟩ := prs_ontoK x (by omega) hx2
            have h3 := KP.par_new pr hpr
            rw [hpre] at h3
            rw [h3] at hxy
            have := Option.some.inj hxy
            exact absurd this.symm hy
          · rw [par_bigK x (by omega)] at hxy
            rw [hD.freshP x (by rw [hKn] at hx2; omega)] at hxy
            cases hxy
      · intro hx
        have h1 := (hD.child_iff x y).mpr hx
        have h2 := hD.par_dom x y h1
        rw [par_oldK x h2]
        exact h1
  · -- child_sorted
    intro y
    rw [hL4]
    by_cases hy : y = sp
    · rw [hy, ch_spK]
      exact KP.prs_sorted
    · rw [ch_oK y hy]
      exact hD.child_sorted y
  · -- par0
    rw [hL3, par_oldK 0 hD.pos1]
    exact hD.par0
  · -- tagsrc
    intro p hp
    rw [hL1] at hp
    rw [hL2, hL11]
    rcases hband p hp with h1 | ⟨pr, hpr, hpre⟩
    · rw [tag_oldK p h1, src_oldK p h1]
      exact hD.tagsrc p h1
    · rw [← hpre]
      rw [KP.tag_new pr hpr, KP.src_new pr hpr]
  · -- roott
    rw [hL2, tag_oldK 0 hD.pos1]
    exact hD.roott
  · -- roots
    rw [hL11, src_oldK 0 hD.pos1]
    exact hD.roots
  · -- ids_glob
    intro p tg s hl
    rw [hL6] at hl
    rw [hL8]
    exact KP.inv.ids_glob p tg s hl
  · -- sole_glob
    intro p tg s h1 p2 tg2 h2
    rw [hL6] at h1 h2
    by_cases hp : p = sp
    · rw [hp] at h1
      have hres := KP.inv.sole tg s h1 p2 tg2 h2
      exact ⟨hres.1.trans hp.symm, hres.2⟩
    · by_cases hp2 : p2 = sp
      · rw [hp2] at h2
        have hres := KP.inv.sole tg2 s h2 p tg h1
        exact absurd hres.1 hp
      · rw [desc_oK p hp] at h1
        rw [desc_oK p2 hp2] at h2
        exact hD.sole_glob p tg s h1 p2 tg2 h2
  · -- keys_nodup
    intro p
    rw [hL6]
    by_cases hp : p = sp
    · rw [hp]
      exact KP.inv.keys_nodup
    · rw [desc_oK p hp]
      exact hD.keys_nodup p
  · -- dstore
    intro p tg s hl
    rw [hL6] at hl
    rw [hL7, hL4, hL2]
    by_cases hp : p = sp
    · rw [hp] at hl ⊢
      exact dstore_spK tg s hl
    · rw [desc_oK p hp] at hl
      have hsn : s < st.nextSet := hD.ids_glob p tg s hl
      have hnot : ∀ k, alookup (st.descsf sp) k ≠ some s := by
        intro k hk
        exact hp (hD.sole_glob sp k s hk p tg hl).1
      rw [store_keepK s hsn hnot, ch_oK p hp]
      rw [hD.dstore p tg s hl]
      apply List.filter_congr
      intro x hx
      rw [tag_oldK x (hchild_lt p x hx)]
  · -- dkeys_iff
    intro p tg
    rw [hL6, hL4, hL2]
    by_cases hp : p = sp
    · rw [hp]
      exact KP.inv.dkeys tg
    · rw [desc_oK p hp, ch_oK p hp]
      rw [hD.dkeys_iff p tg]
      constructor
      · rintro ⟨x, hx, hxt⟩
        exact ⟨x, hx, by rw [tag_oldK x (hchild_lt p x hx)]; exact hxt⟩
      · rintro ⟨x, hx, hxt⟩
        exact ⟨x, hx, by rw [← tag_oldK x (hchild_lt p x hx)]; exact hxt⟩
  · -- sfresh
    intro s hs
    rw [hL8] at hs
    rw [hL7]
    exact KP.inv.sfresh s hs
  · -- upq_nodup
    rw [hL12, upqK]
    by_cases hl : stK.descsf sp = []
    · rw [if_pos hl]
      rw [List.nodup_append]
      refine ⟨hD.upq_nodup, List.nodup_singleton _, ?_⟩
      intro a ha
      rw [List.mem_singleton]
      intro he
      subst he
      exact hupqe ha
    · rw [if_neg hl]
      exact hD.upq_nodup
  · -- upq_mem
    intro p hp
    rw [hL12, upqK] at hp
    rw [hL1, hq2]
    have hmain : ∀ p2, p2 ∈ st.upQueue →
        p2 < stK.nextPos ∧ p2 ∉ rest.map Prod.snd ++ prs.map Prod.snd := by
      intro p2 hp2
      obtain ⟨m1, m2⟩ := hD.upq_mem p2 hp2
      constructor
      · rw [hKn]
        omega
      · intro hmem
        rcases List.mem_append.mp hmem with n1 | n2
        · apply m2
          simp only [List.map_cons]
          exact List.mem_cons_of_mem _ n1
        · obtain ⟨pr, hpr, hpre⟩ := List.mem_map.mp n2
          have := (prs_boundsK pr hpr).1
          omega
    by_cases hl : stK.descsf sp = []
    · rw [if_pos hl] at hp
      rcases List.mem_append.mp hp with m1 | m2
      · exact hmain p m1
      · rw [List.mem_singleton] at m2
        subst m2
        constructor
        · rw [hKn]
          omega
        · intro hmem
          rcases List.mem_append.mp hmem with n1 | n2
          · exact hspq n1
          · obtain ⟨pr, hpr, hpre⟩ := List.mem_map.mp n2
            have := (prs_boundsK pr hpr).1
            omega
    · rw [if_neg hl] at hp
      exact hmain p hp
  · -- upq_iff
    intro p hp hnp
    rw [hL1] at hp
    rw [hL12, upqK, hL4]
    rw [hq2] at hnp
    have hnrest : p ∉ rest.map Prod.snd := fun hm =>
      hnp (List.mem_append.mpr (Or.inl hm))
    have hnprs : p ∉ prs.map Prod.snd := fun hm =>
      hnp (List.mem_append.mpr (Or.inr hm))
    by_cases hpsp : p = sp
    · rw [hpsp, ch_spK]
      by_cases hl : stK.descsf sp = []
      · rw [if_pos hl]
        constructor
        · intro _
          rw [← ch_spK]
          exact hleafiff.mp hl
        · intro _
          exact List.mem_append.mpr (Or.inr (List.mem_singleton_self _))
      · rw [if_neg hl]
        constructor
        · intro hmem
          exact absurd hmem hupqe
        · intro hc
          rw [← ch_spK] at hc
          exact absurd (hleafiff.mpr hc) hl
    · -- p ≠ sp
      have hplt : p < st.nextPos := by
        rcases hband p hp with h1 | ⟨pr, hpr, hpre⟩
        · exact h1
        · exfalso
          apply hnprs
          rw [← hpre]
          exact List.mem_map_of_mem Prod.snd hpr
      have hnq : p ∉ ((h, sp) :: rest).map Prod.snd := by
        simp only [List.map_cons]
        intro hmem
        rcases List.mem_cons.mp hmem with m1 | m2
        · exact hpsp m1
        · exact hnrest m2
      rw [ch_oK p hpsp]
      by_cases hl : stK.descsf sp = []
      · rw [if_pos hl]
        constructor
        · intro hmem
          rcases List.mem_append.mp hmem with m1 | m2
          · exact (hD.upq_iff p hplt hnq).mp m1
          · rw [List.mem_singleton] at m2
            exact absurd m2 hpsp
        · intro hc
          exact List.mem_append.mpr (Or.inl ((hD.upq_iff p hplt hnq).mpr hc))
      · rw [if_neg hl]
        exact hD.upq_iff p hplt hnq
  · -- visits_done
    intro p hp hnp
    rw [hL1] at hp
    rw [hL9, hL4]
    rw [hq2] at hnp
    have hnrest : p ∉ rest.map Prod.snd := fun hm =>
      hnp (List.mem_append.mpr (Or.inl hm))
    have hnprs : p ∉ prs.map Prod.snd := fun hm =>
      hnp (List.mem_append.mpr (Or.inr hm))
    by_cases hpsp : p = sp
    · rw [hpsp, vis_spK, ch_spK]
      have hlen : prs.length = (elemKidsL h.kids).length := by
        rw [← prs_fstK, List.length_map]
      simp [hlen]
    · have hplt : p < st.nextPos := by
        rcases hband p hp with h1 | ⟨pr, hpr, hpre⟩
        · exact h1
        · exfalso
          apply hnprs
          rw [← hpre]
          exact List.mem_map_of_mem Prod.snd hpr
      have hnq : p ∉ ((h, sp) :: rest).map Prod.snd := by
        simp only [List.map_cons]
        intro hmem
        rcases List.mem_cons.mp hmem with m1 | m2
        · exact hpsp m1
        · exact hnrest m2
      rw [vis_oK p hpsp, ch_oK p hpsp]
      exact hD.visits_done p hplt hnq
  · -- attrs_done
    intro p hp hnp k
    rw [hL1] at hp
    rw [hL5, hL11]
    rw [hq2] at hnp
    have hnrest : p ∉ rest.map Prod.snd := fun hm =>
      hnp (List.mem_append.mpr (Or.inl hm))
    have hnprs : p ∉ prs.map Prod.snd := fun hm =>
      hnp (List.mem_append.mpr (Or.inr hm))
    by_cases hpsp : p = sp
    · rw [hpsp, at_spK k, src_oldK sp hsp, hsrc]
    · have hplt : p < st.nextPos := by
        rcases hband p hp with h1 | ⟨pr, hpr, hpre⟩
        · exact h1
        · exfalso
          apply hnprs
          rw [← hpre]
          exact List.mem_map_of_mem Prod.snd hpr
      have hnq : p ∉ ((h, sp) :: rest).map Prod.snd := by
        simp only [List.map_cons]
        intro hmem
        rcases List.mem_cons.mp hmem with m1 | m2
        · exact hpsp m1
        · exact hnrest m2
      rw [at_oK p hpsp, src_oldK p hplt]
      exact hD.attrs_done p hplt hnq k
  · -- src_children
    intro p hp hnp
    rw [hL1] at hp
    rw [hL4, hL11]
    rw [hq2] at hnp
    have hnrest : p ∉ rest.map Prod.snd := fun hm =>
      hnp (List.mem_append.mpr (Or.inl hm))
    have hnprs : p ∉ prs.map Prod.snd := fun hm =>
      hnp (List.mem_append.mpr (Or.inr hm))
    by_cases hpsp : p = sp
    · rw [hpsp, src_oldK sp hsp, hsrc, ch_spK]
      rw [← prs_fstK, List.map_map]
      apply List.map_congr_left
      intro pr hpr
      exact KP.src_new pr hpr
    · have hplt : p < st.nextPos := by
        rcases hband p hp with h1 | ⟨pr, hpr, hpre⟩
        · exact h1
        · exfalso
          apply hnprs
          rw [← hpre]
          exact List.mem_map_of_mem Prod.snd hpr
      have hnq : p ∉ ((h, sp) :: rest).map Prod.snd := by
        simp only [List.map_cons]
        intro hmem
        rcases List.mem_cons.mp hmem with m1 | m2
        · exact hpsp m1
        · exact hnrest m2
      rw [ch_oK p hpsp]
      have hmc : (st.childrenf p).map stK.srcf = (st.childrenf p).map st.srcf := by
        apply List.map_congr_left
        intro x hx
        exact src_oldK x (hchild_lt p x hx)
      rw [hmc]
      rw [src_oldK p hplt]
      exact hD.src_children p hplt hnq
  · -- proc
    rw [hL10, procK]
    exact hD.proc

theorem down_inv (root : HNode) :
    ∀ q, ∀ st, DInv root q st → DInv root [] (down q st) := by
  apply pair_strong_ind (fun q => ∀ st, DInv root q st → DInv root [] (down q st))
  intro q ih st hD
  cases q with
  | nil =>
    rw [down]
    exact hD
  | cons pr rest =>
    obtain ⟨h, sp⟩ := pr
    rw [down]
    apply ih
    · have h1 := downStep_weight h sp st
      simp only [List.map_append, hsizeL_append, List.map_cons, hsizeL]
      omega
    · exact downStep_inv root h sp rest st hD

/-- The state after the downward pass of `newFromNode`. -/
def downState (root : HNode) : BState :=
  down [(root, 0)] (initState root)

theorem downState_inv (root : HNode) : DInv root [] (downState root) :=
  down_inv root [(root, 0)] (initState root) (initState_inv root)

/-! ## Ancestor relation lemmas -/

theorem under_le {par : Nat → Option Nat}
    (hlt : ∀ x y, par x = some y → y < x) :
    ∀ {x a : Nat}, Under par x a → a ≤ x := by
  intro x a h
  induction h with
  | refl => exact le_rfl
  | up h1 h2 ih =>
    have := hlt _ _ h2
    omega

theorem under_trans {par : Nat → Option Nat} {x a b : Nat}
    (h1 : Under par x a) (h2 : Under par a b) : Under par x b := by
  induction h2 with
  | refl => exact h1
  | up h3 h4 ih => exact Under.up ih h4

theorem under_child {par : Nat → Option Nat} {c p : Nat}
    (h : par c = some p) : Under par c p :=
  Under.up (Under.refl c) h

theorem under_parent_of_ne {par : Nat → Option Nat} {x a : Nat}
    (h : Under par x a) :
    x ≠ a → ∀ q, par x = some q → Under par q a := by
  induction h with
  | refl => intro hne; exact absurd rfl hne
  | up h1 h2 ih =>
    rename_i q0 r0
    intro hne q hq
    by_cases hx : x = q0
    · rw [← hx] at h2
      rw [hq] at h2
      rw [Option.some.inj h2]
      exact Under.refl _
    · exact Under.up (ih hx q hq) h2

theorem under_total {par : Nat → Option Nat} {x a b : Nat}
    (h1 : Under par x a) (h2 : Under par x b) :
    Under par a b ∨ Under par b a := by
  induction h1 with
  | refl => exact Or.inl h2
  | up h3 h4 ih =>
    rename_i q0 r0
    rcases ih with h5 | h5
    · by_cases hq : q0 = b
      · subst hq
        exact Or.inr (under_child h4)
      · exact Or.inl (under_parent_of_ne h5 hq r0 h4)
    · exact Or.inr (under_trans h5 (under_child h4))

theorem under_antisymm {par : Nat → Option Nat}
    (hlt : ∀ x y, par x = some y → y < x) {a b : Nat}
    (h1 : Under par a b) (h2 : Under par b a) : a = b := by
  have l1 := under_le hlt h1
  have l2 := under_le hlt h2
  omega

theorem under_decomp {par : Nat → Option Nat} {x p : Nat}
    (h : Under par x p) (hne : x ≠ p) :
    ∃ c, par c = some p ∧ Under par x c := by
  cases h with
  | refl => exact absurd rfl hne
  | up h1 h2 => exact ⟨_, h2, h1⟩

theorem siblings_not_under {par : Nat → Option Nat}
    (hlt : ∀ x y, par x = some y → y < x) {c1 c2 q : Nat}
    (h1 : par c1 = some q) (h2 : par c2 = some q) (hne : c1 ≠ c2) :
    ¬ Under par c1 c2 := by
  intro hu
  have h3 := under_parent_of_ne hu hne q h1
  have h4 := under_le hlt h3
  have h5 := hlt _ _ h2
  omega

/-- Subtrees of distinct siblings are disjoint. -/
theorem sibling_subtrees_disjoint {par : Nat → Option Nat}
    (hlt : ∀ x y, par x = some y → y < x) {c1 c2 q x : Nat}
    (h1 : par c1 = some q) (h2 : par c2 = some q) (hne : c1 ≠ c2)
    (hx1 : Under par x c1) (hx2 : Under par x c2) : False := by
  rcases under_total hx1 hx2 with h3 | h3
  · exact siblings_not_under hlt h1 h2 hne h3
  · exact siblings_not_under hlt h2 h1 (Ne.symm hne) h3

theorem under_strict_pos {par : Nat → Option Nat}
    (hlt : ∀ x y, par x = some y → y < x) {x p : Nat}
    (h : Under par x p) (hne : x ≠ p) : p < x := by
  have := under_le hlt h
  omega

/-! ## Additional list/update helpers for the upward pass -/

theorem unionInto_sub_right {dst src : List Nat} : src ⊆ unionInto dst src := by
  intro a ha
  exact mem_unionInto.mpr (Or.inr ha)

theorem unionInto_of_sub {dst src : List Nat} (h : src ⊆ dst) :
    unionInto dst src = dst := by
  induction src generalizing dst with
  | nil => rfl
  | cons a t ih =>
    have ha : a ∈ dst := h (List.mem_cons_self _ _)
    show unionInto (insertOnce dst a) t = dst
    rw [show insertOnce dst a = dst by simp [insertOnce, ha]]
    exact ih (fun x hx => h (List.mem_cons_of_mem _ hx))

theorem updF_self {α β : Type} [DecidableEq α] (f : α → β) (k : α) :
    updF f k (f k) = f := by
  funext x
  by_cases hx : x = k
  · subst hx
    exact updF_same _ _ _
  · exact updF_other _ _ _ _ hx

theorem alookup_grown {base suffix : List (String × Nat)} {k : String} {s : Nat}
    (h : alookup base k = some s) :
    alookup (base ++ suffix) k = some s :=
  alookup_append_of_some h

/-- Membership as a list of processed nodes grows only. -/
theorem filter_length_all {l : List Nat} {P : Nat → Bool}
    (h : (l.filter P).length = l.length) : ∀ x ∈ l, P x = true := by
  have hsub : List.Sublist (l.filter P) l := List.filter_sublist l
  have := List.Sublist.eq_of_length hsub h
  intro x hx
  rw [← this] at hx
  exact List.of_mem_filter hx

theorem all_filter_length {l : List Nat} {P : Nat → Bool}
    (h : ∀ x ∈ l, P x = true) : (l.filter P).length = l.length := by
  rw [List.filter_eq_self.mpr h]

/-! ## Frame lemmas for the upward merges -/

/-- Fields untouched by `mergeKey`/`mergeChild`/`mergeChildren`: everything
except `curr`'s descendant map and the shared stores. -/
def MergeFrame (curr : Nat) (st st2 : BState) : Prop :=
  st2.nextPos = st.nextPos ∧ st2.tagf = st.tagf ∧ st2.parentf = st.parentf ∧
  st2.childrenf = st.childrenf ∧ st2.attrsf = st.attrsf ∧ st2.nextSet = st.nextSet ∧
  st2.upVisits = st.upVisits ∧ st2.upQueue = st.upQueue ∧
  st2.processed = st.processed ∧ st2.srcf = st.srcf ∧
  (∀ x, x ≠ curr → st2.descsf x = st.descsf x)

theorem mergeFrame_refl (curr : Nat) (st : BState) : MergeFrame curr st st :=
  ⟨rfl, rfl, rfl, rfl, rfl, rfl, rfl, rfl, rfl, rfl, fun _ _ => rfl⟩

theorem mergeFrame_trans {curr : Nat} {st1 st2 st3 : BState}
    (h1 : MergeFrame curr st1 st2) (h2 : MergeFrame curr st2 st3) :
    MergeFrame curr st1 st3 := by
  obtain ⟨a1, a2, a3, a4, a5, a6, a7, a8, a9, a10, a11⟩ := h1
  obtain ⟨b1, b2, b3, b4, b5, b6, b7, b8, b9, b10, b11⟩ := h2
  exact ⟨b1.trans a1, b2.trans a2, b3.trans a3, b4.trans a4, b5.trans a5,
    b6.trans a6, b7.trans a7, b8.trans a8, b9.trans a9, b10.trans a10,
    fun x hx => (b11 x hx).trans (a11 x hx)⟩

theorem mergeKey_frame (curr : Nat) (tg : String) (sid : Nat) (st : BState) :
    MergeFrame curr st (mergeKey curr tg sid st) := by
  unfold mergeKey
  cases alookup (st.descsf curr) tg with
  | some s =>
    exact ⟨rfl, rfl, rfl, rfl, rfl, rfl, rfl, rfl, rfl, rfl, fun _ _ => rfl⟩
  | none =>
    exact ⟨rfl, rfl, rfl, rfl, rfl, rfl, rfl, rfl, rfl, rfl,
      fun x hx => updF_other _ _ _ _ hx⟩

theorem mergeKey_fold_frame (curr : Nat) (l : List (String × Nat)) (st : BState) :
    MergeFrame curr st (l.foldl (fun acc kv => mergeKey curr kv.1 kv.2 acc) st) := by
  induction l generalizing st with
  | nil => exact mergeFrame_refl curr st
  | cons kv t ih =>
    exact mergeFrame_trans (mergeKey_frame curr kv.1 kv.2 st) (ih _)

theorem mergeChild_frame (curr c : Nat) (st : BState) :
    MergeFrame curr st (mergeChild curr c st) :=
  mergeKey_fold_frame curr (st.descsf c) st

theorem mergeChild_fold_frame (curr : Nat) (l : List Nat) (st : BState) :
    MergeFrame curr st (l.foldl (fun acc c => mergeChild curr c acc) st) := by
  induction l generalizing st with
  | nil => exact mergeFrame_refl curr st
  | cons c t ih =>
    exact mergeFrame_trans (mergeChild_frame curr c st) (ih _)

theorem mergeChildren_frame (curr : Nat) (st : BState) :
    MergeFrame curr st (mergeChildren curr st) :=
  mergeChild_fold_frame curr (st.childrenf curr) st

/-- A child's own descendant map is untouched while it is merged, so the
fold over the snapshot list coincides with the Go iteration over the
live map. -/
theorem mergeChild_eq_fold (curr c : Nat) (st : BState) :
    mergeChild curr c st =
      (st.descsf c).foldl (fun acc kv => mergeKey curr kv.1 kv.2 acc) st := rfl

/-! ## Upward-pass data invariant -/

theorem alookup_snoc_cases {l : List (String × Nat)} {tg k : String} {sid s0 : Nat}
    (h : alookup (l ++ [(tg, sid)]) k = some s0) :
    alookup l k = some s0 ∨ (alookup l k = none ∧ k = tg ∧ s0 = sid) := by
  cases hh : alookup l k with
  | some s1 =>
    rw [alookup_append_of_some hh] at h
    exact Or.inl h
  | none =>
    rw [alookup_append_of_none hh] at h
    by_cases htk : tg = k
    · simp only [alookup, if_pos htk] at h
      exact Or.inr ⟨rfl, htk.symm, (Option.some.inj h).symm⟩
    · simp only [alookup, if_neg htk] at h
      exact Option.noConfusion h

theorem alookup_snoc_self {l : List (String × Nat)} {tg : String} {sid : Nat}
    (h : alookup l tg = none) : alookup (l ++ [(tg, sid)]) tg = some sid := by
  rw [alookup_append_of_none h]
  simp [alookup]

theorem bstate_ext {st st2 : BState}
    (h1 : st2.nextPos = st.nextPos) (h2 : st2.tagf = st.tagf)
    (h3 : st2.parentf = st.parentf) (h4 : st2.childrenf = st.childrenf)
    (h5 : st2.attrsf = st.attrsf) (h6 : st2.descsf = st.descsf)
    (h7 : st2.storef = st.storef) (h8 : st2.nextSet = st.nextSet)
    (h9 : st2.upVisits = st.upVisits) (h10 : st2.upQueue = st.upQueue)
    (h11 : st2.processed = st.processed) (h12 : st2.srcf = st.srcf) :
    st2 = st := by
  cases st2
  cases st
  simp_all

/-- `p` owns set id `s`: some key of `p`'s descendant map points at `s`
(shared Go map values make ownership many-to-one during the upward pass). -/
def OwnerP (st : BState) (p s : Nat) : Prop :=
  ∃ tg, alookup (st.descsf p) tg = some s

/-- Data portion of the upward-pass invariant, relative to the state `stD`
left by the downward pass.  The fields record: the shape of the tree is
frozen; descendant maps only grow by appended keys; set contents are
typed by their key and live strictly below every dominating owner; a set
reached from an unprocessed node is still exactly its downward-pass seed
and solely owned; and an owner whose tag equals the key is above every
other owner of that set. -/
structure MInv (stD st : BState) : Prop where
  e_npos : st.nextPos = stD.nextPos
  e_tag : st.tagf = stD.tagf
  e_par : st.parentf = stD.parentf
  e_ch : st.childrenf = stD.childrenf
  e_at : st.attrsf = stD.attrsf
  e_nset : st.nextSet = stD.nextSet
  e_src : st.srcf = stD.srcf
  m_growth : ∀ p, ∃ l2, st.descsf p = stD.descsf p ++ l2
  m_bound : ∀ p, stD.nextPos ≤ p → st.descsf p = []
  m_keysnd : ∀ p, ((st.descsf p).map Prod.fst).Nodup
  m_snodup : ∀ p tg s, alookup (st.descsf p) tg = some s → (st.storef s).Nodup
  m_typed : ∀ p tg s, alookup (st.descsf p) tg = some s →
    ∀ x ∈ st.storef s, 0 < x ∧ x < stD.nextPos ∧ stD.tagf x = tg
  m_keyagree : ∀ p tg s p2 tg2, alookup (st.descsf p) tg = some s →
    alookup (st.descsf p2) tg2 = some s → tg = tg2
  m_comp : ∀ p tg s p2 tg2, alookup (st.descsf p) tg = some s →
    alookup (st.descsf p2) tg2 = some s →
    Under stD.parentf p p2 ∨ Under stD.parentf p2 p
  m_frozen : ∀ p, p < stD.nextPos → p ∉ st.processed →
    st.descsf p = stD.descsf p ∧
    ∀ tg s, alookup (stD.descsf p) tg = some s →
      st.storef s = stD.storef s ∧
      ∀ q tg2, alookup (st.descsf q) tg2 = some s → q = p ∧ tg2 = tg
  m_top : ∀ p s, OwnerP st p s →
    (∀ q, OwnerP st q s → Under stD.parentf q p) →
    ∀ x ∈ st.storef s, Under stD.parentf x p ∧ p < x
  m_tagtop : ∀ p tg s, alookup (st.descsf p) tg = some s → stD.tagf p = tg →
    ∀ q, OwnerP st q s → Under stD.parentf q p

theorem minv_owner_lt {stD st : BState} (hM : MInv stD st) {p s : Nat}
    (h : OwnerP st p s) : p < stD.nextPos := by
  by_contra hge
  obtain ⟨tg, hl⟩ := h
  rw [hM.m_bound p (le_of_not_lt hge)] at hl
  exact Option.noConfusion hl

theorem mergeKey_some {curr : Nat} {tg : String} {sid : Nat} {st : BState} {s : Nat}
    (h : alookup (st.descsf curr) tg = some s) :
    mergeKey curr tg sid st =
      { st with storef := updF st.storef s (unionInto (st.storef s) (st.storef sid)) } := by
  unfold mergeKey
  rw [h]

theorem mergeKey_none {curr : Nat} {tg : String} {sid : Nat} {st : BState}
    (h : alookup (st.descsf curr) tg = none) :
    mergeKey curr tg sid st =
      { st with descsf := updF st.descsf curr (st.descsf curr ++ [(tg, sid)]) } := by
  unfold mergeKey
  rw [h]

/-- All owners of a set reachable from a child `c` of the node currently
being merged lie in `c`'s subtree: an owner above `c` would have to be
`curr` itself (excluded by `hncurr` and key agreement) or an unprocessed
strict ancestor of `curr`, whose sole ownership would force it to be `c`. -/
theorem owners_under_child {root : HNode} {stD st : BState}
    (hD : DInv root [] stD) (hM : MInv stD st) {curr c : Nat} {tg : String} {sid : Nat}
    (hc : stD.parentf c = some curr)
    (hanc : ∀ a, Under stD.parentf curr a → a ≠ curr → a ∉ st.processed)
    (hsid : alookup (st.descsf c) tg = some sid)
    (hncurr : alookup (st.descsf curr) tg ≠ some sid) :
    ∀ q, OwnerP st q sid → Under stD.parentf q c := by
  intro q hq
  obtain ⟨tg2, hq2⟩ := hq
  rcases hM.m_comp c tg sid q tg2 hsid hq2 with h | h
  · by_cases hqc : c = q
    · rw [← hqc]
      exact Under.refl c
    · have hcurq : Under stD.parentf curr q := under_parent_of_ne h hqc curr hc
      by_cases hqcur : q = curr
      · exfalso
        have hkey := hM.m_keyagree c tg sid q tg2 hsid hq2
        rw [hqcur, ← hkey] at hq2
        exact hncurr hq2
      · exfalso
        have hnp := hanc q hcurq hqcur
        have hqlt : q < stD.nextPos := minv_owner_lt hM ⟨tg2, hq2⟩
        obtain ⟨hdq, hfz⟩ := hM.m_frozen q hqlt hnp
        rw [hdq] at hq2
        obtain ⟨_, hsole⟩ := hfz tg2 sid hq2
        have hceq := (hsole c tg hsid).1
        have hle : q ≤ curr := under_le hD.par_lt hcurq
        have hlt : curr < c := hD.par_lt c curr hc
        omega
  · exact h

/-- Output bundle of one merge operation: invariant preserved, stores and
reachable descendant sets only grow. -/
structure MStepOut (stD st st2 : BState) : Prop where
  minv : MInv stD st2
  mono_store : ∀ s x, x ∈ st.storef s → x ∈ st2.storef s
  mono_desc : ∀ p k x, x ∈ descsSet st p k → x ∈ descsSet st2 p k

theorem mstep_refl {stD st : BState} (hM : MInv stD st) : MStepOut stD st st :=
  ⟨hM, fun _ _ h => h, fun _ _ _ h => h⟩

theorem mstep_trans {stD st1 st2 st3 : BState}
    (h1 : MStepOut stD st1 st2) (h2 : MStepOut stD st2 st3) : MStepOut stD st1 st3 :=
  ⟨h2.minv, fun s x hx => h2.mono_store s x (h1.mono_store s x hx),
    fun p k x hx => h2.mono_desc p k x (h1.mono_desc p k x hx)⟩

theorem descsSet_eq_of_lookup (st2 : BState) (p : Nat) (k : String) (s0 : Nat)
    (h : alookup (st2.descsf p) k = some s0) : descsSet st2 p k = st2.storef s0 := by
  unfold descsSet
  rw [h]

theorem descsSet_eq_of_lookup_none (st2 : BState) (p : Nat) (k : String)
    (h : alookup (st2.descsf p) k = none) : descsSet st2 p k = [] := by
  unfold descsSet
  rw [h]

/-- Effect of merging one `(key, set)` entry of a child `c` into `curr`:
the invariant is preserved, stores and reachable sets only grow, and the
child's set contents end up reachable from `curr` under the key.  The
`else` branch of the Go code installs the child's set object itself under
`curr`'s key (aliasing), which is why ownership becomes shared. -/
theorem mergeKey_post {root : HNode} {stD st : BState}
    (hD : DInv root [] stD) (hM : MInv stD st) {curr c : Nat} {tg : String} {sid : Nat}
    (hc : stD.parentf c = some curr)
    (hcurr_proc : curr ∈ st.processed)
    (hcproc : c ∈ st.processed)
    (hanc : ∀ a, Under stD.parentf curr a → a ≠ curr → a ∉ st.processed)
    (hsid : alookup (st.descsf c) tg = some sid) :
    MStepOut stD st (mergeKey curr tg sid st) ∧
      ∀ x ∈ st.storef sid, x ∈ descsSet (mergeKey curr tg sid st) curr tg := by
  have hcn : c < stD.nextPos := hD.par_dom c curr hc
  have hcu : curr < c := hD.par_lt c curr hc
  have hcurrn : curr < stD.nextPos := lt_trans hcu hcn
  cases hlook : alookup (st.descsf curr) tg with
  | none =>
    rw [mergeKey_none hlook]
    have hncurr : alookup (st.descsf curr) tg ≠ some sid := by
      rw [hlook]
      exact fun h => Option.noConfusion h
    have hOwnU := owners_under_child hD hM hc hanc hsid hncurr
    have hTop := hM.m_top c sid ⟨tg, hsid⟩ hOwnU
    have hdcurr : updF st.descsf curr (st.descsf curr ++ [(tg, sid)]) curr
        = st.descsf curr ++ [(tg, sid)] := updF_same _ _ _
    have hdoth : ∀ p, p ≠ curr →
        updF st.descsf curr (st.descsf curr ++ [(tg, sid)]) p = st.descsf p :=
      fun p hp => updF_other _ _ _ p hp
    have hcase : ∀ p k s0,
        alookup (updF st.descsf curr (st.descsf curr ++ [(tg, sid)]) p) k = some s0 →
        alookup (st.descsf p) k = some s0 ∨ (p = curr ∧ k = tg ∧ s0 = sid) := by
      intro p k s0 h0
      by_cases hp : p = curr
      · subst p
        rw [hdcurr] at h0
        rcases alookup_snoc_cases h0 with h1 | h1
        · exact Or.inl h1
        · exact Or.inr ⟨rfl, h1.2.1, h1.2.2⟩
      · rw [hdoth p hp] at h0
        exact Or.inl h0
    have hback : ∀ p k s0, alookup (st.descsf p) k = some s0 →
        alookup (updF st.descsf curr (st.descsf curr ++ [(tg, sid)]) p) k = some s0 := by
      intro p k s0 h0
      by_cases hp : p = curr
      · subst p
        rw [hdcurr]
        exact alookup_append_of_some h0
      · rw [hdoth p hp]
        exact h0
    have hnew : alookup (updF st.descsf curr (st.descsf curr ++ [(tg, sid)]) curr) tg
        = some sid := by
      rw [hdcurr]
      exact alookup_snoc_self hlook
    refine ⟨⟨⟨hM.e_npos, hM.e_tag, hM.e_par, hM.e_ch, hM.e_at, hM.e_nset, hM.e_src,
      ?_, ?_, ?_, ?_, ?_, ?_, ?_, ?_, ?_, ?_⟩, ?_, ?_⟩, ?_⟩
    · intro p
      by_cases hp : p = curr
      · subst p
        obtain ⟨l2, hl2⟩ := hM.m_growth curr
        refine ⟨l2 ++ [(tg, sid)], ?_⟩
        show updF st.descsf curr (st.descsf curr ++ [(tg, sid)]) curr = _
        rw [hdcurr, hl2, List.append_assoc]
      · obtain ⟨l2, hl2⟩ := hM.m_growth p
        refine ⟨l2, ?_⟩
        show updF st.descsf curr (st.descsf curr ++ [(tg, sid)]) p = _
        rw [hdoth p hp, hl2]
    · intro p hp
      have hpc : p ≠ curr := by omega
      show updF st.descsf curr (st.descsf curr ++ [(tg, sid)]) p = []
      rw [hdoth p hpc]
      exact hM.m_bound p hp
    · intro p
      by_cases hp : p = curr
      · subst p
        show ((updF st.descsf curr (st.descsf curr ++ [(tg, sid)]) curr).map Prod.fst).Nodup
        rw [hdcurr, List.map_append]
        refine List.Nodup.append (hM.m_keysnd curr) (by simp) ?_
        intro a ha hb
        simp only [List.map_cons, List.map_nil, List.mem_singleton] at hb
        subst hb
        exact (alookup_eq_none_iff.mp hlook) ha
      · show ((updF st.descsf curr (st.descsf curr ++ [(tg, sid)]) p).map Prod.fst).Nodup
        rw [hdoth p hp]
        exact hM.m_keysnd p
    · intro p k s0 h0
      rcases hcase p k s0 h0 with h1 | ⟨hp, hk, hs⟩
      · exact hM.m_snodup p k s0 h1
      · subst s0
        exact hM.m_snodup c tg sid hsid
    · intro p k s0 h0 x hx
      rcases hcase p k s0 h0 with h1 | ⟨hp, hk, hs⟩
      · exact hM.m_typed p k s0 h1 x hx
      · subst s0
        subst k
        exact hM.m_typed c tg sid hsid x hx
    · intro p k s0 p2 k2 h0 h02
      rcases hcase p k s0 h0 with h1 | ⟨hp, hk, hs⟩ <;>
        rcases hcase p2 k2 s0 h02 with h2 | ⟨hp2, hk2, hs2⟩
      · exact hM.m_keyagree p k s0 p2 k2 h1 h2
      · subst s0
        rw [hk2]
        exact hM.m_keyagree p k sid c tg h1 hsid
      · subst s0
        rw [hk]
        exact (hM.m_keyagree p2 k2 sid c tg h2 hsid).symm
      · rw [hk, hk2]
    · intro p k s0 p2 k2 h0 h02
      rcases hcase p k s0 h0 with h1 | ⟨hp, hk, hs⟩ <;>
        rcases hcase p2 k2 s0 h02 with h2 | ⟨hp2, hk2, hs2⟩
      · exact hM.m_comp p k s0 p2 k2 h1 h2
      · subst p2
        subst s0
        exact Or.inl (under_trans (hOwnU p ⟨k, h1⟩) (under_child hc))
      · subst p
        subst s0
        exact Or.inr (under_trans (hOwnU p2 ⟨k2, h2⟩) (under_child hc))
      · subst p
        subst p2
        exact Or.inl (Under.refl curr)
    · intro p hpn hnp
      have hpc : p ≠ curr := fun he => hnp (he.symm ▸ hcurr_proc)
      obtain ⟨hdfp, hfz⟩ := hM.m_frozen p hpn hnp
      constructor
      · show updF st.descsf curr (st.descsf curr ++ [(tg, sid)]) p = stD.descsf p
        rw [hdoth p hpc]
        exact hdfp
      · intro k s0 hD0
        obtain ⟨hstore, hsole⟩ := hfz k s0 hD0
        refine ⟨hstore, ?_⟩
        intro q k2 h2
        rcases hcase q k2 s0 h2 with h3 | ⟨hq, hk2, hs0⟩
        · exact hsole q k2 h3
        · exfalso
          subst s0
          have hcp := (hsole c tg hsid).1
          rw [hcp] at hcproc
          exact hnp hcproc
    · intro p s0 hp hdom x hx
      by_cases hs0 : s0 = sid
      · subst s0
        have hcurp : Under stD.parentf curr p := hdom curr ⟨tg, hnew⟩
        obtain ⟨hxc, hcx⟩ := hTop x hx
        refine ⟨under_trans (under_trans hxc (under_child hc)) hcurp, ?_⟩
        have h1 : p ≤ curr := under_le hD.par_lt hcurp
        omega
      · obtain ⟨k, hk⟩ := hp
        rcases hcase p k s0 hk with h1 | ⟨_, _, hs⟩
        · refine hM.m_top p s0 ⟨k, h1⟩ ?_ x hx
          intro q hq2
          obtain ⟨k2, hk2⟩ := hq2
          exact hdom q ⟨k2, hback q k2 s0 hk2⟩
        · exact absurd hs hs0
    · intro p k s0 h0 htag q hq
      obtain ⟨k2, hk2⟩ := hq
      rcases hcase p k s0 h0 with h1 | ⟨hp, hkk, hss⟩
      · by_cases hsids : s0 = sid
        · exfalso
          subst s0
          have hpc2 : Under stD.parentf p c := hOwnU p ⟨k, h1⟩
          have hcp2 : Under stD.parentf c p := hM.m_tagtop p k sid h1 htag c ⟨tg, hsid⟩
          have hpec : p = c := under_antisymm hD.par_lt hpc2 hcp2
          have hkt : k = tg := hM.m_keyagree p k sid c tg h1 hsid
          have hctag : stD.tagf c = tg := by
            rw [← hpec, ← hkt]
            exact htag
          have hcmem : c ∈ stD.childrenf curr := (hD.child_iff c curr).mp hc
          have hsomek : (alookup (stD.descsf curr) tg).isSome = true :=
            (hD.dkeys_iff curr tg).mpr ⟨c, hcmem, hctag⟩
          obtain ⟨s1, hs1⟩ := Option.isSome_iff_exists.mp hsomek
          obtain ⟨l2, hl2⟩ := hM.m_growth curr
          have h3 : alookup (st.descsf curr) tg = some s1 := by
            rw [hl2]
            exact alookup_append_of_some hs1
          rw [hlook] at h3
          exact Option.noConfusion h3
        · rcases hcase q k2 s0 hk2 with h2 | ⟨_, _, hs2⟩
          · exact hM.m_tagtop p k s0 h1 htag q ⟨k2, h2⟩
          · exact absurd hs2 hsids
      · subst p
        subst s0
        rcases hcase q k2 sid hk2 with h2 | ⟨hq2, _, _⟩
        · exact under_trans (hOwnU q ⟨k2, h2⟩) (under_child hc)
        · subst q
          exact Under.refl curr
    · intro s0 x hx
      exact hx
    · intro p k x hx
      cases hl0 : alookup (st.descsf p) k with
      | none =>
        rw [descsSet_eq_of_lookup_none st p k hl0] at hx
        simp at hx
      | some s0 =>
        rw [descsSet_eq_of_lookup st p k s0 hl0] at hx
        rw [descsSet_eq_of_lookup
          { st with descsf := updF st.descsf curr (st.descsf curr ++ [(tg, sid)]) }
          p k s0 (hback p k s0 hl0)]
        exact hx
    · intro x hx
      rw [descsSet_eq_of_lookup
        { st with descsf := updF st.descsf curr (st.descsf curr ++ [(tg, sid)]) }
        curr tg sid hnew]
      exact hx
  | some s' =>
    by_cases hss : s' = sid
    · subst s'
      rw [mergeKey_some hlook]
      have hkeep : updF st.storef sid (unionInto (st.storef sid) (st.storef sid))
          = st.storef := by
        rw [unionInto_of_sub (fun x hx => hx)]
        exact updF_self _ _
      have hsame : ({ st with storef := updF st.storef sid (unionInto (st.storef sid) (st.storef sid)) } : BState) = st :=
        bstate_ext rfl rfl rfl rfl rfl rfl hkeep rfl rfl rfl rfl rfl
      rw [hsame]
      refine ⟨mstep_refl hM, ?_⟩
      intro x hx
      rw [descsSet_eq_of_lookup st curr tg sid hlook]
      exact hx
    · rw [mergeKey_some hlook]
      have hncurr : alookup (st.descsf curr) tg ≠ some sid := by
        rw [hlook]
        exact fun h => hss (Option.some.inj h)
      have hOwnU := owners_under_child hD hM hc hanc hsid hncurr
      have hTop := hM.m_top c sid ⟨tg, hsid⟩ hOwnU
      have hS2s : updF st.storef s' (unionInto (st.storef s') (st.storef sid)) s'
          = unionInto (st.storef s') (st.storef sid) := updF_same _ _ _
      have hS2o : ∀ s0, s0 ≠ s' →
          updF st.storef s' (unionInto (st.storef s') (st.storef sid)) s0 = st.storef s0 :=
        fun s0 h => updF_other _ _ _ _ h
      have hmemS2 : ∀ s0 x,
          x ∈ updF st.storef s' (unionInto (st.storef s') (st.storef sid)) s0 ↔
          (x ∈ st.storef s0 ∨ (s0 = s' ∧ x ∈ st.storef sid)) := by
        intro s0 x
        by_cases h : s0 = s'
        · subst s0
          rw [hS2s, mem_unionInto]
          constructor
          · rintro (h1 | h1)
            · exact Or.inl h1
            · exact Or.inr ⟨rfl, h1⟩
          · rintro (h1 | ⟨_, h1⟩)
            · exact Or.inl h1
            · exact Or.inr h1
        · rw [hS2o s0 h]
          constructor
          · exact Or.inl
          · rintro (h1 | ⟨h2, _⟩)
            · exact h1
            · exact absurd h2 h
      refine ⟨⟨⟨hM.e_npos, hM.e_tag, hM.e_par, hM.e_ch, hM.e_at, hM.e_nset, hM.e_src,
        hM.m_growth, hM.m_bound, hM.m_keysnd, ?_, ?_, hM.m_keyagree, hM.m_comp,
        ?_, ?_, hM.m_tagtop⟩, ?_, ?_⟩, ?_⟩
      · intro p k s0 h0
        show (updF st.storef s' (unionInto (st.storef s') (st.storef sid)) s0).Nodup
        by_cases hs0 : s0 = s'
        · subst s0
          rw [hS2s]
          exact unionInto_nodup (hM.m_snodup curr tg s' hlook)
        · rw [hS2o s0 hs0]
          exact hM.m_snodup p k s0 h0
      · intro p k s0 h0 x hx
        rcases (hmemS2 s0 x).mp hx with h1 | ⟨hs0, h1⟩
        · exact hM.m_typed p k s0 h0 x h1
        · subst s0
          have hkt : k = tg := hM.m_keyagree p k s' curr tg h0 hlook
          subst k
          exact hM.m_typed c tg sid hsid x h1
      · intro p hpn hnp
        obtain ⟨hdfp, hfz⟩ := hM.m_frozen p hpn hnp
        refine ⟨hdfp, ?_⟩
        intro k s0 hD0
        obtain ⟨hstore, hsole⟩ := hfz k s0 hD0
        have hs0 : s0 ≠ s' := by
          intro he
          have h2 := hsole curr tg (by rw [he]; exact hlook)
          rw [← h2.1] at hnp
          exact hnp hcurr_proc
        refine ⟨?_, hsole⟩
        show updF st.storef s' (unionInto (st.storef s') (st.storef sid)) s0 = stD.storef s0
        rw [hS2o s0 hs0]
        exact hstore
      · intro p s0 hp hdom x hx
        rcases (hmemS2 s0 x).mp hx with h1 | ⟨hs0, h1⟩
        · exact hM.m_top p s0 hp hdom x h1
        · subst s0
          have hcurp : Under stD.parentf curr p := hdom curr ⟨tg, hlook⟩
          obtain ⟨hxc, hcx⟩ := hTop x h1
          refine ⟨under_trans (under_trans hxc (under_child hc)) hcurp, ?_⟩
          have h2 : p ≤ curr := under_le hD.par_lt hcurp
          omega
      · intro s0 x hx
        show x ∈ updF st.storef s' (unionInto (st.storef s') (st.storef sid)) s0
        exact (hmemS2 s0 x).mpr (Or.inl hx)
      · intro p k x hx
        cases hl0 : alookup (st.descsf p) k with
        | none =>
          rw [descsSet_eq_of_lookup_none st p k hl0] at hx
          simp at hx
        | some s0 =>
          rw [descsSet_eq_of_lookup st p k s0 hl0] at hx
          rw [descsSet_eq_of_lookup
            { st with storef := updF st.storef s' (unionInto (st.storef s') (st.storef sid)) }
            p k s0 hl0]
          exact (hmemS2 s0 x).mpr (Or.inl hx)
      · intro x hx
        rw [descsSet_eq_of_lookup
          { st with storef := updF st.storef s' (unionInto (st.storef s') (st.storef sid)) }
          curr tg s' hlook]
        exact (hmemS2 s' x).mpr (Or.inr ⟨rfl, hx⟩)

/-- Folding `mergeKey` over a list of entries of child `c` preserves the
invariant and pours every listed set into `curr` under its key. -/
theorem mergeKey_fold_post {root : HNode} {stD : BState}
    (hD : DInv root [] stD) {curr c : Nat} {procd : List Nat}
    (hc : stD.parentf c = some curr)
    (hcurr_proc : curr ∈ procd) (hcproc : c ∈ procd)
    (hanc : ∀ a, Under stD.parentf curr a → a ≠ curr → a ∉ procd) :
    ∀ (l : List (String × Nat)) (st1 : BState), MInv stD st1 →
      st1.processed = procd →
      (∀ kv ∈ l, alookup (st1.descsf c) kv.1 = some kv.2) →
      MStepOut stD st1 (l.foldl (fun acc kv => mergeKey curr kv.1 kv.2 acc) st1) ∧
      ∀ kv ∈ l, ∀ x, x ∈ st1.storef kv.2 →
        x ∈ descsSet (l.foldl (fun acc kv => mergeKey curr kv.1 kv.2 acc) st1) curr kv.1 := by
  intro l
  induction l with
  | nil =>
    intro st1 hM hpr hkv
    refine ⟨mstep_refl hM, ?_⟩
    intro kv hkv2
    cases hkv2
  | cons kv t ih =>
    intro st1 hM hpr hkv
    have hcc : c ≠ curr := by
      have := hD.par_lt c curr hc
      omega
    have hlk := hkv kv (List.mem_cons_self kv t)
    have hpost := mergeKey_post hD hM hc
      (by rw [hpr]; exact hcurr_proc) (by rw [hpr]; exact hcproc)
      (by rw [hpr]; exact hanc) hlk
    obtain ⟨hout, hpour⟩ := hpost
    have hfr := mergeKey_frame curr kv.1 kv.2 st1
    have hstep := ih (mergeKey curr kv.1 kv.2 st1) hout.minv
      (hfr.2.2.2.2.2.2.2.2.1.trans hpr)
      (by
        intro kv2 hkv2
        rw [hfr.2.2.2.2.2.2.2.2.2.2 c hcc]
        exact hkv kv2 (List.mem_cons_of_mem kv hkv2))
    obtain ⟨hout2, hpour2⟩ := hstep
    refine ⟨mstep_trans hout hout2, ?_⟩
    intro kv0 hkv0 x hx
    rcases List.mem_cons.mp hkv0 with h0 | h0
    · subst h0
      exact hout2.mono_desc curr kv0.1 x (hpour x hx)
    · exact hpour2 kv0 h0 x (hout.mono_store kv0.2 x hx)

/-- Merging one whole child preserves the invariant and pours the child's
reachable descendant sets into `curr`. -/
theorem mergeChild_post {root : HNode} {stD st1 : BState}
    (hD : DInv root [] stD) (hM : MInv stD st1) {curr c : Nat} {procd : List Nat}
    (hc : stD.parentf c = some curr)
    (hcurr_proc : curr ∈ procd) (hcproc : c ∈ procd)
    (hanc : ∀ a, Under stD.parentf curr a → a ≠ curr → a ∉ procd)
    (hpr : st1.processed = procd) :
    MStepOut stD st1 (mergeChild curr c st1) ∧
    ∀ tg x, x ∈ descsSet st1 c tg → x ∈ descsSet (mergeChild curr c st1) curr tg := by
  have hkv : ∀ kv ∈ st1.descsf c, alookup (st1.descsf c) kv.1 = some kv.2 := by
    intro kv hm
    have : (kv.1, kv.2) ∈ st1.descsf c := by
      rw [Prod.mk.eta]
      exact hm
    exact alookup_of_mem_nodupkeys this (hM.m_keysnd c)
  obtain ⟨hout, hpour⟩ :=
    mergeKey_fold_post hD hc hcurr_proc hcproc hanc (st1.descsf c) st1 hM hpr hkv
  refine ⟨hout, ?_⟩
  intro tg x hx
  cases hl0 : alookup (st1.descsf c) tg with
  | none =>
    rw [descsSet_eq_of_lookup_none st1 c tg hl0] at hx
    simp at hx
  | some sid =>
    rw [descsSet_eq_of_lookup st1 c tg sid hl0] at hx
    exact hpour (tg, sid) (alookup_mem hl0) x hx

/-- Folding `mergeChild` over a list of processed children of `curr`. -/
theorem mergeChild_fold_post {root : HNode} {stD : BState}
    (hD : DInv root [] stD) {curr : Nat} {procd : List Nat}
    (hcurr_proc : curr ∈ procd)
    (hanc : ∀ a, Under stD.parentf curr a → a ≠ curr → a ∉ procd) :
    ∀ (l : List Nat) (st1 : BState), MInv stD st1 →
      st1.processed = procd →
      (∀ c ∈ l, stD.parentf c = some curr ∧ c ∈ procd) →
      MStepOut stD st1 (l.foldl (fun acc c => mergeChild curr c acc) st1) ∧
      ∀ c ∈ l, ∀ tg x, x ∈ descsSet st1 c tg →
        x ∈ descsSet (l.foldl (fun acc c => mergeChild curr c acc) st1) curr tg := by
  intro l
  induction l with
  | nil =>
    intro st1 hM hpr hl
    refine ⟨mstep_refl hM, ?_⟩
    intro c hc
    cases hc
  | cons c t ih =>
    intro st1 hM hpr hl
    obtain ⟨hc, hcp⟩ := hl c (List.mem_cons_self c t)
    obtain ⟨hout, hpour⟩ := mergeChild_post hD hM hc hcurr_proc hcp hanc hpr
    have hfr := mergeChild_frame curr c st1
    have hstep := ih (mergeChild curr c st1) hout.minv
      (hfr.2.2.2.2.2.2.2.2.1.trans hpr)
      (fun c2 hc2 => hl c2 (List.mem_cons_of_mem c hc2))
    obtain ⟨hout2, hpour2⟩ := hstep
    refine ⟨mstep_trans hout hout2, ?_⟩
    intro c0 hc0 tg x hx
    rcases List.mem_cons.mp hc0 with h0 | h0
    · subst h0
      exact hout2.mono_desc curr tg x (hpour tg x hx)
    · exact hpour2 c0 h0 tg x (hout.mono_desc c0 tg x hx)

/-- `mergeChildren` preserves the invariant and pours every child's
reachable descendant sets into `curr`. -/
theorem mergeChildren_post {root : HNode} {stD st1 : BState}
    (hD : DInv root [] stD) (hM : MInv stD st1) {curr : Nat} {procd : List Nat}
    (hcurr_proc : curr ∈ procd)
    (hanc : ∀ a, Under stD.parentf curr a → a ≠ curr → a ∉ procd)
    (hpr : st1.processed = procd)
    (hch : ∀ c ∈ stD.childrenf curr, c ∈ procd) :
    MStepOut stD st1 (mergeChildren curr st1) ∧
    ∀ c ∈ stD.childrenf curr, ∀ tg x, x ∈ descsSet st1 c tg →
      x ∈ descsSet (mergeChildren curr st1) curr tg := by
  have hche : st1.childrenf curr = stD.childrenf curr := by rw [hM.e_ch]
  have hl : ∀ c ∈ st1.childrenf curr, stD.parentf c = some curr ∧ c ∈ procd := by
    intro c hc
    rw [hche] at hc
    exact ⟨(hD.child_iff c curr).mpr hc, hch c hc⟩
  obtain ⟨hout, hpour⟩ :=
    mergeChild_fold_post hD hcurr_proc hanc (st1.childrenf curr) st1 hM hpr hl
  refine ⟨hout, ?_⟩
  intro c hc tg x hx
  rw [← hche] at hc
  exact hpour c hc tg x hx

/-- Transfer `MInv` across a state that differs only in scheduling fields,
with a possibly larger processed list. -/
theorem minv_relax {stD st st2 : BState} (hM : MInv stD st)
    (h1 : st2.nextPos = st.nextPos) (h2 : st2.tagf = st.tagf)
    (h3 : st2.parentf = st.parentf) (h4 : st2.childrenf = st.childrenf)
    (h5 : st2.attrsf = st.attrsf) (h6 : st2.nextSet = st.nextSet)
    (h7 : st2.srcf = st.srcf) (h8 : st2.descsf = st.descsf)
    (h9 : st2.storef = st.storef)
    (hpr : ∀ p, p ∉ st2.processed → p ∉ st.processed) :
    MInv stD st2 := by
  have hOwn : ∀ q s, OwnerP st2 q s ↔ OwnerP st q s := by
    intro q s
    unfold OwnerP
    rw [h8]
  refine ⟨h1.trans hM.e_npos, h2.trans hM.e_tag, h3.trans hM.e_par, h4.trans hM.e_ch,
    h5.trans hM.e_at, h6.trans hM.e_nset, h7.trans hM.e_src,
    ?_, ?_, ?_, ?_, ?_, ?_, ?_, ?_, ?_, ?_⟩
  · intro p
    rw [h8]
    exact hM.m_growth p
  · intro p hp
    rw [h8]
    exact hM.m_bound p hp
  · intro p
    rw [h8]
    exact hM.m_keysnd p
  · intro p tg s h
    rw [h8] at h
    rw [h9]
    exact hM.m_snodup p tg s h
  · intro p tg s h x hx
    rw [h8] at h
    rw [h9] at hx
    exact hM.m_typed p tg s h x hx
  · intro p tg s p2 tg2 ha hb
    rw [h8] at ha hb
    exact hM.m_keyagree p tg s p2 tg2 ha hb
  · intro p tg s p2 tg2 ha hb
    rw [h8] at ha hb
    exact hM.m_comp p tg s p2 tg2 ha hb
  · intro p hpn hnp
    rw [h8, h9]
    exact hM.m_frozen p hpn (hpr p hnp)
  · intro p s hp hdom x hx
    rw [h9] at hx
    refine hM.m_top p s ((hOwn p s).mp hp) ?_ x hx
    intro q hq
    exact hdom q ((hOwn q s).mpr hq)
  · intro p tg s h htag q hq
    rw [h8] at h
    exact hM.m_tagtop p tg s h htag q ((hOwn q s).mp hq)

/-- Membership in the processed list is closed downward along the
ancestor relation when it is closed under taking children. -/
theorem under_closed_processed {par : Nat → Option Nat} {proc : List Nat}
    {ch : Nat → List Nat}
    (hclosed : ∀ p ∈ proc, ∀ c ∈ ch p, c ∈ proc)
    (hcif : ∀ x y, par x = some y ↔ x ∈ ch y) :
    ∀ {x a : Nat}, Under par x a → a ∈ proc → x ∈ proc := by
  intro x a hx
  induction hx with
  | refl => exact fun h => h
  | up h1 h2 ih =>
    intro hr
    rename_i q0 r0
    exact ih (hclosed r0 hr q0 ((hcif q0 r0).mp h2))

theorem filter_length_add_singleton {L proc : List Nat} {curr : Nat}
    (hnd : L.Nodup) (hcl : curr ∈ L) (hcp : curr ∉ proc) :
    (L.filter (fun c => decide (c ∈ proc ++ [curr]))).length
      = (L.filter (fun c => decide (c ∈ proc))).length + 1 := by
  induction L with
  | nil => cases hcl
  | cons a t ih =>
    obtain ⟨ha, ht⟩ := List.nodup_cons.mp hnd
    rcases List.mem_cons.mp hcl with he | hm
    · have hfeq : t.filter (fun c => decide (c ∈ proc ++ [curr]))
          = t.filter (fun c => decide (c ∈ proc)) := by
        refine List.filter_congr ?_
        intro c hct
        have hcne : c ≠ curr := fun hh => ha (by rw [← he, ← hh]; exact hct)
        have hiff : c ∈ proc ++ [curr] ↔ c ∈ proc := by
          rw [List.mem_append]
          simp [hcne]
        exact decide_eq_decide.mpr hiff
      have hpa : decide (a ∈ proc ++ [curr]) = true := by
        rw [decide_eq_true_iff, List.mem_append]
        exact Or.inr (by rw [← he]; exact List.mem_singleton.mpr rfl)
      have hpb : decide (a ∈ proc) = false := by
        rw [decide_eq_false_iff_not]
        rw [← he]
        exact hcp
      rw [List.filter_cons, List.filter_cons, hpa, hpb, hfeq]
      rw [if_pos rfl, if_neg (by simp)]
      simp only [List.length_cons]
    · have hane : a ≠ curr := fun hh => ha (hh ▸ hm)
      have hd : decide (a ∈ proc ++ [curr]) = decide (a ∈ proc) := by
        refine decide_eq_decide.mpr ?_
        rw [List.mem_append]
        simp [hane]
      have hih := ih ht hm
      rw [List.filter_cons, List.filter_cons, hd]
      cases hda : decide (a ∈ proc) with
      | true =>
        rw [if_pos rfl, if_pos rfl]
        simp only [List.length_cons]
        omega
      | false =>
        rw [if_neg (by simp), if_neg (by simp)]
        omega

/-- Full upward-pass invariant: the data invariant plus the scheduling of
the counter-driven queue, and completeness of every processed node's
descendant index over its strict subtree. -/
structure UpInv (stD st : BState) : Prop where
  minv : MInv stD st
  proc_sub : ∀ p ∈ st.processed, p < stD.nextPos
  proc_nodup : st.processed.Nodup
  proc_closed : ∀ p ∈ st.processed, ∀ c ∈ stD.childrenf p, c ∈ st.processed
  q_nodup : st.upQueue.Nodup
  q_char : ∀ p, p ∈ st.upQueue ↔
    (p < stD.nextPos ∧ p ∉ st.processed ∧
      ∀ c ∈ stD.childrenf p, c ∈ st.processed)
  visits : ∀ p, st.upVisits p =
    ((stD.childrenf p).length : Int) -
      (((stD.childrenf p).filter (fun c => decide (c ∈ st.processed))).length : Int)
  done : ∀ p ∈ st.processed, ∀ tg x, Under stD.parentf x p → p < x →
    stD.tagf x = tg → x ∈ descsSet st p tg

theorem upStep_none {st : BState} {curr : Nat} {rest : List Nat}
    (hq : st.upQueue = curr :: rest)
    (hpar : (mergeChildren curr
      { st with upQueue := rest, processed := st.processed ++ [curr] }).parentf curr
      = none) :
    upStep st = mergeChildren curr
      { st with upQueue := rest, processed := st.processed ++ [curr] } := by
  unfold upStep
  rw [hq]
  dsimp only
  rw [hpar]

theorem upStep_some_zero {st : BState} {curr pa : Nat} {rest : List Nat}
    (hq : st.upQueue = curr :: rest)
    (hpar : (mergeChildren curr
      { st with upQueue := rest, processed := st.processed ++ [curr] }).parentf curr
      = some pa)
    (hv : (mergeChildren curr
      { st with upQueue := rest, processed := st.processed ++ [curr] }).upVisits pa - 1
      = 0) :
    upStep st =
      { mergeChildren curr { st with upQueue := rest, processed := st.processed ++ [curr] } with
        upVisits := updF
          (mergeChildren curr { st with upQueue := rest, processed := st.processed ++ [curr] }).upVisits
          pa
          ((mergeChildren curr { st with upQueue := rest, processed := st.processed ++ [curr] }).upVisits pa - 1),
        upQueue := (mergeChildren curr { st with upQueue := rest, processed := st.processed ++ [curr] }).upQueue ++ [pa] } := by
  unfold upStep
  rw [hq]
  dsimp only
  rw [hpar]
  dsimp only
  rw [if_pos hv]

theorem upStep_some_pos {st : BState} {curr pa : Nat} {rest : List Nat}
    (hq : st.upQueue = curr :: rest)
    (hpar : (mergeChildren curr
      { st with upQueue := rest, processed := st.processed ++ [curr] }).parentf curr
      = some pa)
    (hv : ¬ (mergeChildren curr
      { st with upQueue := rest, processed := st.processed ++ [curr] }).upVisits pa - 1
      = 0) :
    upStep st =
      { mergeChildren curr { st with upQueue := rest, processed := st.processed ++ [curr] } with
        upVisits := updF
          (mergeChildren curr { st with upQueue := rest, processed := st.processed ++ [curr] }).upVisits
          pa
          ((mergeChildren curr { st with upQueue := rest, processed := st.processed ++ [curr] }).upVisits pa - 1) } := by
  unfold upStep
  rw [hq]
  dsimp only
  rw [hpar]
  dsimp only
  rw [if_neg hv]

theorem descsSet_congr {F G : BState} (h1 : F.descsf = G.descsf)
    (h2 : F.storef = G.storef) (p : Nat) (tg : String) :
    descsSet F p tg = descsSet G p tg := by
  unfold descsSet
  rw [h1, h2]

/-- One upward iteration preserves the invariant and records the popped
node as processed. -/
theorem upStep_inv {root : HNode} {stD st : BState}
    (hD : DInv root [] stD) (hU : UpInv stD st) {curr : Nat} {rest : List Nat}
    (hq : st.upQueue = curr :: rest) :
    UpInv stD (upStep st) ∧ (upStep st).processed = st.processed ++ [curr] := by
  have hcq : curr ∈ st.upQueue := by
    rw [hq]
    exact List.mem_cons_self curr rest
  obtain ⟨hcn, hcnp, hcch⟩ := (hU.q_char curr).mp hcq
  have hqnd : (curr :: rest).Nodup := by
    rw [← hq]
    exact hU.q_nodup
  obtain ⟨hcrest, hrestnd⟩ := List.nodup_cons.mp hqnd
  have hMS : MInv stD { st with upQueue := rest, processed := st.processed ++ [curr] } :=
    minv_relax hU.minv rfl rfl rfl rfl rfl rfl rfl rfl rfl
      (fun p hp hmem => hp (List.mem_append_left _ hmem))
  have hanc : ∀ a, Under stD.parentf curr a → a ≠ curr →
      a ∉ st.processed ++ [curr] := by
    intro a ha hne hmem
    rcases List.mem_append.mp hmem with h1 | h1
    · exact hcnp (under_closed_processed hU.proc_closed hD.child_iff ha h1)
    · exact hne (List.mem_singleton.mp h1)
  have hcurrP2 : curr ∈ st.processed ++ [curr] :=
    List.mem_append_right _ (List.mem_singleton.mpr rfl)
  have hchP2 : ∀ c ∈ stD.childrenf curr, c ∈ st.processed ++ [curr] :=
    fun c hc => List.mem_append_left _ (hcch c hc)
  obtain ⟨hout, hpour⟩ := mergeChildren_post hD hMS hcurrP2 hanc rfl hchP2
  obtain ⟨f1, f2, f3, f4, f5, f6, f7, f8, f9, f10, f11⟩ :=
    mergeChildren_frame curr { st with upQueue := rest, processed := st.processed ++ [curr] }
  have hproc1 : (mergeChildren curr
      { st with upQueue := rest, processed := st.processed ++ [curr] }).processed
      = st.processed ++ [curr] := f9
  have hq1 : (mergeChildren curr
      { st with upQueue := rest, processed := st.processed ++ [curr] }).upQueue = rest := f8
  have hv1 : (mergeChildren curr
      { st with upQueue := rest, processed := st.processed ++ [curr] }).upVisits
      = st.upVisits := f7
  have hsub2 : ∀ p ∈ st.processed ++ [curr], p < stD.nextPos := by
    intro p hp
    rcases List.mem_append.mp hp with h1 | h1
    · exact hU.proc_sub p h1
    · rw [List.mem_singleton.mp h1]
      exact hcn
  have hnd2 : (st.processed ++ [curr]).Nodup := by
    refine List.Nodup.append hU.proc_nodup (List.nodup_singleton curr) ?_
    intro a ha hb
    rw [List.mem_singleton.mp hb] at ha
    exact hcnp ha
  have hcl2 : ∀ p ∈ st.processed ++ [curr], ∀ c ∈ stD.childrenf p,
      c ∈ st.processed ++ [curr] := by
    intro p hp c hc
    rcases List.mem_append.mp hp with h1 | h1
    · exact List.mem_append_left _ (hU.proc_closed p h1 c hc)
    · rw [List.mem_singleton.mp h1] at hc
      exact List.mem_append_left _ (hcch c hc)
  have hdone2 : ∀ p ∈ st.processed ++ [curr], ∀ tg x,
      Under stD.parentf x p → p < x → stD.tagf x = tg →
      x ∈ descsSet (mergeChildren curr
        { st with upQueue := rest, processed := st.processed ++ [curr] }) p tg := by
    intro p hp tg x hx hlt htag
    rcases List.mem_append.mp hp with h1 | h1
    · exact hout.mono_desc p tg x (hU.done p h1 tg x hx hlt htag)
    · rw [List.mem_singleton.mp h1] at hx hlt ⊢
      obtain ⟨ch0, hpch, hxch⟩ := under_decomp hx (by omega)
      have hch0mem : ch0 ∈ stD.childrenf curr := (hD.child_iff ch0 curr).mp hpch
      by_cases hxe : x = ch0
      · obtain ⟨hdesc_eq, hfz⟩ := hU.minv.m_frozen curr hcn hcnp
        have hxmem : x ∈ stD.childrenf curr := by
          rw [hxe]
          exact hch0mem
        have hsome : (alookup (stD.descsf curr) tg).isSome = true :=
          (hD.dkeys_iff curr tg).mpr ⟨x, hxmem, htag⟩
        obtain ⟨s0, hs0⟩ := Option.isSome_iff_exists.mp hsome
        have hstore0 : stD.storef s0 =
            (stD.childrenf curr).filter (fun y => decide (stD.tagf y = tg)) :=
          hD.dstore curr tg s0 hs0
        have hxin : x ∈ stD.storef s0 := by
          rw [hstore0]
          exact List.mem_filter.mpr ⟨hxmem, decide_eq_true htag⟩
        have hlkS : alookup (st.descsf curr) tg = some s0 := by
          rw [hdesc_eq]
          exact hs0
        have hstS : st.storef s0 = stD.storef s0 := (hfz tg s0 hs0).1
        have hxst : x ∈ descsSet st curr tg := by
          rw [descsSet_eq_of_lookup st curr tg s0 hlkS, hstS]
          exact hxin
        exact hout.mono_desc curr tg x hxst
      · have hchlt : ch0 < x := under_strict_pos hD.par_lt hxch hxe
        have hchproc : ch0 ∈ st.processed := hcch ch0 hch0mem
        exact hpour ch0 hch0mem tg x (hU.done ch0 hchproc tg x hxch hchlt htag)
  have hfilter_same : ∀ p, curr ∉ stD.childrenf p →
      (stD.childrenf p).filter (fun c => decide (c ∈ st.processed ++ [curr]))
        = (stD.childrenf p).filter (fun c => decide (c ∈ st.processed)) := by
    intro p hnc
    refine List.filter_congr ?_
    intro c hcm
    have hne : c ≠ curr := fun he => hnc (he ▸ hcm)
    refine decide_eq_decide.mpr ?_
    rw [List.mem_append]
    simp [hne]
  have hqfwd : ∀ p ∈ rest, p < stD.nextPos ∧ p ∉ st.processed ++ [curr] ∧
      ∀ c ∈ stD.childrenf p, c ∈ st.processed ++ [curr] := by
    intro p hp
    obtain ⟨h1, h2, h3⟩ := (hU.q_char p).mp
      (by rw [hq]; exact List.mem_cons_of_mem curr hp)
    refine ⟨h1, ?_, fun c hc => List.mem_append_left _ (h3 c hc)⟩
    intro hmem
    rcases List.mem_append.mp hmem with h4 | h4
    · exact h2 h4
    · rw [List.mem_singleton.mp h4] at hp
      exact hcrest hp
  have hqbwd : ∀ p, p < stD.nextPos → p ∉ st.processed ++ [curr] →
      (∀ c ∈ stD.childrenf p, c ∈ st.processed ++ [curr]) →
      curr ∉ stD.childrenf p → p ∈ rest := by
    intro p h1 h2a h3 hncp
    have h2b : p ∉ st.processed := fun h => h2a (List.mem_append_left _ h)
    have hpne : p ≠ curr := fun he => h2a (by rw [he]; exact hcurrP2)
    have h3b : ∀ c ∈ stD.childrenf p, c ∈ st.processed := by
      intro c hc
      rcases List.mem_append.mp (h3 c hc) with h4 | h4
      · exact h4
      · exfalso
        rw [List.mem_singleton.mp h4] at hc
        exact hncp hc
    have hpq : p ∈ st.upQueue := (hU.q_char p).mpr ⟨h1, h2b, h3b⟩
    rw [hq] at hpq
    rcases List.mem_cons.mp hpq with h5 | h5
    · exact absurd h5 hpne
    · exact h5
  cases hpar : stD.parentf curr with
  | none =>
    have hpar1 : (mergeChildren curr
        { st with upQueue := rest, processed := st.processed ++ [curr] }).parentf curr
        = none := by
      rw [hout.minv.e_par]
      exact hpar
    rw [upStep_none hq hpar1]
    refine ⟨⟨hout.minv, ?_, ?_, ?_, ?_, ?_, ?_, ?_⟩, hproc1⟩
    · rw [hproc1]
      exact hsub2
    · rw [hproc1]
      exact hnd2
    · rw [hproc1]
      exact hcl2
    · rw [hq1]
      exact hrestnd
    · intro p
      rw [hq1, hproc1]
      constructor
      · exact fun hp => hqfwd p hp
      · rintro ⟨h1, h2a, h3⟩
        refine hqbwd p h1 h2a h3 ?_
        intro hmem
        have h4 := (hD.child_iff curr p).mpr hmem
        rw [hpar] at h4
        exact Option.noConfusion h4
    · intro p
      rw [hv1, hproc1]
      have hncp : curr ∉ stD.childrenf p := by
        intro hmem
        have h4 := (hD.child_iff curr p).mpr hmem
        rw [hpar] at h4
        exact Option.noConfusion h4
      rw [hfilter_same p hncp]
      exact hU.visits p
    · rw [hproc1]
      exact hdone2
  | some pa =>
    have hpar1 : (mergeChildren curr
        { st with upQueue := rest, processed := st.processed ++ [curr] }).parentf curr
        = some pa := by
      rw [hout.minv.e_par]
      exact hpar
    have hpalt : pa < curr := hD.par_lt curr pa hpar
    have hpan : pa < stD.nextPos := lt_trans hpalt hcn
    have hcurr_ch : curr ∈ stD.childrenf pa := (hD.child_iff curr pa).mp hpar
    have hpaP2 : pa ∉ st.processed ++ [curr] :=
      hanc pa (under_child hpar) (by omega)
    have hpaq : pa ∉ st.upQueue := by
      intro hmem
      obtain ⟨_, _, h3⟩ := (hU.q_char pa).mp hmem
      exact hcnp (h3 curr hcurr_ch)
    have hparest : pa ∉ rest := fun h => hpaq (by rw [hq]; exact List.mem_cons_of_mem curr h)
    have hLnd : (stD.childrenf pa).Nodup := (hD.child_sorted pa).nodup
    have hflen : ((stD.childrenf pa).filter
        (fun c => decide (c ∈ st.processed ++ [curr]))).length
        = ((stD.childrenf pa).filter (fun c => decide (c ∈ st.processed))).length + 1 :=
      filter_length_add_singleton hLnd hcurr_ch hcnp
    have hvpa : (mergeChildren curr
        { st with upQueue := rest, processed := st.processed ++ [curr] }).upVisits pa - 1 =
        ((stD.childrenf pa).length : Int) -
        (((stD.childrenf pa).filter
          (fun c => decide (c ∈ st.processed ++ [curr]))).length : Int) := by
      rw [hv1, hU.visits pa, hflen]
      push_cast
      ring
    have hvis2 : ∀ p, updF (mergeChildren curr
        { st with upQueue := rest, processed := st.processed ++ [curr] }).upVisits pa
        ((mergeChildren curr
          { st with upQueue := rest, processed := st.processed ++ [curr] }).upVisits pa - 1) p =
        ((stD.childrenf p).length : Int) -
        (((stD.childrenf p).filter
          (fun c => decide (c ∈ st.processed ++ [curr]))).length : Int) := by
      intro p
      by_cases hp : p = pa
      · rw [hp, updF_same]
        exact hvpa
      · rw [updF_other _ _ _ p hp, hv1]
        have hncp : curr ∉ stD.childrenf p := by
          intro hmem
          have h2 := (hD.child_iff curr p).mpr hmem
          rw [hpar] at h2
          exact hp (Option.some.inj h2).symm
        rw [hfilter_same p hncp]
        exact hU.visits p
    by_cases hvz : (mergeChildren curr
        { st with upQueue := rest, processed := st.processed ++ [curr] }).upVisits pa - 1 = 0
    · rw [upStep_some_zero hq hpar1 hvz]
      have hall : ∀ c ∈ stD.childrenf pa, c ∈ st.processed ++ [curr] := by
        have h0 : ((stD.childrenf pa).filter
            (fun c => decide (c ∈ st.processed ++ [curr]))).length
            = (stD.childrenf pa).length := by
          have h1 := hvpa
          rw [hvz] at h1
          omega
        intro c hc
        exact of_decide_eq_true (filter_length_all h0 c hc)
      refine ⟨⟨minv_relax hout.minv rfl rfl rfl rfl rfl rfl rfl rfl rfl
        (fun p hp => hp), ?_, ?_, ?_, ?_, ?_, ?_, ?_⟩, hproc1⟩
      · rw [hproc1]
        exact hsub2
      · rw [hproc1]
        exact hnd2
      · rw [hproc1]
        exact hcl2
      · rw [hq1]
        refine List.Nodup.append hrestnd (List.nodup_singleton pa) ?_
        intro a ha hb
        rw [List.mem_singleton.mp hb] at ha
        exact hparest ha
      · intro p
        rw [hq1, hproc1, List.mem_append]
        constructor
        · intro hmem
          rcases hmem with h1 | h1
          · exact hqfwd p h1
          · rw [List.mem_singleton.mp h1]
            exact ⟨hpan, hpaP2, hall⟩
        · rintro ⟨h1, h2a, h3⟩
          by_cases hp : p = pa
          · exact Or.inr (List.mem_singleton.mpr hp)
          · refine Or.inl (hqbwd p h1 h2a h3 ?_)
            intro hmem
            have h4 := (hD.child_iff curr p).mpr hmem
            rw [hpar] at h4
            exact hp (Option.some.inj h4).symm
      · intro p
        rw [hproc1]
        exact hvis2 p
      · intro p hp tg x hx hlt htag
        have hp2 : p ∈ st.processed ++ [curr] := by
          rw [← hproc1]
          exact hp
        have hres := hdone2 p hp2 tg x hx hlt htag
        rw [descsSet_congr (rfl) (rfl) p tg] at hres
        exact hres
    · rw [upStep_some_pos hq hpar1 hvz]
      refine ⟨⟨minv_relax hout.minv rfl rfl rfl rfl rfl rfl rfl rfl rfl
        (fun p hp => hp), ?_, ?_, ?_, ?_, ?_, ?_, ?_⟩, hproc1⟩
      · rw [hproc1]
        exact hsub2
      · rw [hproc1]
        exact hnd2
      · rw [hproc1]
        exact hcl2
      · rw [hq1]
        exact hrestnd
      · intro p
        rw [hq1, hproc1]
        constructor
        · exact fun hp => hqfwd p hp
        · rintro ⟨h1, h2a, h3⟩
          by_cases hp : p = pa
          · exfalso
            have h0 : ((stD.childrenf pa).filter
                (fun c => decide (c ∈ st.processed ++ [curr]))).length
                = (stD.childrenf pa).length := by
              refine all_filter_length ?_
              intro c hc
              exact decide_eq_true (h3 c (by rw [hp]; exact hc))
            rw [h0] at hvpa
            omega
          · refine hqbwd p h1 h2a h3 ?_
            intro hmem
            have h4 := (hD.child_iff curr p).mpr hmem
            rw [hpar] at h4
            exact hp (Option.some.inj h4).symm
      · intro p
        rw [hproc1]
        exact hvis2 p
      · intro p hp tg x hx hlt htag
        have hp2 : p ∈ st.processed ++ [curr] := by
          rw [← hproc1]
          exact hp
        exact hdone2 p hp2 tg x hx hlt htag

/-- The downward-pass final state satisfies the upward-pass invariant. -/
theorem upInv_init {root : HNode} {stD : BState} (hD : DInv root [] stD) :
    UpInv stD stD := by
  have hnotin : ∀ p : Nat, p ∉ ([] : List (HNode × Nat)).map Prod.snd := by
    intro p h
    simp at h
  refine ⟨⟨rfl, rfl, rfl, rfl, rfl, rfl, rfl, ?_, ?_, hD.keys_nodup, ?_, ?_, ?_, ?_, ?_, ?_, ?_⟩,
    ?_, ?_, ?_, hD.upq_nodup, ?_, ?_, ?_⟩
  · exact fun p => ⟨[], (List.append_nil _).symm⟩
  · exact hD.freshD
  · intro p tg s h
    rw [hD.dstore p tg s h]
    exact List.Nodup.filter _ (hD.child_sorted p).nodup
  · intro p tg s h x hx
    rw [hD.dstore p tg s h] at hx
    obtain ⟨hxc, hxt⟩ := List.mem_filter.mp hx
    have hxp : stD.parentf x = some p := (hD.child_iff x p).mpr hxc
    have h1 := hD.par_lt x p hxp
    have h2 := hD.par_dom x p hxp
    exact ⟨by omega, h2, of_decide_eq_true hxt⟩
  · intro p tg s p2 tg2 h1 h2
    exact ((hD.sole_glob p tg s h1) p2 tg2 h2).2.symm
  · intro p tg s p2 tg2 h1 h2
    have h3 := (hD.sole_glob p tg s h1) p2 tg2 h2
    rw [h3.1]
    exact Or.inl (Under.refl p)
  · intro p hpn hnp
    refine ⟨rfl, ?_⟩
    intro tg s h
    exact ⟨rfl, fun q tg2 h2 => hD.sole_glob p tg s h q tg2 h2⟩
  · intro p s hp hdom x hx
    obtain ⟨tg, hl⟩ := hp
    rw [hD.dstore p tg s hl] at hx
    obtain ⟨hxc, hxt⟩ := List.mem_filter.mp hx
    have hxp : stD.parentf x = some p := (hD.child_iff x p).mpr hxc
    exact ⟨under_child hxp, hD.par_lt x p hxp⟩
  · intro p tg s h htag q hq
    obtain ⟨tg2, h2⟩ := hq
    have h3 := hD.sole_glob p tg s h q tg2 h2
    rw [h3.1]
    exact Under.refl p
  · intro p hp
    rw [hD.proc] at hp
    cases hp
  · rw [hD.proc]
    exact List.nodup_nil
  · intro p hp
    rw [hD.proc] at hp
    cases hp
  · intro p
    rw [hD.proc]
    constructor
    · intro hp
      obtain ⟨h1, _⟩ := hD.upq_mem p hp
      refine ⟨h1, by simp, ?_⟩
      have hch : stD.childrenf p = [] := (hD.upq_iff p h1 (hnotin p)).mp hp
      intro c hc
      rw [hch] at hc
      cases hc
    · rintro ⟨h1, _, h3⟩
      refine (hD.upq_iff p h1 (hnotin p)).mpr ?_
      cases hch : stD.childrenf p with
      | nil => rfl
      | cons a t =>
        exfalso
        have h4 := h3 a (by rw [hch]; exact List.mem_cons_self a t)
        cases h4
  · intro p
    rw [hD.proc]
    have hfe : (stD.childrenf p).filter (fun c => decide (c ∈ ([] : List Nat))) = [] := by
      refine List.filter_eq_nil.mpr ?_
      intro a ha
      simp
    rw [hfe]
    by_cases hp : p < stD.nextPos
    · rw [hD.visits_done p hp (hnotin p)]
      simp
    · rw [hD.freshV p (le_of_not_lt hp), hD.freshC p (le_of_not_lt hp)]
      simp
  · intro p hp
    rw [hD.proc] at hp
    cases hp

/-- Running the upward loop with enough fuel drains the queue and
preserves the invariant. -/
theorem upRun_inv {root : HNode} {stD : BState} (hD : DInv root [] stD) :
    ∀ (fuel : Nat) (st : BState), UpInv stD st →
      stD.nextPos ≤ st.processed.length + fuel →
      UpInv stD (upRun fuel st) ∧ (upRun fuel st).upQueue = [] := by
  intro fuel
  induction fuel with
  | zero =>
    intro st hU hle
    refine ⟨hU, ?_⟩
    rw [List.eq_nil_iff_forall_not_mem]
    intro p hp
    obtain ⟨hpn, hpnp, _⟩ := (hU.q_char p).mp hp
    have hnd : (p :: st.processed).Nodup := List.nodup_cons.mpr ⟨hpnp, hU.proc_nodup⟩
    have hsub : (p :: st.processed) ⊆ List.range stD.nextPos := by
      intro a ha
      rw [List.mem_range]
      rcases List.mem_cons.mp ha with h1 | h1
      · rw [h1]
        exact hpn
      · exact hU.proc_sub a h1
    have hlen := (List.subperm_of_subset hnd hsub).length_le
    simp only [List.length_cons, List.length_range] at hlen
    omega
  | succ f ih =>
    intro st hU hle
    cases hq : st.upQueue with
    | nil =>
      show UpInv stD (upRun (f + 1) st) ∧ (upRun (f + 1) st).upQueue = []
      unfold upRun
      rw [hq]
      exact ⟨hU, hq⟩
    | cons curr rest =>
      obtain ⟨hU2, hp2⟩ := upStep_inv hD hU hq
      have hlen2 : stD.nextPos ≤ (upStep st).processed.length + f := by
        rw [hp2]
        simp only [List.length_append, List.length_singleton]
        omega
      have hres := ih (upStep st) hU2 hlen2
      unfold upRun
      rw [hq]
      exact hres

/-- Once the queue is drained under the invariant, every node has been
processed. -/
theorem all_processed {stD st : BState}
    (hpar_lt : ∀ x y, stD.parentf x = some y → y < x)
    (hpar_dom : ∀ x y, stD.parentf x = some y → x < stD.nextPos)
    (hchild_iff : ∀ x y, stD.parentf x = some y ↔ x ∈ stD.childrenf y)
    (hU : UpInv stD st) (hqe : st.upQueue = []) :
    ∀ p, p < stD.nextPos → p ∈ st.processed := by
  have hstep : ∀ m, ∀ p, p < stD.nextPos → stD.nextPos - p ≤ m → p ∈ st.processed := by
    intro m
    induction m with
    | zero =>
      intro p hp hm
      omega
    | succ k ih =>
      intro p hp hm
      by_contra hnp
      have hch : ∀ c ∈ stD.childrenf p, c ∈ st.processed := by
        intro c hc
        have hcp : stD.parentf c = some p := (hchild_iff c p).mpr hc
        have h1 := hpar_lt c p hcp
        have h2 := hpar_dom c p hcp
        exact ih c h2 (by omega)
      have hq := (hU.q_char p).mpr ⟨hp, hnp, hch⟩
      rw [hqe] at hq
      cases hq
  intro p hp
  exact hstep stD.nextPos p hp (by omega)

/-- `newFromNode` literally runs the upward loop on the downward-pass
state with fuel equal to the node count. -/
theorem newFromNode_eq (root : HNode) :
    newFromNode root = upRun (downState root).nextPos (downState root) := rfl

/-- The finished index satisfies the upward invariant, its queue is
drained, and every node was processed. -/
theorem newFromNode_final (root : HNode) :
    UpInv (downState root) (newFromNode root) ∧
    (newFromNode root).upQueue = [] ∧
    ∀ p, p < (downState root).nextPos → p ∈ (newFromNode root).processed := by
  have hD := downState_inv root
  obtain ⟨hU, hqe⟩ := upRun_inv hD (downState root).nextPos (downState root)
    (upInv_init hD) (by rw [hD.proc]; simp)
  rw [newFromNode_eq]
  exact ⟨hU, hqe, all_processed hD.par_lt hD.par_dom hD.child_iff hU hqe⟩

/-- Every position is a descendant-or-self of the root position 0. -/
theorem under_root {root : HNode} {stD : BState} (hD : DInv root [] stD) :
    ∀ p, p < stD.nextPos → Under stD.parentf p 0 := by
  have hstep : ∀ m p, p < stD.nextPos → p ≤ m → Under stD.parentf p 0 := by
    intro m
    induction m with
    | zero =>
      intro p hp hm
      have : p = 0 := by omega
      rw [this]
      exact Under.refl 0
    | succ k ih =>
      intro p hp hm
      by_cases h0 : p = 0
      · rw [h0]
        exact Under.refl 0
      · obtain ⟨q, hq⟩ := hD.par_some p (by omega) hp
        have h1 := hD.par_lt p q hq
        have h2 : q < stD.nextPos := by omega
        exact under_trans (under_child hq) (ih q h2 (by omega))
  intro p hp
  exact hstep p p hp le_rfl

/-- Elements of any reachable descendant set of the finished index are
real non-root positions carrying the key as their tag. -/
theorem final_typed {root : HNode} {p x : Nat} {tg : String}
    (hx : x ∈ descsSet (newFromNode root) p tg) :
    0 < x ∧ x < (newFromNode root).nextPos ∧ (newFromNode root).tagf x = tg := by
  obtain ⟨hU, _, _⟩ := newFromNode_final root
  cases hl : alookup ((newFromNode root).descsf p) tg with
  | none =>
    rw [descsSet_eq_of_lookup_none _ p tg hl] at hx
    cases hx
  | some s =>
    rw [descsSet_eq_of_lookup _ p tg s hl] at hx
    have h1 := hU.minv.m_typed p tg s hl x hx
    rw [hU.minv.e_npos, hU.minv.e_tag]
    exact h1

/-- No node is a member of its own descendant set in the finished index
(the tag-matching owner of a shared set is always its top owner, and set
members lie strictly below the top owner). -/
theorem final_no_self (root : HNode) (p : Nat) (tg : String) :
    p ∉ descsSet (newFromNode root) p tg := by
  intro hmem
  obtain ⟨hU, _, _⟩ := newFromNode_final root
  cases hl : alookup ((newFromNode root).descsf p) tg with
  | none =>
    rw [descsSet_eq_of_lookup_none _ p tg hl] at hmem
    cases hmem
  | some s =>
    rw [descsSet_eq_of_lookup _ p tg s hl] at hmem
    have htyped := hU.minv.m_typed p tg s hl p hmem
    have htag : (downState root).tagf p = tg := htyped.2.2
    have hdom := hU.minv.m_tagtop p tg s hl htag
    have htop := hU.minv.m_top p s ⟨tg, hl⟩ hdom p hmem
    omega

/-- Completeness of the finished index: every strict descendant carrying
the tag is present in the node's descendant set. -/
theorem final_complete {root : HNode} {p x : Nat} {tg : String}
    (hp : p < (newFromNode root).nextPos)
    (hx : Under (newFromNode root).parentf x p) (hlt : p < x)
    (htag : (newFromNode root).tagf x = tg) :
    x ∈ descsSet (newFromNode root) p tg := by
  obtain ⟨hU, _, hall⟩ := newFromNode_final root
  have hpn : p < (downState root).nextPos := by
    rw [← hU.minv.e_npos]
    exact hp
  have hx2 : Under (downState root).parentf x p := by
    rw [← hU.minv.e_par]
    exact hx
  have htag2 : (downState root).tagf x = tg := by
    rw [← hU.minv.e_tag]
    exact htag
  exact hU.done p (hall p hpn) tg x hx2 hlt htag2

/-- Exactness at the root: position 0's descendant set for a tag is the
set of all non-root positions carrying that tag. -/
theorem root_descs_exact (root : HNode) (x : Nat) (tg : String) :
    x ∈ descsSet (newFromNode root) 0 tg ↔
      (0 < x ∧ x < (newFromNode root).nextPos ∧ (newFromNode root).tagf x = tg) := by
  constructor
  · exact final_typed
  · rintro ⟨h1, h2, h3⟩
    obtain ⟨hU, _, _⟩ := newFromNode_final root
    have hD := downState_inv root
    have hx2 : x < (downState root).nextPos := by
      rw [← hU.minv.e_npos]
      exact h2
    have hu : Under (newFromNode root).parentf x 0 := by
      rw [hU.minv.e_par]
      exact under_root hD x hx2
    have h0n : 0 < (newFromNode root).nextPos := by
      rw [hU.minv.e_npos]
      exact hD.pos1
    exact final_complete h0n hu h1 h3

/-! ## Subtree enumeration and raw-tree skeleton -/

mutual
/-- Pre-order listing of a raw node and its recursively element-kind
descendants: exactly the raw occurrences that `NewFromNode` indexes. -/
def skel : HNode → List HNode
  | HNode.mk k d a ks => HNode.mk k d a ks :: skelL ks
/-- Forest version of `skel`: non-element kids are skipped entirely. -/
def skelL : List HNode → List HNode
  | [] => []
  | c :: cs => (if c.kind = NKind.element then skel c else []) ++ skelL cs
end

theorem skel_eq (t : HNode) : skel t = t :: skelL t.kids := by
  cases t
  rfl

theorem skelL_nil : skelL [] = [] := rfl

theorem skelL_cons (c : HNode) (cs : List HNode) :
    skelL (c :: cs) = (if c.kind = NKind.element then skel c else []) ++ skelL cs := rfl

theorem skelL_eq_bind : ∀ ks : List HNode, skelL ks = (elemKidsL ks).bind skel := by
  intro ks
  induction ks with
  | nil => rfl
  | cons c cs ih =>
    rw [skelL_cons]
    unfold elemKidsL
    rw [List.filter_cons]
    by_cases hc : c.kind = NKind.element
    · rw [if_pos hc, if_pos (decide_eq_true hc)]
      show skel c ++ skelL cs = skel c ++ (elemKidsL cs).bind skel
      rw [ih]
    · rw [if_neg hc, if_neg (by simp [hc])]
      show skelL cs = (elemKidsL cs).bind skel
      exact ih

/-- Membership in the fuelled subtree listing is exactly the
ancestor-or-self relation, once the fuel covers the position gap. -/
theorem treeListF_mem {root : HNode} {stD : BState} (hD : DInv root [] stD) :
    ∀ (f p : Nat), p < stD.nextPos → stD.nextPos - p ≤ f →
      ∀ x, x ∈ treeListF stD f p ↔ Under stD.parentf x p := by
  intro f
  induction f with
  | zero =>
    intro p hp hf
    omega
  | succ k ih =>
    intro p hp hf x
    show x ∈ p :: (stD.childrenf p).bind (treeListF stD k) ↔ _
    rw [List.mem_cons, List.mem_bind]
    constructor
    · rintro (h1 | ⟨c, hc, hx⟩)
      · rw [h1]
        exact Under.refl p
      · have hcp : stD.parentf c = some p := (hD.child_iff c p).mpr hc
        have h2 := hD.par_lt c p hcp
        have h3 := hD.par_dom c p hcp
        have h4 := (ih c h3 (by omega) x).mp hx
        exact under_trans h4 (under_child hcp)
    · intro hu
      by_cases hxp : x = p
      · exact Or.inl hxp
      · obtain ⟨c, hcp, hxc⟩ := under_decomp hu hxp
        have h2 := hD.par_lt c p hcp
        have h3 := hD.par_dom c p hcp
        refine Or.inr ⟨c, (hD.child_iff c p).mp hcp, ?_⟩
        exact (ih c h3 (by omega) x).mpr hxc

theorem treeListF_nodup {root : HNode} {stD : BState} (hD : DInv root [] stD) :
    ∀ (f p : Nat), p < stD.nextPos → stD.nextPos - p ≤ f →
      (treeListF stD f p).Nodup := by
  intro f
  induction f with
  | zero =>
    intro p hp hf
    omega
  | succ k ih =>
    intro p hp hf
    show (p :: (stD.childrenf p).bind (treeListF stD k)).Nodup
    rw [List.nodup_cons]
    constructor
    · intro hmem
      obtain ⟨c, hc, hx⟩ := List.mem_bind.mp hmem
      have hcp : stD.parentf c = some p := (hD.child_iff c p).mpr hc
      have h2 := hD.par_lt c p hcp
      have h3 := hD.par_dom c p hcp
      have h4 := (treeListF_mem hD k c h3 (by omega) p).mp hx
      have h5 := under_le hD.par_lt h4
      omega
    · rw [List.nodup_bind]
      constructor
      · intro c hc
        have hcp : stD.parentf c = some p := (hD.child_iff c p).mpr hc
        have h2 := hD.par_lt c p hcp
        have h3 := hD.par_dom c p hcp
        exact ih c h3 (by omega)
      · refine List.Pairwise.imp_of_mem ?_ (hD.child_sorted p)
        intro c1 c2 hm1 hm2 hlt x hx1 hx2
        have hcp1 : stD.parentf c1 = some p := (hD.child_iff c1 p).mpr hm1
        have hcp2 : stD.parentf c2 = some p := (hD.child_iff c2 p).mpr hm2
        have hd1 := hD.par_dom c1 p hcp1
        have hd2 := hD.par_dom c2 p hcp2
        have hl1 := hD.par_lt c1 p hcp1
        have hl2 := hD.par_lt c2 p hcp2
        have hu1 := (treeListF_mem hD k c1 hd1 (by omega) x).mp hx1
        have hu2 := (treeListF_mem hD k c2 hd2 (by omega) x).mp hx2
        exact sibling_subtrees_disjoint hD.par_lt hcp1 hcp2 (by omega) hu1 hu2

theorem under_dom {root : HNode} {stD : BState} (hD : DInv root [] stD) :
    ∀ {x a : Nat}, Under stD.parentf x a → x = a ∨ x < stD.nextPos := by
  intro x a h
  induction h with
  | refl => exact Or.inl rfl
  | up h1 h2 ih =>
    rcases ih with h3 | h3
    · rw [h3] at *
      exact Or.inr (hD.par_dom _ _ h2)
    · exact Or.inr h3

/-- The indexed positions are exactly `{0, …, nextPos − 1}`. -/
theorem treeListF_perm_range {root : HNode} {stD : BState} (hD : DInv root [] stD) :
    (treeListF stD stD.nextPos 0).Perm (List.range stD.nextPos) := by
  have h0 : 0 < stD.nextPos := hD.pos1
  refine (List.perm_ext_iff_of_nodup (treeListF_nodup hD stD.nextPos 0 h0 (by omega))
    (List.nodup_range _)).mpr ?_
  intro x
  rw [List.mem_range, treeListF_mem hD stD.nextPos 0 h0 (by omega) x]
  constructor
  · intro hu
    rcases under_dom hD hu with h1 | h1
    · rw [h1]
      exact h0
    · exact h1
  · intro hx
    exact under_root hD x hx

/-- The raw sources of the indexed subtree of `p` are exactly the
element skeleton of `p`'s own raw source, in pre-order. -/
theorem treeListF_map_src {root : HNode} {stD : BState} (hD : DInv root [] stD) :
    ∀ (f p : Nat), p < stD.nextPos → stD.nextPos - p ≤ f →
      (treeListF stD f p).map stD.srcf = skel (stD.srcf p) := by
  intro f
  induction f with
  | zero =>
    intro p hp hf
    omega
  | succ k ih =>
    intro p hp hf
    have hnotin : p ∉ ([] : List (HNode × Nat)).map Prod.snd := by simp
    show (p :: (stD.childrenf p).bind (treeListF stD k)).map stD.srcf = _
    rw [skel_eq, List.map_cons]
    congr 1
    rw [List.map_flatMap]
    have h1 : ∀ c ∈ stD.childrenf p,
        (treeListF stD k c).map stD.srcf = skel (stD.srcf c) := by
      intro c hc
      have hcp : stD.parentf c = some p := (hD.child_iff c p).mpr hc
      have h2 := hD.par_lt c p hcp
      have h3 := hD.par_dom c p hcp
      exact ih c h3 (by omega)
    rw [List.flatMap_congr h1, ← List.flatMap_map stD.srcf skel,
      hD.src_children p hp hnotin, skelL_eq_bind]

theorem elemCount_eq (t : HNode) :
    elemCount t = (if t.kind = NKind.element then 1 else 0)
      + (t.kids.map elemCount).sum := by
  have hbind : ((t.kids.bind allNodes).filter
      (fun o => decide (o.kind = NKind.element))).length
      = (t.kids.map elemCount).sum := by
    rw [List.filter_flatMap, List.length_flatMap]
    rfl
  show ((allNodes t).filter (fun o => decide (o.kind = NKind.element))).length
      = (if t.kind = NKind.element then 1 else 0) + (t.kids.map elemCount).sum
  rw [allNodes_eq_cons, List.filter_cons]
  by_cases hk : t.kind = NKind.element
  · rw [if_pos (decide_eq_true hk), if_pos hk]
    simp only [List.length_cons]
    omega
  · rw [if_neg (by simp [hk]), if_neg hk]
    omega

/-- Element count of a forest under parser well-formedness. -/
theorem skelL_length : ∀ ks : List HNode, hwfL ks = true →
    (skelL ks).length = (ks.map elemCount).sum := by
  apply queue_strong_ind (fun ks => hwfL ks = true →
    (skelL ks).length = (ks.map elemCount).sum)
  intro ks ih
  cases ks with
  | nil =>
    intro h
    rfl
  | cons c cs =>
    intro hwfh
    have hwc : hwf c = true ∧ hwfL cs = true := by
      have h2 : (hwf c && hwfL cs) = true := hwfh
      exact ⟨((Bool.and_eq_true _ _).mp h2).1, ((Bool.and_eq_true _ _).mp h2).2⟩
    rw [skelL_cons, List.length_append, List.map_cons, List.sum_cons]
    have hcs : (skelL cs).length = (cs.map elemCount).sum := by
      refine ih cs ?_ hwc.2
      cases c with
      | mk k d a ks2 =>
        have := hsize_pos (HNode.mk k d a ks2)
        show hsizeL cs < hsizeL (HNode.mk k d a ks2 :: cs)
        simp only [hsizeL]
        omega
    by_cases hk : c.kind = NKind.element
    · rw [if_pos hk, skel_eq, List.length_cons]
      have hkids : (skelL c.kids).length = (c.kids.map elemCount).sum := by
        refine ih c.kids ?_ ?_
        · cases c with
          | mk k d a ks2 =>
            show hsizeL ks2 < hsizeL (HNode.mk k d a ks2 :: cs)
            simp only [hsizeL, hsize]
            omega
        · cases c with
          | mk k d a ks2 =>
            have h3 : ((decide (k = NKind.element) || ks2.isEmpty) && hwfL ks2) = true :=
              hwc.1
            exact ((Bool.and_eq_true _ _).mp h3).2
      rw [hkids, hcs, elemCount_eq c, if_pos hk]
      omega
    · rw [if_neg hk]
      have hempty : c.kids = [] := by
        cases c with
        | mk k d a ks2 =>
          have h3 : ((decide (k = NKind.element) || ks2.isEmpty) && hwfL ks2) = true :=
            hwc.1
          have h4 := ((Bool.and_eq_true _ _).mp h3).1
          rcases (Bool.or_eq_true _ _).mp h4 with h5 | h5
          · exact absurd (of_decide_eq_true h5) hk
          · exact List.isEmpty_iff.mp h5
      rw [hcs, elemCount_eq c, if_neg hk, hempty]
      simp

/-! ## Membership characterisation of the indexed queries -/

theorem findAllM_step_eq (st : BState) (p : Nat) (acc : List Nat) (tg : String) :
    (match alookup (st.descsf p) tg with
      | some s => unionInto acc (st.storef s)
      | none => acc) = unionInto acc (descsSet st p tg) := by
  cases hl : alookup (st.descsf p) tg with
  | none =>
    rw [descsSet_eq_of_lookup_none st p tg hl]
    rfl
  | some s =>
    rw [descsSet_eq_of_lookup st p tg s hl]

theorem findAllM_fold_mem (st : BState) (p : Nat) :
    ∀ (tags : List String) (acc : List Nat) (x : Nat),
      (x ∈ tags.foldl
        (fun acc tg =>
          match alookup (st.descsf p) tg with
          | some s => unionInto acc (st.storef s)
          | none => acc)
        acc) ↔
      x ∈ acc ∨ ∃ tg ∈ tags, x ∈ descsSet st p tg := by
  intro tags
  induction tags with
  | nil =>
    intro acc x
    simp
  | cons tg rest ih =>
    intro acc x
    rw [List.foldl_cons]
    rw [findAllM_step_eq st p acc tg, ih, mem_unionInto, List.exists_mem_cons_iff]
    tauto

theorem findAllM_mem (st : BState) (p : Nat) (tags : List String) (x : Nat) :
    x ∈ findAllM st p tags ↔
      ((tags.contains (st.tagf p) = true ∧ x = p) ∨
        ∃ tg ∈ tags, x ∈ descsSet st p tg) := by
  show (x ∈ tags.foldl _ (if tags.contains (st.tagf p) then [p] else [])) ↔ _
  rw [findAllM_fold_mem st p tags _ x]
  by_cases hc : tags.contains (st.tagf p)
  · rw [if_pos hc]
    constructor
    · rintro (h1 | h1)
      · exact Or.inl ⟨hc, List.mem_singleton.mp h1⟩
      · exact Or.inr h1
    · rintro (⟨_, h1⟩ | h1)
      · exact Or.inl (List.mem_singleton.mpr h1)
      · exact Or.inr h1
  · rw [if_neg hc]
    constructor
    · rintro (h1 | h1)
      · cases h1
      · exact Or.inr h1
    · rintro (⟨h1, _⟩ | h1)
      · exact absurd h1 hc
      · exact Or.inr h1

theorem findAllM_fold_nodup (st : BState) (p : Nat) :
    ∀ (tags : List String) (acc : List Nat), acc.Nodup →
      (tags.foldl
        (fun acc tg =>
          match alookup (st.descsf p) tg with
          | some s => unionInto acc (st.storef s)
          | none => acc)
        acc).Nodup := by
  intro tags
  induction tags with
  | nil =>
    intro acc h
    exact h
  | cons tg rest ih =>
    intro acc h
    rw [List.foldl_cons]
    rw [findAllM_step_eq st p acc tg]
    exact ih _ (unionInto_nodup h)

theorem findAllM_nodup (st : BState) (p : Nat) (tags : List String) :
    (findAllM st p tags).Nodup := by
  refine findAllM_fold_nodup st p tags _ ?_
  by_cases hc : tags.contains (st.tagf p)
  · rw [if_pos hc]
    exact List.nodup_singleton p
  · rw [if_neg hc]
    exact List.nodup_nil

theorem matchPos_mem (st : BState) (tags : List String) (x : Nat) :
    x ∈ matchPos st tags ↔ x < st.nextPos ∧ tags.contains (st.tagf x) = true := by
  unfold matchPos
  rw [List.mem_filter, List.mem_range]

theorem matchPos_nodup (st : BState) (tags : List String) :
    (matchPos st tags).Nodup :=
  List.Nodup.filter _ (List.nodup_range _)

/-- The indexed root query agrees, as a set, with the tag-filtered
position range. -/
theorem findAllM_perm_matchPos (root : HNode) (tags : List String) :
    (findAllM (newFromNode root) 0 tags).Perm (matchPos (newFromNode root) tags) := by
  obtain ⟨hU, _, _⟩ := newFromNode_final root
  have hD := downState_inv root
  have h0n : 0 < (newFromNode root).nextPos := by
    rw [hU.minv.e_npos]
    exact hD.pos1
  refine (List.perm_ext_iff_of_nodup (findAllM_nodup _ 0 tags)
    (matchPos_nodup _ tags)).mpr ?_
  intro x
  rw [findAllM_mem, matchPos_mem]
  constructor
  · rintro (⟨hc, hx⟩ | ⟨tg, htg, hx⟩)
    · rw [hx]
      exact ⟨h0n, hc⟩
    · obtain ⟨h1, h2, h3⟩ := final_typed hx
      refine ⟨h2, ?_⟩
      rw [h3]
      exact List.elem_iff.mpr htg
  · rintro ⟨h1, h2⟩
    by_cases hx0 : x = 0
    · rw [hx0] at h2 ⊢
      exact Or.inl ⟨h2, rfl⟩
    · refine Or.inr ⟨(newFromNode root).tagf x, List.elem_iff.mp h2, ?_⟩
      exact (root_descs_exact root x _).mpr ⟨by omega, h1, rfl⟩

theorem elemPred_iff (tags : List String) (nd : HNode) :
    elemPred tags nd = true ↔ nd.data ∈ tags := by
  unfold elemPred
  rw [List.any_eq_true]
  constructor
  · rintro ⟨tg, htg, he⟩
    rw [of_decide_eq_true he]
    exact htg
  · intro h
    exact ⟨nd.data, h, decide_eq_true rfl⟩

theorem map_filter_comp {α β : Type} (f : α → β) (P : β → Bool) (l : List α) :
    (l.filter (fun a => P (f a))).map f = (l.map f).filter P := by
  induction l with
  | nil => rfl
  | cons a t ih =>
    rw [List.map_cons, List.filter_cons, List.filter_cons]
    cases hp : P (f a) with
    | true =>
      rw [if_pos rfl, if_pos rfl, List.map_cons, ih]
    | false =>
      rw [if_neg (by simp), if_neg (by simp), ih]

theorem allNodes_cons_allNodesL (t : HNode) :
    allNodes t = t :: allNodesL t.kids := by
  rw [allNodes_eq_cons, allNodesL_eq_bind]

/-- On a parser-well-formed forest none of whose non-element occurrences
matches the tags, filtering occurrences and filtering the element
skeleton agree. -/
theorem filter_allNodesL_eq_skelL (tags : List String) :
    ∀ ks : List HNode, hwfL ks = true →
      (∀ nd ∈ allNodesL ks, nd.kind ≠ NKind.element → elemPred tags nd = false) →
      (allNodesL ks).filter (elemPred tags) = (skelL ks).filter (elemPred tags) := by
  apply queue_strong_ind (fun ks => hwfL ks = true →
    (∀ nd ∈ allNodesL ks, nd.kind ≠ NKind.element → elemPred tags nd = false) →
    (allNodesL ks).filter (elemPred tags) = (skelL ks).filter (elemPred tags))
  intro ks ih
  cases ks with
  | nil =>
    intro h1 h2
    rfl
  | cons c cs =>
    intro hwfh hpure
    have hwc : hwf c = true ∧ hwfL cs = true := by
      have h2 : (hwf c && hwfL cs) = true := hwfh
      exact ⟨((Bool.and_eq_true _ _).mp h2).1, ((Bool.and_eq_true _ _).mp h2).2⟩
    have hal : allNodesL (c :: cs) = allNodes c ++ allNodesL cs := rfl
    rw [hal, skelL_cons, List.filter_append, List.filter_append]
    have hmeasc : hsizeL cs < hsizeL (c :: cs) := by
      have := hsize_pos c
      show hsizeL cs < hsize c + hsizeL cs
      omega
    have htail : (allNodesL cs).filter (elemPred tags)
        = (skelL cs).filter (elemPred tags) := by
      refine ih cs hmeasc hwc.2 ?_
      intro nd hnd hk
      exact hpure nd (by rw [hal]; exact List.mem_append_right _ hnd) hk
    rw [htail]
    congr 1
    by_cases hk : c.kind = NKind.element
    · rw [if_pos hk, allNodes_cons_allNodesL, skel_eq, List.filter_cons, List.filter_cons]
      have hkids : (allNodesL c.kids).filter (elemPred tags)
          = (skelL c.kids).filter (elemPred tags) := by
        refine ih c.kids ?_ ?_ ?_
        · cases c with
          | mk k d a ks2 =>
            show hsizeL ks2 < hsize (HNode.mk k d a ks2) + hsizeL cs
            simp only [hsize]
            omega
        · cases c with
          | mk k d a ks2 =>
            have h3 : ((decide (k = NKind.element) || ks2.isEmpty) && hwfL ks2) = true :=
              hwc.1
            exact ((Bool.and_eq_true _ _).mp h3).2
        · intro nd hnd hknd
          refine hpure nd ?_ hknd
          rw [hal]
          refine List.mem_append_left _ ?_
          rw [allNodes_cons_allNodesL]
          exact List.mem_cons_of_mem c hnd
      rw [hkids]
    · rw [if_neg hk]
      have hempty : c.kids = [] := by
        cases c with
        | mk k d a ks2 =>
          have h3 : ((decide (k = NKind.element) || ks2.isEmpty) && hwfL ks2) = true :=
            hwc.1
          have h4 := ((Bool.and_eq_true _ _).mp h3).1
          rcases (Bool.or_eq_true _ _).mp h4 with h5 | h5
          · exact absurd (of_decide_eq_true h5) hk
          · exact List.isEmpty_iff.mp h5
      have hone : allNodes c = [c] := by
        rw [allNodes_cons_allNodesL, hempty]
        rfl
      have hcocc : c ∈ allNodesL (c :: cs) := by
        rw [hal, hone]
        exact List.mem_append_left _ (List.mem_singleton.mpr rfl)
      have hcfalse := hpure c hcocc hk
      rw [hone, List.filter_cons, if_neg (by simp [hcfalse])]

theorem filter_allNodes_eq_skel (tags : List String) (t : HNode)
    (hkids : hwfL t.kids = true)
    (hpure : ∀ nd ∈ allNodesL t.kids, nd.kind ≠ NKind.element →
      elemPred tags nd = false) :
    (allNodes t).filter (elemPred tags) = (skel t).filter (elemPred tags) := by
  rw [allNodes_cons_allNodesL, skel_eq, List.filter_cons, List.filter_cons]
  rw [filter_allNodesL_eq_skelL tags t.kids hkids hpure]

/-- The matched positions of the indexed tree, read back through their
raw sources, are the tag-filtered element skeleton (up to order). -/
theorem matchPos_map_src (root : HNode) (tags : List String) :
    ((matchPos (newFromNode root) tags).map (newFromNode root).srcf).Perm
      ((skel root).filter (elemPred tags)) := by
  obtain ⟨hU, _, _⟩ := newFromNode_final root
  have hD := downState_inv root
  have hmp : matchPos (newFromNode root) tags
      = (List.range (downState root).nextPos).filter
          (fun p => tags.contains ((downState root).tagf p)) := by
    unfold matchPos
    rw [hU.minv.e_npos, hU.minv.e_tag]
  have hperm : ((List.range (downState root).nextPos).filter
      (fun p => tags.contains ((downState root).tagf p))).Perm
      ((treeListF (downState root) (downState root).nextPos 0).filter
        (fun p => tags.contains ((downState root).tagf p))) :=
    ((treeListF_perm_range hD).symm).filter _
  have hcongr : (treeListF (downState root) (downState root).nextPos 0).filter
      (fun p => tags.contains ((downState root).tagf p))
      = (treeListF (downState root) (downState root).nextPos 0).filter
        (fun p => elemPred tags ((downState root).srcf p)) := by
    refine List.filter_congr ?_
    intro p hp
    have hpu := (treeListF_mem hD (downState root).nextPos 0 hD.pos1 (by omega) p).mp hp
    have hpn : p < (downState root).nextPos := by
      rcases under_dom hD hpu with h1 | h1
      · rw [h1]
        exact hD.pos1
      · exact h1
    have htagp : (downState root).tagf p = ((downState root).srcf p).data :=
      hD.tagsrc p hpn
    refine Bool.eq_iff_iff.mpr ?_
    rw [List.elem_iff, elemPred_iff, htagp]
  have hmap : ((treeListF (downState root) (downState root).nextPos 0).filter
      (fun p => elemPred tags ((downState root).srcf p))).map (downState root).srcf
      = ((treeListF (downState root) (downState root).nextPos 0).map
          (downState root).srcf).filter (elemPred tags) :=
    map_filter_comp _ _ _
  have hsk : (treeListF (downState root) (downState root).nextPos 0).map
      (downState root).srcf = skel root := by
    rw [treeListF_map_src hD (downState root).nextPos 0 hD.pos1 (by omega), hD.roots]
  have hsrceq : (newFromNode root).srcf = (downState root).srcf := hU.minv.e_src
  rw [hmp, hsrceq]
  refine (hperm.map _).trans ?_
  rw [hcongr, hmap, hsk]

/-! ## Fuelled structural clones for kernel evaluation

`down` and `genRun` recurse on the well-founded queue weight, which the
kernel cannot reduce definitionally; these clones recurse on an explicit
fuel and are proved extensionally equal under sufficient fuel, so
concrete runs evaluate by `rfl`/`decide`. -/

def downE : Nat → List (HNode × Nat) → BState → BState
  | 0, _, st => st
  | _ + 1, [], st => st
  | f + 1, (h, sp) :: rest, st =>
    downE f (rest ++ (downStep h sp st).2) (downStep h sp st).1

theorem down_eq_downE :
    ∀ (f : Nat) (q : List (HNode × Nat)) (st : BState),
      hsizeL (q.map Prod.fst) ≤ f → down q st = downE f q st := by
  intro f
  induction f with
  | zero =>
    intro q st hle
    cases q with
    | nil =>
      rw [down]
      rfl
    | cons pr rest =>
      exfalso
      obtain ⟨h, sp⟩ := pr
      have h1 := hsize_pos h
      simp only [List.map_cons, hsizeL] at hle
      omega
  | succ k ih =>
    intro q st hle
    cases q with
    | nil =>
      rw [down]
      rfl
    | cons pr rest =>
      obtain ⟨h, sp⟩ := pr
      rw [down]
      show _ = downE k (rest ++ (downStep h sp st).2) (downStep h sp st).1
      refine ih _ _ ?_
      have h1 := downStep_weight h sp st
      simp only [List.map_cons, hsizeL] at hle
      simp only [List.map_append, hsizeL_append]
      omega

theorem newFromNode_eval (root : HNode) :
    newFromNode root =
      upRun (downE (hsize root) [(root, 0)] (initState root)).nextPos
        (downE (hsize root) [(root, 0)] (initState root)) := by
  rw [newFromNode_eq]
  have h : downState root = downE (hsize root) [(root, 0)] (initState root) := by
    unfold downState
    refine down_eq_downE (hsize root) _ _ ?_
    simp [hsizeL]
  rw [h]

def genRunE (pred : HNode → Bool) : Nat → List HNode → List HNode
  | 0, _ => []
  | _ + 1, [] => []
  | f + 1, t :: q => (if pred t then [t] else []) ++ genRunE pred f (q ++ t.kids)

theorem genRun_eq_genRunE (pred : HNode → Bool) :
    ∀ (f : Nat) (q : List HNode), hsizeL q ≤ f → genRun pred q = genRunE pred f q := by
  intro f
  induction f with
  | zero =>
    intro q hle
    cases q with
    | nil =>
      rw [genRun]
      rfl
    | cons t rest =>
      exfalso
      have h1 := hsize_pos t
      simp only [hsizeL] at hle
      omega
  | succ k ih =>
    intro q hle
    cases q with
    | nil =>
      rw [genRun]
      rfl
    | cons t rest =>
      rw [genRun]
      show _ = (if pred t then [t] else []) ++ genRunE pred k (rest ++ t.kids)
      congr 1
      refine ih _ ?_
      have h2 := hsizeL_kids_lt t
      simp only [hsizeL] at hle
      rw [hsizeL_append]
      omega

theorem findAllQ_eval (tags : List String) (root : HNode) :
    findAllQ tags root = genRunE (elemPred tags) (hsize root) [root] := by
  unfold findAllQ
  refine genRun_eq_genRunE _ (hsize root) [root] ?_
  simp [hsizeL]

theorem findQ_eval (attrKey attrVal : String) (root : HNode) :
    findQ attrKey attrVal root = genRunE (attrPred attrKey attrVal) (hsize root) [root] := by
  unfold findQ
  refine genRun_eq_genRunE _ (hsize root) [root] ?_
  simp [hsizeL]

/-! ## Concrete example documents -/

theorem treeListF_congr {st st2 : BState} (h : st.childrenf = st2.childrenf) :
    ∀ (f : Nat) (p : Nat), treeListF st f p = treeListF st2 f p := by
  intro f
  induction f with
  | zero =>
    intro p
    rfl
  | succ k ih =>
    intro p
    show p :: (st.childrenf p).bind (treeListF st k)
        = p :: (st2.childrenf p).bind (treeListF st2 k)
    rw [h]
    congr 1
    exact List.flatMap_congr (fun c _ => ih c)

/-- `doc[b[a], b[a]]`: two same-tag siblings each holding one `a`
element — the minimal document exhibiting the upward-merge aliasing. -/
def exPollute : HNode :=
  HNode.mk NKind.other "" []
    [HNode.mk NKind.element "b" [] [HNode.mk NKind.element "a" [] []],
     HNode.mk NKind.element "b" [] [HNode.mk NKind.element "a" [] []]]

/-- `doc[e(k=w)]`: one element with a single attribute. -/
def exAttrRoot : HNode :=
  HNode.mk NKind.other "" [] [HNode.mk NKind.element "e" [HAttr.mk "k" "w"] []]

/-- `doc[p[#text "a"], a]`: a text node whose content equals an element
tag elsewhere in the document. -/
def exTextRoot : HNode :=
  HNode.mk NKind.other "" []
    [HNode.mk NKind.element "p" [] [HNode.mk NKind.text "a" [] []],
     HNode.mk NKind.element "a" [] []]

/-- `doc[p(c=1,c=2)[#text "  hi  ", #text "   "]]`: a repeated attribute
and text children, one of them all-whitespace. -/
def exC8Root : HNode :=
  HNode.mk NKind.other "" []
    [HNode.mk NKind.element "p" [HAttr.mk "c" "1", HAttr.mk "c" "2"]
      [HNode.mk NKind.text "  hi  " [] [], HNode.mk NKind.text "   " [] []]]

/-! ## The claims -/

/-- C1. The spec states that for every node N and tag T, `N.FindAll(T)`
equals the set of nodes of N's subtree with tag T, and that `N.Descs[T]`
contains no node outside N's subtree.  The code violates this: in the
upward merge, `curr.Descs[key] = value` aliases the child's set object
into the parent, so a later sibling's merge mutates the shared set and
injects nodes from outside the child's subtree.  On `exPollute`, node 1
(the first `b`) has subtree positions `[1, 3]`, yet `FindAll("a")` on it
returns `[3, 4]`, where position 4 is the second `b`'s child. -/
theorem claim_C1_code_bug :
    findAllM (newFromNode exPollute) 1 ["a"] = [3, 4] ∧
    treeListF (newFromNode exPollute) (newFromNode exPollute).nextPos 1 = [1, 3] ∧
    (newFromNode exPollute).parentf 4 = some 2 := by
  rw [newFromNode_eval]
  exact ⟨rfl, rfl, rfl⟩

/-- C2. The spec states `Find(K, V)` includes the node itself only when
V occurs among its `Attrs[K]`.  In the code the self-test loop is
`for _, attrVal := range this.Attrs[attrKey] { if attrVal == attrVal`,
whose loop variable shadows the parameter, so the comparison is always
true: a node with any non-empty `Attrs[K]` matches itself regardless of
the requested value.  On `exAttrRoot`, node 1 has `Attrs["k"] = ["w"]`
yet `Find("k", "v")` returns the node. -/
theorem claim_C2_code_bug :
    findM (newFromNode exAttrRoot) 1 "k" "v" = [1] ∧
    (newFromNode exAttrRoot).attrsf 1 "k" = ["w"] ∧
    "v" ∉ (newFromNode exAttrRoot).attrsf 1 "k" := by
  rw [newFromNode_eval]
  exact ⟨rfl, rfl, by decide⟩

/-- C3. For a parser-well-formed input tree, the positions assigned by
`NewFromNode` across the indexed tree are exactly `{0, …, N−1}` with no
repetition, where N is the element count of the document plus one for a
non-element (synthetic) root; position 0 is the root, and every child's
position strictly exceeds its parent's. -/
theorem claim_C3 (root : HNode) (hw : hwfL root.kids = true) :
    (treeListF (newFromNode root) (newFromNode root).nextPos 0).Perm
      (List.range (newFromNode root).nextPos) ∧
    (newFromNode root).nextPos
      = elemCount root + (if root.kind = NKind.element then 0 else 1) ∧
    (newFromNode root).parentf 0 = none ∧
    0 < (newFromNode root).nextPos ∧
    (∀ x y, (newFromNode root).parentf x = some y → y < x) := by
  obtain ⟨hU, _, _⟩ := newFromNode_final root
  have hD := downState_inv root
  have hch : (newFromNode root).childrenf = (downState root).childrenf := hU.minv.e_ch
  have htl := treeListF_congr hch
  have hnp : (newFromNode root).nextPos = (downState root).nextPos := hU.minv.e_npos
  refine ⟨?_, ?_, ?_, ?_, ?_⟩
  · rw [htl, hnp]
    exact treeListF_perm_range hD
  · have hkids : hwfL root.kids = true := hw
    have hlen1 : (treeListF (downState root) (downState root).nextPos 0).length
        = (downState root).nextPos :=
      (treeListF_perm_range hD).length_eq.trans (List.length_range _)
    have hsk := treeListF_map_src hD (downState root).nextPos 0 hD.pos1 (by omega)
    rw [hD.roots] at hsk
    have hlen2 : (treeListF (downState root) (downState root).nextPos 0).length
        = (skel root).length := by
      rw [← hsk, List.length_map]
    have hskl : (skel root).length = 1 + (root.kids.map elemCount).sum := by
      rw [skel_eq, List.length_cons, skelL_length root.kids hkids]
      omega
    have hec := elemCount_eq root
    rw [hnp]
    by_cases hk : root.kind = NKind.element
    · rw [if_pos hk] at hec ⊢
      omega
    · rw [if_neg hk] at hec ⊢
      omega
  · rw [hU.minv.e_par]
    exact hD.par0
  · rw [hnp]
    exact hD.pos1
  · intro x y h
    rw [hU.minv.e_par] at h
    exact hD.par_lt x y h

theorem claim_C3_witness :
    hwfL exPollute.kids = true ∧
    ((treeListF (newFromNode exPollute) (newFromNode exPollute).nextPos 0).Perm
      (List.range (newFromNode exPollute).nextPos) ∧
    (newFromNode exPollute).nextPos
      = elemCount exPollute + (if exPollute.kind = NKind.element then 0 else 1) ∧
    (newFromNode exPollute).parentf 0 = none ∧
    0 < (newFromNode exPollute).nextPos ∧
    (∀ x y, (newFromNode exPollute).parentf x = some y → y < x)) :=
  ⟨by decide, claim_C3 exPollute (by decide)⟩

/-- C4. No node is a member of its own descendant index for any tag:
even though the aliasing bug pollutes interior sets, the tag-matching
owner of a shared set is always its topmost owner, and every member of a
set lies strictly below every dominating owner, so self-membership is
impossible in the finished index. -/
theorem claim_C4 (root : HNode) (p : Nat) (tg : String) :
    (descsSet (newFromNode root) p tg).contains p = false := by
  cases hc : (descsSet (newFromNode root) p tg).contains p with
  | false => rfl
  | true => exact absurd (List.elem_iff.mp hc) (final_no_self root p tg)

/-- C5 (amended). The original claim — that the indexed `FindAll` on the
root agrees with the standalone breadth-first closure run on the raw
tree for any document — is false, because the closure tests every raw
occurrence's `Data` against the tags regardless of node kind, while the
index only holds element nodes.  Amended: for a parser-well-formed tree
none of whose non-element occurrences (below the root) has data matching
the tags, the indexed root query, mapped back to the raw source nodes,
is a permutation of the closure result. -/
theorem claim_C5_amended (root : HNode) (tags : List String)
    (hw : hwfL root.kids = true)
    (hpure : ∀ nd ∈ allNodesL root.kids, nd.kind ≠ NKind.element →
      elemPred tags nd = false) :
    ((findAllM (newFromNode root) 0 tags).map (newFromNode root).srcf).Perm
      (findAllQ tags root) := by
  refine ((findAllM_perm_matchPos root tags).map _).trans ?_
  refine (matchPos_map_src root tags).trans ?_
  rw [← filter_allNodes_eq_skel tags root hw hpure]
  have h1 := (visitList_root_perm root).filter (elemPred tags)
  rw [findAllQ, genRun_eq_filter_visitList]
  exact h1.symm

/-- C5 counterexample: on `exTextRoot` with tags `["a"]`, the raw
closure finds two nodes (the `a` element and the text node whose data is
`"a"`) while the indexed query finds one position, so the original
unconditional claim fails. -/
theorem claim_C5_counterexample :
    ¬ ((findAllM (newFromNode exTextRoot) 0 ["a"]).map
        (newFromNode exTextRoot).srcf).Perm (findAllQ ["a"] exTextRoot) := by
  intro h
  have hlen := h.length_eq
  have h1 : ((findAllM (newFromNode exTextRoot) 0 ["a"]).map
      (newFromNode exTextRoot).srcf).length = 1 := by
    rw [newFromNode_eval]
    decide
  have h2 : (findAllQ ["a"] exTextRoot).length = 2 := by
    rw [findAllQ_eval]
    decide
  rw [h1, h2] at hlen
  omega

theorem claim_C5_witness :
    (hwfL exPollute.kids = true ∧
      (∀ nd ∈ allNodesL exPollute.kids, nd.kind ≠ NKind.element →
        elemPred ["a"] nd = false)) ∧
    ((findAllM (newFromNode exPollute) 0 ["a"]).map
      (newFromNode exPollute).srcf).Perm (findAllQ ["a"] exPollute) :=
  ⟨⟨by decide, by decide⟩, claim_C5_amended exPollute ["a"] (by decide) (by decide)⟩

/-- C6. The spec states that querying a tag or attribute pair absent
from the whole document yields an empty sequence on all four query
paths.  Three paths comply, but the indexed `Find` path violates it:
because of the self-test shadowing bug, a node whose `Attrs[K]` is
non-empty returns itself even for a value V that appears nowhere.  On
`exAttrRoot` (only pair `k=w`), querying `("k","v")` on node 1 returns
`[1]` instead of `[]`. -/
theorem claim_C6_code_bug :
    findAllM (newFromNode exAttrRoot) 0 ["zz"] = [] ∧
    findAllQ ["zz"] exAttrRoot = [] ∧
    findQ "k" "v" exAttrRoot = [] ∧
    findM (newFromNode exAttrRoot) 0 "k" "v" = [] ∧
    findM (newFromNode exAttrRoot) 1 "k" "v" = [1] := by
  rw [newFromNode_eval, findAllQ_eval, findQ_eval]
  exact ⟨rfl, rfl, rfl, rfl, rfl⟩

/-- C7. The search function produced by the package-level closures is a
single queue-based breadth-first traversal: it visits every occurrence
of the raw tree exactly once (the visit order is a permutation of the
occurrence list), and the result is exactly the predicate-filtered visit
order, i.e. matches in discovery order with no occurrence visited
twice. -/
theorem claim_C7 (tags : List String) (attrKey attrVal : String) (root : HNode) :
    findAllQ tags root = (visitList [root]).filter (elemPred tags) ∧
    findQ attrKey attrVal root = (visitList [root]).filter (attrPred attrKey attrVal) ∧
    (visitList [root]).Perm (allNodes root) :=
  ⟨genRun_eq_filter_visitList _ [root], genRun_eq_filter_visitList _ [root],
    visitList_root_perm root⟩

/-- C8. For every indexed node, the attribute map equals the
specification function `attrSpecF` of its raw source: each key's value
sequence lists that key's attribute occurrences in document order, and
the reserved empty-string key additionally accumulates the trimmed,
non-empty text contents of direct text-node children, in document
order, as separate entries. -/
theorem claim_C8 (root : HNode) (p : Nat)
    (hp : p < (newFromNode root).nextPos) (k : String) :
    (newFromNode root).attrsf p k = attrSpecF ((newFromNode root).srcf p) k := by
  obtain ⟨hU, _, _⟩ := newFromNode_final root
  have hD := downState_inv root
  have hnotin : p ∉ ([] : List (HNode × Nat)).map Prod.snd := by simp
  have hpn : p < (downState root).nextPos := by
    rw [← hU.minv.e_npos]
    exact hp
  rw [hU.minv.e_at, hU.minv.e_src]
  exact hD.attrs_done p hpn hnotin k

theorem claim_C8_witness :
    1 < (newFromNode exC8Root).nextPos ∧
    (newFromNode exC8Root).attrsf 1 "" = attrSpecF ((newFromNode exC8Root).srcf 1) "" :=
  ⟨by rw [newFromNode_eval]; decide,
    claim_C8 exC8Root 1 (by rw [newFromNode_eval]; decide) ""⟩

/-- C9. `NewFromNode` terminates on every finite tree: the upward loop,
run with fuel equal to the node count, drains its queue completely, the
root is reached and processed, and every indexed node is popped exactly
once (the processing order is a permutation of all positions). -/
theorem claim_C9 (root : HNode) :
    (newFromNode root).upQueue = [] ∧
    0 ∈ (newFromNode root).processed ∧
    (newFromNode root).processed.Perm (List.range (newFromNode root).nextPos) := by
  obtain ⟨hU, hqe, hall⟩ := newFromNode_final root
  have hD := downState_inv root
  have hnp : (newFromNode root).nextPos = (downState root).nextPos := hU.minv.e_npos
  refine ⟨hqe, hall 0 hD.pos1, ?_⟩
  refine (List.perm_ext_iff_of_nodup hU.proc_nodup (List.nodup_range _)).mpr ?_
  intro x
  rw [List.mem_range, hnp]
  constructor
  · exact hU.proc_sub x
  · exact hall x

/-- C10. The package-level `FindAll` closure compares every traversed
node's `Data` against the tags regardless of node kind: on `exTextRoot`
the query for tag `"a"` returns both the `a` element and the text node
whose textual content is `"a"`. -/
theorem claim_C10 :
    findAllQ ["a"] exTextRoot
      = [HNode.mk NKind.element "a" [] [], HNode.mk NKind.text "a" [] []] ∧
    (HNode.mk NKind.text "a" [] []).kind ≠ NKind.element ∧
    HNode.mk NKind.text "a" [] [] ∈ findAllQ ["a"] exTextRoot := by
  rw [findAllQ_eval]
  exact ⟨rfl, by decide, by decide⟩

end StewVerify
